import Mathlib

/-!
# Expression element parsers (`dbms/src/Parsers/ExpressionElementParsers.cpp`)

A shallow embedding of the `parseImpl` methods of the expression element parsers.

* The input is a region of memory `buf : List Char` (one element per byte) together with the
  offset `end_` of the end pointer; a cursor (the C++ `Pos`) is an offset into `buf`, a
  `Nat`.  Memory after `end_` is part of `buf`, a read outside `buf` is undefined behaviour
  (`Outcome.fault`).
* The three reference parameters of `parseImpl` (`pos`, `node`, `expected`) form a `State`;
  a call returns `true`/`false` with the new state, throws, or faults.
* Code of the repository that the file only calls (`ParserString`, the whitespace skipper, the
  expression list and select parsers, `readBackQuotedString`, `parseEscapeSequence`, the
  collator constructor, `getName`) is a field of `Env`; every theorem is stated for every `Env`.
-/

namespace DB

/-! ## Data model -/

/-- The source span `StringRange(first, second)`. -/
structure StringRange where
  first : Nat
  second : Nat
  deriving DecidableEq, Repr

/-- The symbolic value of a decoded `Float64`: what `strtod` read. -/
inductive Float64
  /-- A decimal or hexadecimal number `(-1)^negative * mantissa * radix^exponent`. -/
  | finite (negative : Bool) (mantissa : Nat) (radix : Nat) (exponent : Int)
  | infinity (negative : Bool)
  | nan (negative : Bool)
  deriving DecidableEq, Repr

/-- The value of a literal (`Field`). -/
inductive Field
  | null
  | uint64 (v : Nat)
  | int64 (v : Int)
  | float64 (v : Float64)
  | string (s : List Char)
  deriving DecidableEq, Repr

/-- The collator handle built from a locale name. -/
structure Collator where
  locale : List Char
  deriving DecidableEq, Repr

/-- AST nodes.  An `ASTPtr` is an `Option AST` (`none` is the null pointer); `children` is the
`children` vector of `IAST`. -/
inductive AST where
  | identifier (range : StringRange) (name : List Char) (alias_ : List Char)
  | literal (range : StringRange) (value : Field) (alias_ : List Char)
  | function (range : StringRange) (name : List Char) (arguments : Option AST)
      (parameters : Option AST) (alias_ : List Char) (children : List (Option AST))
  | asterisk (range : StringRange)
  | subquery (range : StringRange) (children : List (Option AST))
  | orderByElement (range : StringRange) (direction : Int) (collator : Option Collator)
      (children : List (Option AST))
  | expressionList (range : StringRange) (children : List (Option AST))
  | selectQuery (range : StringRange) (children : List (Option AST))

/-- The span stored in a node. -/
def AST.range : AST → StringRange
  | .identifier r _ _ => r
  | .literal r _ _ => r
  | .function r _ _ _ _ _ => r
  | .asterisk r => r
  | .subquery r _ => r
  | .orderByElement r _ _ _ => r
  | .expressionList r _ => r
  | .selectQuery r _ => r

/-- The reference parameters of `parseImpl`: cursor, output node, diagnostic. -/
structure State where
  pos : Nat
  node : Option AST
  expected : String

/-- What a call of a parser does: it returns `true` or `false` leaving the reference
parameters in `st`, it throws a `DB::Exception` with a message, or it faults (a read outside
the buffer, a null dereference, a failed reference cast). -/
inductive Outcome where
  | returned (ok : Bool) (st : State)
  | thrown (message : List Char)
  | fault

/-- Sequencing: exceptions and faults end the caller as well. -/
def Outcome.andThen (o : Outcome) (k : Bool → State → Outcome) : Outcome :=
  match o with
  | .returned ok st => k ok st
  | .thrown m => .thrown m
  | .fault => .fault

/-- A parser seen from its caller: buffer, end offset, reference parameters. -/
abbrev Parser := List Char → Nat → State → Outcome

/-- The parsers of this file, for `getName`. -/
inductive ParserKind
  | array | parenthesisExpression | subquery | identifier | compoundIdentifier | function
  | null | number | stringLiteral | literal | alias_ | expressionElement | withOptionalAlias
  | orderByElement
  deriving DecidableEq, Repr

/-- What `readBackQuotedString` does on the bytes `[pos, end)`: the decoded text and
`buf.count()`, or an exception. -/
inductive BackQuoted where
  | decoded (s : List Char) (count : Nat)
  | thrown (message : List Char)

/-- The code this file calls and does not define. -/
structure Env where
  /-- `ParserString(s, word_boundary, case_insensitive).parse`. -/
  parserString : String → Bool → Bool → Parser
  /-- `ParserWhiteSpaceOrComments().parse`. -/
  whiteSpaceOrComments : Parser
  /-- `ParserExpressionList().parse`. -/
  expressionList : Parser
  /-- `ParserSelectQuery().parse`. -/
  selectQuery : Parser
  /-- `ParserExpressionWithOptionalAlias().parse`. -/
  expressionWithOptionalAlias : Parser
  /-- `readBackQuotedString` on a `ReadBuffer` over the given bytes. -/
  readBackQuotedString : List Char → BackQuoted
  /-- `parseEscapeSequence`. -/
  parseEscapeSequence : Char → Char
  /-- `new Collator(locale)`: the handle, or the message of the exception it throws. -/
  newCollator : List Char → Except (List Char) Collator
  /-- `getName()` of the parsers of this file. -/
  getName : ParserKind → String

/-- Modelled from the spec: `IParserBase::parse` (section 4.1), which is not in this file.  It
runs `parseImpl` with a fresh diagnostic initialised to the name of the parser; on failure
the caller's `expected` is overwritten with it, on success it is left alone.  The cursor is
not restored on failure. -/
def parse (name : String) (impl : State → Outcome) (st : State) : Outcome :=
  (impl { st with expected := name }).andThen fun ok st1 =>
    if ok then .returned true { st1 with expected := st.expected }
    else .returned false st1

/-- Modelled from the spec: `IParser::ignore(pos, end, expected)` (section 4.1, the ignore
form): the parser runs on a node of its own, the caller's node is not touched. -/
def ignore (p : State → Outcome) (st : State) : Outcome :=
  (p { st with node := none }).andThen fun ok st1 =>
    .returned ok { st1 with node := st.node }

/-- Modelled from the spec: `IParser::ignore(pos, end)`: as `ignore`, with a diagnostic of
its own as well. -/
def ignore2 (p : State → Outcome) (st : State) : Outcome :=
  (p { st with node := none, expected := "" }).andThen fun ok st1 =>
    .returned ok { pos := st1.pos, node := st.node, expected := st.expected }

/-! ## Character classes and memory -/

def backQuote : Char := Char.ofNat 96
def singleQuote : Char := Char.ofNat 39
def backSlash : Char := Char.ofNat 92

/-- `(c >= 'a' && c <= 'z') || (c >= 'A' && c <= 'Z') || c == '_'`. -/
def isWordStart (c : Char) : Bool :=
  (decide ('a' ≤ c) && decide (c ≤ 'z')) || (decide ('A' ≤ c) && decide (c ≤ 'Z')) || c == '_'

/-- `c >= '0' && c <= '9'`. -/
def isDigit (c : Char) : Bool :=
  decide ('0' ≤ c) && decide (c ≤ '9')

/-- The bytes `[first, second)` of the buffer: `String(first, second - first)`. -/
def slice (buf : List Char) (first second : Nat) : List Char :=
  (buf.drop first).take (second - first)

/-! ## ParserIdentifier, ParserCompoundIdentifier -/

/-- The loop `while (pos != end && (letter || '_' || (pos != begin && digit))) ++pos;`.
`mem` is the memory from `pos` on; `none` is a read outside the buffer. -/
def scanName (end_ begin_ : Nat) : List Char → Nat → Option Nat
  | [], pos => if pos = end_ then some pos else none
  | c :: mem, pos =>
    if pos = end_ then some pos
    else if isWordStart c || (decide (pos ≠ begin_) && isDigit c) then
      scanName end_ begin_ mem (pos + 1)
    else some pos

/-- The back-quoted branch shared by `ParserIdentifier` and `ParserCompoundIdentifier`. -/
def backQuotedIdentifier (env : Env) (buf : List Char) (end_ : Nat) (st : State) : Outcome :=
  match env.readBackQuotedString (slice buf st.pos end_) with
  | .decoded s count =>
    .returned true
      { st with pos := st.pos + count,
                node := some (.identifier ⟨st.pos, st.pos + count⟩ s []) }
  | .thrown m => .thrown m

/-- `ParserIdentifier::parseImpl`. -/
def ParserIdentifier.parseImpl (env : Env) (buf : List Char) (end_ : Nat) (st : State) :
    Outcome :=
  let begin_ := st.pos
  if st.pos = end_ then
    -- the loop does not run, `pos == begin`
    .returned false st
  else
    match buf[st.pos]? with
    | none => .fault
    | some c =>
      if c = backQuote then backQuotedIdentifier env buf end_ st
      else
        match scanName end_ begin_ (buf.drop st.pos) st.pos with
        | none => .fault
        | some pos =>
          if pos ≠ begin_ then
            .returned true
              { st with pos := pos,
                        node := some (.identifier ⟨begin_, pos⟩ (slice buf begin_ pos) []) }
          else .returned false { st with pos := pos }

/-- The outer loop of `ParserCompoundIdentifier::parseImpl`: a run of name characters, then a
dot when it is followed, before `end`, by something that is not a digit.  Every round but
the last consumes a dot, so `fuel` larger than the number of bytes left is never used up. -/
def compoundLoop (buf : List Char) (end_ begin_ : Nat) : Nat → Nat → Option Nat
  | 0, _ => none
  | fuel + 1, pos =>
    if pos = end_ then some pos
    else
      match scanName end_ begin_ (buf.drop pos) pos with
      | none => none
      | some p =>
        if p ≠ begin_ ∧ p + 1 < end_ then
          match buf[p]? with
          | none => none
          | some c =>
            if c = '.' then
              match buf[p + 1]? with
              | none => none
              | some d => if isDigit d then some p else compoundLoop buf end_ begin_ fuel (p + 1)
            else some p
        else some p

/-- `ParserCompoundIdentifier::parseImpl`. -/
def ParserCompoundIdentifier.parseImpl (env : Env) (buf : List Char) (end_ : Nat)
    (st : State) : Outcome :=
  let begin_ := st.pos
  if st.pos = end_ then
    .returned false st
  else
    match buf[st.pos]? with
    | none => .fault
    | some c =>
      if c = backQuote then backQuotedIdentifier env buf end_ st
      else
        match compoundLoop buf end_ begin_ (buf.length + 1) st.pos with
        | none => .fault
        | some pos =>
          if pos ≠ begin_ then
            .returned true
              { st with pos := pos,
                        node := some (.identifier ⟨begin_, pos⟩ (slice buf begin_ pos) []) }
          else .returned false { st with pos := pos }

/-! ## ParserStringLiteral -/

/-- The loop `for (; pos + bytes != end; ++bytes) if (pos[bytes] == '\\' || pos[bytes] == '\'')
break;`: the offset `pos + bytes` it stops at.  `mem` is the memory from `pos` on. -/
def scanRun (end_ : Nat) : List Char → Nat → Option Nat
  | [], p => if p = end_ then some p else none
  | c :: mem, p =>
    if p = end_ then some p
    else if c = backSlash ∨ c = singleQuote then some p
    else scanRun end_ mem (p + 1)

/-- The loop `while (pos != end)` of `ParserStringLiteral::parseImpl`, with the two statements
after it.  `*pos` is read after the run without a test against `end`.  A round that goes on
moves the cursor by two bytes at least or leaves it on `end`, so `fuel` larger than the
buffer is never used up. -/
def stringLiteralLoop (env : Env) (buf : List Char) (end_ begin_ : Nat) (st : State) :
    Nat → Nat → List Char → Outcome
  | 0, _, _ => .fault
  | fuel + 1, pos, s =>
    if pos = end_ then
      .returned false { st with pos := pos, expected := "closing single quote" }
    else
      match scanRun end_ (buf.drop pos) pos with
      | none => .fault
      | some p =>
        let s1 := s ++ slice buf pos p
        match buf[p]? with
        | none => .fault
        | some c =>
          if c = singleQuote then
            .returned true
              { st with pos := p + 1, node := some (.literal ⟨begin_, p + 1⟩ (.string s1) []) }
          else if c = backSlash then
            if p + 1 = end_ then
              .returned false { st with pos := p + 1, expected := "escape sequence" }
            else
              match buf[p + 1]? with
              | none => .fault
              | some e =>
                stringLiteralLoop env buf end_ begin_ st fuel (p + 2)
                  (s1 ++ [env.parseEscapeSequence e])
          else stringLiteralLoop env buf end_ begin_ st fuel p s1

/-- `ParserStringLiteral::parseImpl`. -/
def ParserStringLiteral.parseImpl (env : Env) (buf : List Char) (end_ : Nat) (st : State) :
    Outcome :=
  let begin_ := st.pos
  if st.pos = end_ then
    .returned false { st with expected := "opening single quote" }
  else
    match buf[st.pos]? with
    | none => .fault
    | some c =>
      if c ≠ singleQuote then
        .returned false { st with expected := "opening single quote" }
      else
        stringLiteralLoop env buf end_ begin_ st (buf.length + 2) (st.pos + 1) []

/-! ## The C library: `strtod`, `strtoull`, `strtoll` -/

/-- `isspace` in the C locale. -/
def isSpace (c : Char) : Bool :=
  c == ' ' || (decide (9 ≤ c.toNat) && decide (c.toNat ≤ 13))

/-- The value of a digit in bases up to 16. -/
def digitValue (c : Char) : Option Nat :=
  if isDigit c then some (c.toNat - 48)
  else if decide ('a' ≤ c) && decide (c ≤ 'f') then some (c.toNat - 87)
  else if decide ('A' ≤ c) && decide (c ≤ 'F') then some (c.toNat - 55)
  else none

/-- Whether `c` is a digit of base `base`. -/
def isDigitOf (base : Nat) (c : Char) : Bool :=
  match digitValue c with
  | some v => decide (v < base)
  | none => false

/-- The number written by the leading digits of base `base`, continuing from `acc`. -/
def digitsValue (base : Nat) : Nat → List Char → Nat
  | acc, [] => acc
  | acc, c :: cs =>
    match digitValue c with
    | some v => if v < base then digitsValue base (acc * base + v) cs else acc
    | none => acc

/-- The leading digits of base `base`. -/
def takeDigits (base : Nat) (s : List Char) : List Char :=
  s.takeWhile (isDigitOf base)

/-- An optional sign: whether it is a minus, and the number of bytes it takes. -/
def readSign : List Char → Bool × Nat
  | '-' :: _ => (true, 1)
  | '+' :: _ => (false, 1)
  | _ => (false, 0)

/-- What an integer conversion returns: the bytes consumed (`endptr - nptr`, zero when there
is no conversion), the magnitude read, whether a minus sign was read. -/
structure IntegerText where
  consumed : Nat
  magnitude : Nat
  negative : Bool
  deriving DecidableEq, Repr

/-- The lexical part of `strtoull` and `strtoll` with base 0: white space, a sign, `0x` or `0X`
before a hexadecimal digit for base 16, a leading `0` for base 8, base 10 otherwise. -/
def strtoInteger (s : List Char) : IntegerText :=
  let ws := (s.takeWhile isSpace).length
  let s1 := s.drop ws
  let sign := readSign s1
  let s2 := s1.drop sign.2
  match s2 with
  | '0' :: x :: h :: _ =>
    if (x == 'x' || x == 'X') && isDigitOf 16 h then
      let ds := takeDigits 16 (s2.drop 2)
      ⟨ws + sign.2 + 2 + ds.length, digitsValue 16 0 ds, sign.1⟩
    else
      let ds := takeDigits 8 s2
      ⟨ws + sign.2 + ds.length, digitsValue 8 0 ds, sign.1⟩
  | '0' :: _ =>
    let ds := takeDigits 8 s2
    ⟨ws + sign.2 + ds.length, digitsValue 8 0 ds, sign.1⟩
  | _ =>
    let ds := takeDigits 10 s2
    if ds.length = 0 then ⟨0, 0, false⟩
    else ⟨ws + sign.2 + ds.length, digitsValue 10 0 ds, sign.1⟩

/-- The result of `strtoull(buf, &pos_integer, 0)`: bytes consumed, value, `errno == ERANGE`.
A magnitude above `2^64 - 1` is a range error; a minus sign negates modulo `2^64`. -/
def strtoull (s : List Char) : Nat × Nat × Bool :=
  let t := strtoInteger s
  if t.magnitude ≥ 2 ^ 64 then (t.consumed, 2 ^ 64 - 1, true)
  else if t.negative then (t.consumed, (2 ^ 64 - t.magnitude) % 2 ^ 64, false)
  else (t.consumed, t.magnitude, false)

/-- The result of `strtoll(buf, &pos_integer, 0)`: bytes consumed, value, `errno == ERANGE`. -/
def strtoll (s : List Char) : Nat × Int × Bool :=
  let t := strtoInteger s
  if t.negative then
    if t.magnitude > 2 ^ 63 then (t.consumed, -(2 ^ 63 : Int), true)
    else (t.consumed, -(t.magnitude : Int), false)
  else
    if t.magnitude ≥ 2 ^ 63 then (t.consumed, (2 ^ 63 - 1 : Int), true)
    else (t.consumed, (t.magnitude : Int), false)

/-- The digits of a mantissa in base `base` with an optional radix point, one digit at
least: the bytes it takes, the number its digits write, the count of digits after the
point. -/
def readMantissa (base : Nat) (s : List Char) : Option (Nat × Nat × Nat) :=
  let ip := takeDigits base s
  match s.drop ip.length with
  | '.' :: fr =>
    let fp := takeDigits base fr
    if ip.length + fp.length = 0 then none
    else some (ip.length + 1 + fp.length, digitsValue base 0 (ip ++ fp), fp.length)
  | _ =>
    if ip.length = 0 then none else some (ip.length, digitsValue base 0 ip, 0)

/-- An optional exponent part: a marker, an optional sign, one decimal digit at least.  The
bytes it takes (zero when it is absent or incomplete) and its value. -/
def readExponent (isMarker : Char → Bool) : List Char → Nat × Int
  | [] => (0, 0)
  | m :: rest =>
    if isMarker m then
      let sign := readSign rest
      let ds := takeDigits 10 (rest.drop sign.2)
      if ds.length = 0 then (0, 0)
      else
        (1 + sign.2 + ds.length,
          if sign.1 then -(digitsValue 10 0 ds : Int) else (digitsValue 10 0 ds : Int))
    else (0, 0)

/-- Whether `s` starts with the lower-case word `word`, ignoring case. -/
def startsWithIgnoreCase (s : List Char) (word : List Char) : Bool :=
  (s.take word.length).map Char.toLower == word

/-- The characters allowed between the parentheses of `NAN(...)`. -/
def isNChar (c : Char) : Bool :=
  isWordStart c || isDigit c

/-- `INF`, `INFINITY`, `NAN`, `NAN(n-char-sequence)`, ignoring case. -/
def strtodSpecial (negative : Bool) (s : List Char) : Nat × Float64 :=
  if startsWithIgnoreCase s "infinity".toList then (8, .infinity negative)
  else if startsWithIgnoreCase s "inf".toList then (3, .infinity negative)
  else if startsWithIgnoreCase s "nan".toList then
    match s.drop 3 with
    | '(' :: rest =>
      let cs := rest.takeWhile isNChar
      match rest.drop cs.length with
      | ')' :: _ => (3 + 1 + cs.length + 1, .nan negative)
      | _ => (3, .nan negative)
    | _ => (3, .nan negative)
  else (0, .finite negative 0 10 0)

/-- A decimal floating-point constant, else a special value. -/
def strtodDecimal (negative : Bool) (s : List Char) : Nat × Float64 :=
  match readMantissa 10 s with
  | some (n, m, fd) =>
    let e := readExponent (fun c => c == 'e' || c == 'E') (s.drop n)
    (n + e.1, .finite negative m 10 (e.2 - fd))
  | none => strtodSpecial negative s

/-- The subject sequence of `strtod` after the sign: a hexadecimal constant (`0x`, then a
mantissa, then an optional binary exponent), else a decimal one, else a special value. -/
def strtodSubject (negative : Bool) (s : List Char) : Nat × Float64 :=
  match s with
  | '0' :: x :: rest =>
    if x == 'x' || x == 'X' then
      match readMantissa 16 rest with
      | some (n, m, fd) =>
        let e := readExponent (fun c => c == 'p' || c == 'P') (rest.drop n)
        (2 + n + e.1, .finite negative m 2 (e.2 - 4 * fd))
      | none => strtodDecimal negative s
    else strtodDecimal negative s
  | _ => strtodDecimal negative s

/-- The result of `strtod(buf, &pos_double)` in the C locale: the bytes consumed
(`pos_double - buf`, zero when there is no conversion) and the value read. -/
def strtod (s : List Char) : Nat × Float64 :=
  let ws := (s.takeWhile isSpace).length
  let s1 := s.drop ws
  let sign := readSign s1
  let r := strtodSubject sign.1 (s1.drop sign.2)
  if r.1 = 0 then (0, r.2) else (ws + sign.2 + r.1, r.2)

/-- `errno == ERANGE` after `strtod`: the value rounds to an infinity (its magnitude is
`2^1024 - 2^970` at least), or it is not zero, below the least normal number `2^-1022` and
not a multiple of `2^-1074`. -/
def Float64.rangeError : Float64 → Bool
  | .finite _ m radix e =>
    let num := if e ≥ 0 then m * radix ^ e.toNat else m
    let den := if e ≥ 0 then 1 else radix ^ (-e).toNat
    decide (num ≥ (2 ^ 1024 - 2 ^ 970) * den) ||
      (decide (num ≠ 0) && decide (num * 2 ^ 1022 < den) && decide ((num * 2 ^ 1074) % den ≠ 0))
  | _ => false

/-- The test `float_value < 0` (false for a zero of either sign and for a NaN). -/
def Float64.isNegative : Float64 → Bool
  | .finite negative m _ _ => negative && decide (m ≠ 0)
  | .infinity negative => negative
  | .nan _ => false

/-! ## ParserNull, ParserNumber, ParserLiteral -/

/-- `ParserNull::parseImpl`. -/
def ParserNull.parseImpl (env : Env) (buf : List Char) (end_ : Nat) (st : State) : Outcome :=
  let begin_ := st.pos
  (env.parserString "NULL" true false buf end_ st).andThen fun ok st1 =>
    if ok then
      .returned true { st1 with node := some (.literal ⟨begin_, st1.pos⟩ .null []) }
    else .returned false st1

/-- `ParserNumber::parseImpl`.  `text` is the C string in the scratch buffer: the bytes copied,
up to the first zero byte. -/
def ParserNumber.parseImpl (_env : Env) (buf : List Char) (end_ : Nat) (st : State) :
    Outcome :=
  let begin_ := st.pos
  if st.pos = end_ then .returned false st
  else if end_ < st.pos then .fault
  else
    let bytes_to_copy := if end_ - st.pos < 319 then end_ - st.pos else 319
    if buf.length < st.pos + bytes_to_copy then .fault
    else
      let text := (slice buf st.pos (st.pos + bytes_to_copy)).takeWhile (· ≠ Char.ofNat 0)
      let d := strtod text
      if d.1 = 0 ∨ d.2.rangeError = true then
        .returned false { st with expected := "number" }
      else
        let res : Field :=
          if d.2.isNegative then
            let i := strtoll text
            if i.1 = d.1 ∧ i.2.2 = false then .int64 i.2.1 else .float64 d.2
          else
            let u := strtoull text
            if u.1 = d.1 ∧ u.2.2 = false then .uint64 u.2.1 else .float64 d.2
        let pos := st.pos + d.1
        .returned true { st with pos := pos, node := some (.literal ⟨begin_, pos⟩ res []) }

/-- `ParserLiteral::parseImpl`. -/
def ParserLiteral.parseImpl (env : Env) (buf : List Char) (end_ : Nat) (st : State) :
    Outcome :=
  let begin_ := st.pos
  (parse (env.getName .null) (ParserNull.parseImpl env buf end_) st).andThen fun ok st1 =>
    if ok then .returned true st1
    else
      (parse (env.getName .number) (ParserNumber.parseImpl env buf end_)
        { st1 with pos := begin_ }).andThen fun ok st2 =>
      if ok then .returned true st2
      else
        (parse (env.getName .stringLiteral) (ParserStringLiteral.parseImpl env buf end_)
          { st2 with pos := begin_ }).andThen fun ok st3 =>
        if ok then .returned true st3
        else
          .returned false
            { st3 with pos := begin_,
                       expected := "literal: one of nullptr, number, single quoted string" }

/-! ## ParserArray, ParserParenthesisExpression, ParserSubquery -/

/-- The call `ws.ignore(pos, end)`, whose result no caller in this file looks at. -/
def skipWhiteSpace (env : Env) (buf : List Char) (end_ : Nat) (st : State)
    (k : State → Outcome) : Outcome :=
  (ignore2 (env.whiteSpaceOrComments buf end_) st).andThen fun _ st1 => k st1

/-- The call `contents.parse(pos, end, contents_node, expected)` on a local node that starts
null; its result is not looked at.  The continuation gets the local node and the state with
the caller's node back in place. -/
def parseContents (p : State → Outcome) (st : State)
    (k : Option AST → State → Outcome) : Outcome :=
  (p { st with node := none }).andThen fun _ st1 => k st1.node { st1 with node := st.node }

/-- The statements after an opening parenthesis or bracket has been read: white space, the
contents parsed into a local node, white space, the closing text.  `k` is the rest of
`parseImpl`, given the local node. -/
def delimitedRest (env : Env) (closing : String) (contents : Parser) (buf : List Char)
    (end_ : Nat) (st1 : State) (k : Option AST → State → Outcome) : Outcome :=
  skipWhiteSpace env buf end_ st1 fun st2 =>
  parseContents (contents buf end_) st2 fun contents_node st3 =>
  skipWhiteSpace env buf end_ st3 fun st4 =>
  (ignore (env.parserString closing false false buf end_) st4).andThen fun ok st5 =>
    if !ok then .returned false st5 else k contents_node st5

/-- The statements that `ParserArray`, `ParserParenthesisExpression` and `ParserSubquery`
begin with: the opening text, then `delimitedRest`. -/
def delimited (env : Env) (opening closing : String) (contents : Parser) (buf : List Char)
    (end_ : Nat) (st : State) (k : Option AST → State → Outcome) : Outcome :=
  (ignore (env.parserString opening false false buf end_) st).andThen fun ok st1 =>
    if !ok then .returned false st1
    else delimitedRest env closing contents buf end_ st1 k

/-- `ParserArray::parseImpl`. -/
def ParserArray.parseImpl (env : Env) (buf : List Char) (end_ : Nat) (st : State) : Outcome :=
  let begin_ := st.pos
  delimited env "[" "]" env.expressionList buf end_ st fun contents_node st5 =>
    .returned true
      { st5 with node := some (.function ⟨begin_, st5.pos⟩ "array".toList contents_node
                                none [] [contents_node]) }

/-- The end of `ParserParenthesisExpression::parseImpl`, after the closing parenthesis.  The
reference cast of `*contents_node` to `ASTExpressionList` faults on a null pointer and on a
node of another kind. -/
def parenthesisResult (begin_ : Nat) (contents_node : Option AST) (st5 : State) : Outcome :=
  match contents_node with
  | some (.expressionList _ children) =>
    match children with
    | [] =>
      .returned false { st5 with expected := "not empty list of expressions in parenthesis" }
    | [front] => .returned true { st5 with node := front }
    | _ :: _ :: _ =>
      .returned true
        { st5 with node := some (.function ⟨begin_, st5.pos⟩ "tuple".toList contents_node
                                  none [] [contents_node]) }
  | _ => .fault

/-- `ParserParenthesisExpression::parseImpl`. -/
def ParserParenthesisExpression.parseImpl (env : Env) (buf : List Char) (end_ : Nat)
    (st : State) : Outcome :=
  delimited env "(" ")" env.expressionList buf end_ st (parenthesisResult st.pos)

/-- `ParserSubquery::parseImpl`. -/
def ParserSubquery.parseImpl (env : Env) (buf : List Char) (end_ : Nat) (st : State) :
    Outcome :=
  let begin_ := st.pos
  delimited env "(" ")" env.selectQuery buf end_ st fun select_node st5 =>
    .returned true { st5 with node := some (.subquery ⟨begin_, st5.pos⟩ [select_node]) }

/-! ## ParserFunction -/

/-- One conjunct `contents_begin[i]` of the `toDate` check: the byte is read only when the
conjuncts before it hold.  `none` is a read outside the buffer. -/
def checkByte (buf : List Char) (i : Nat) (p : Char → Bool) (rest : Option Bool) :
    Option Bool :=
  match buf[i]? with
  | none => none
  | some c => if p c then rest else some false

/-- The condition of the `toDate` check after the test of the name:
`contents_end - contents_begin == strlen("2014-01-01")` and the ten tests of the bytes. -/
def looksLikeUnquotedDate (buf : List Char) (contents_begin contents_end : Nat) :
    Option Bool :=
  if contents_end = contents_begin + 10 then
    checkByte buf contents_begin (fun c => decide ('2' ≤ c) && decide (c ≤ '3')) <|
    checkByte buf (contents_begin + 1) isDigit <|
    checkByte buf (contents_begin + 2) isDigit <|
    checkByte buf (contents_begin + 3) isDigit <|
    checkByte buf (contents_begin + 4) (· == '-') <|
    checkByte buf (contents_begin + 5) isDigit <|
    checkByte buf (contents_begin + 6) isDigit <|
    checkByte buf (contents_begin + 7) (· == '-') <|
    checkByte buf (contents_begin + 8) isDigit <|
    checkByte buf (contents_begin + 9) isDigit <|
    some true
  else some false

/-- The message of the exception of the `toDate` check. -/
def unquotedDateMessage (contents : List Char) : List Char :=
  "Argument of function toDate is unquoted: toDate(".toList ++ contents ++
    "), must be: toDate('".toList ++ contents ++ "')".toList

/-- The statements `ParserFunction::parseImpl` begins with, up to the first closing
parenthesis: the identifier, white space, `(`, white space, the first list, white space,
`)`.  `k` is the rest of `parseImpl`, given the identifier node, `contents_begin`,
`contents_end` and the node of the list. -/
def functionHead (env : Env) (buf : List Char) (end_ : Nat) (st : State)
    (k : Option AST → Nat → Nat → Option AST → State → Outcome) : Outcome :=
  (parse (env.getName .identifier) (ParserIdentifier.parseImpl env buf end_)
      { st with node := none }).andThen fun ok st1 =>
    let identifier := st1.node
    let st1 := { st1 with node := st.node }
    if !ok then .returned false st1
    else
      skipWhiteSpace env buf end_ st1 fun st2 =>
      (ignore (env.parserString "(" false false buf end_) st2).andThen fun ok st3 =>
        if !ok then .returned false st3
        else
          skipWhiteSpace env buf end_ st3 fun st4 =>
          let contents_begin := st4.pos
          parseContents (env.expressionList buf end_) st4 fun expr_list_args st5 =>
          let contents_end := st5.pos
          skipWhiteSpace env buf end_ st5 fun st6 =>
          (ignore (env.parserString ")" false false buf end_) st6).andThen fun ok st7 =>
            if !ok then .returned false st7
            else k identifier contents_begin contents_end expr_list_args st7

/-- The node `ParserFunction::parseImpl` builds: the second child is there when `parameters`
is not null. -/
def functionNode (begin_ : Nat) (name : List Char) (arguments parameters : Option AST)
    (st : State) : State :=
  { st with node := some (.function ⟨begin_, st.pos⟩ name arguments parameters []
                      (match parameters with
                       | some _ => [arguments, parameters]
                       | none => [arguments])) }

/-- The end of `ParserFunction::parseImpl`, from the test for a second opening parenthesis
on: `name` is the name of the identifier, `first_list` the node of the first list.  No white
space is skipped before the second `(`. -/
def functionSecondList (env : Env) (buf : List Char) (end_ begin_ : Nat) (name : List Char)
    (first_list : Option AST) (st : State) : Outcome :=
  (ignore (env.parserString "(" false false buf end_) st).andThen fun ok st1 =>
    if ok then
      delimitedRest env ")" env.expressionList buf end_ st1 fun second_list st5 =>
        .returned true (functionNode begin_ name second_list first_list st5)
    else .returned true (functionNode begin_ name first_list none st1)

/-- The `toDate` check of `ParserFunction::parseImpl` and what follows it. -/
def functionCheck (env : Env) (buf : List Char) (end_ begin_ : Nat) (identifier : Option AST)
    (contents_begin contents_end : Nat) (expr_list_args : Option AST) (st7 : State) :
    Outcome :=
  match identifier with
  | some (.identifier _ name _) =>
    if name = "toDate".toList then
      match looksLikeUnquotedDate buf contents_begin contents_end with
      | none => .fault
      | some true => .thrown (unquotedDateMessage (slice buf contents_begin contents_end))
      | some false => functionSecondList env buf end_ begin_ name expr_list_args st7
    else functionSecondList env buf end_ begin_ name expr_list_args st7
  | _ => .fault

/-- `ParserFunction::parseImpl`. -/
def ParserFunction.parseImpl (env : Env) (buf : List Char) (end_ : Nat) (st : State) :
    Outcome :=
  functionHead env buf end_ st (functionCheck env buf end_ st.pos)

/-! ## ParserAlias, ParserExpressionElement, ParserWithOptionalAlias, ParserOrderByElement -/

/-- `ParserAlias::parseImpl`. -/
def ParserAlias.parseImpl (env : Env) (buf : List Char) (end_ : Nat) (st : State) : Outcome :=
  (env.parserString "AS" true true buf end_ st).andThen fun ok st1 =>
    if !ok then .returned false st1
    else
      skipWhiteSpace env buf end_ st1 fun st2 =>
      (parse (env.getName .identifier) (ParserIdentifier.parseImpl env buf end_)
          st2).andThen fun ok st3 =>
        if !ok then .returned false st3 else .returned true st3

/-- One alternative of `ParserExpressionElement::parseImpl`: the parser is tried at `begin_`;
when it fails the next alternative `next` goes on from the state it left. -/
def tryAlternative (p : State → Outcome) (begin_ : Nat) (st : State)
    (next : State → Outcome) : Outcome :=
  (p { st with pos := begin_ }).andThen fun ok st1 =>
    if ok then .returned true st1 else next st1

/-- The alternatives of `ParserExpressionElement::parseImpl` after the parenthesised
expression: array, literal, function, compound identifier, asterisk. -/
def expressionElementFromArray (env : Env) (buf : List Char) (end_ begin_ : Nat)
    (st2 : State) : Outcome :=
  tryAlternative (parse (env.getName .array) (ParserArray.parseImpl env buf end_))
    begin_ st2 fun st3 =>
  tryAlternative (parse (env.getName .literal) (ParserLiteral.parseImpl env buf end_))
    begin_ st3 fun st4 =>
  tryAlternative (parse (env.getName .function) (ParserFunction.parseImpl env buf end_))
    begin_ st4 fun st5 =>
  tryAlternative
    (parse (env.getName .compoundIdentifier) (ParserCompoundIdentifier.parseImpl env buf end_))
    begin_ st5 fun st6 =>
  (env.parserString "*" false false buf end_ { st6 with pos := begin_ }).andThen fun ok st7 =>
    if ok then .returned true { st7 with node := some (.asterisk ⟨begin_, st7.pos⟩) }
    else
      .returned false
        { st7 with
            pos := begin_,
            expected := "expression element: one of array, literal, function, identifier, asterisk, parenthised expression, subquery" }

/-- `ParserExpressionElement::parseImpl`: the subquery, the parenthesised expression, then
the other alternatives. -/
def ParserExpressionElement.parseImpl (env : Env) (buf : List Char) (end_ : Nat)
    (st : State) : Outcome :=
  let begin_ := st.pos
  tryAlternative (parse (env.getName .subquery) (ParserSubquery.parseImpl env buf end_))
    begin_ st fun st1 =>
  tryAlternative
    (parse (env.getName .parenthesisExpression)
      (ParserParenthesisExpression.parseImpl env buf end_))
    begin_ st1 (expressionElementFromArray env buf end_ begin_)

/-- `ParserWithOptionalAlias::parseImpl`; `elemParser` is the `parse` of the
member parser.  The alias goes into a node that is a function, an identifier or a literal. -/
def ParserWithOptionalAlias.parseImpl (env : Env) (elemParser : Parser) (buf : List Char)
    (end_ : Nat) (st : State) : Outcome :=
  (elemParser buf end_ st).andThen fun ok st1 =>
    if !ok then .returned false st1
    else
      skipWhiteSpace env buf end_ st1 fun st2 =>
      (parse (env.getName .alias_) (ParserAlias.parseImpl env buf end_)
          { st2 with node := none }).andThen fun ok st3 =>
        let alias_node := st3.node
        let st3 := { st3 with node := st2.node }
        if ok then
          match alias_node with
          | some (.identifier _ alias_name _) =>
            match st3.node with
            | some (.function r n a p _ ch) =>
              .returned true { st3 with node := some (.function r n a p alias_name ch) }
            | some (.identifier r n _) =>
              .returned true { st3 with node := some (.identifier r n alias_name) }
            | some (.literal r v _) =>
              .returned true { st3 with node := some (.literal r v alias_name) }
            | some _ => .returned false { st3 with expected := "alias cannot be here" }
            | none => .fault
          | _ => .fault
        else .returned true st3

/-- The expression `a.ignore(pos, end) || b.ignore(pos, end)`. -/
def ignoreEither (a b : State → Outcome) (st : State) : Outcome :=
  (ignore2 a st).andThen fun ok st1 =>
    if ok then .returned true st1 else ignore2 b st1

/-- `ParserOrderByElement::parseImpl`. -/
def ParserOrderByElement.parseImpl (env : Env) (buf : List Char) (end_ : Nat) (st : State) :
    Outcome :=
  let begin_ := st.pos
  (env.expressionWithOptionalAlias buf end_ { st with node := none }).andThen fun ok st1 =>
    let expr_elem := st1.node
    let st1 := { st1 with node := st.node }
    if !ok then .returned false st1
    else
      skipWhiteSpace env buf end_ st1 fun st2 =>
      (ignoreEither (env.parserString "DESCENDING" true true buf end_)
          (env.parserString "DESC" true true buf end_) st2).andThen fun descending st3 =>
      (if descending then .returned true st3
        else ignoreEither (env.parserString "ASCENDING" true true buf end_)
          (env.parserString "ASC" true true buf end_) st3).andThen fun _ st4 =>
      let direction : Int := if descending then -1 else 1
      skipWhiteSpace env buf end_ st4 fun st5 =>
      (ignore2 (env.parserString "COLLATE" true true buf end_) st5).andThen fun ok st6 =>
        if ok then
          skipWhiteSpace env buf end_ st6 fun st7 =>
          (parse (env.getName .stringLiteral) (ParserStringLiteral.parseImpl env buf end_)
              { st7 with node := none }).andThen fun ok st8 =>
            let locale_node := st8.node
            let st8 := { st8 with node := st.node }
            if !ok then .returned false st8
            else
              match locale_node with
              | some (.literal _ (.string locale) _) =>
                match env.newCollator locale with
                | .ok collator =>
                  .returned true
                    { st8 with node := some (.orderByElement ⟨begin_, st8.pos⟩ direction
                                              (some collator) [expr_elem]) }
                | .error m => .thrown m
              | _ => .fault
        else
          .returned true
            { st6 with node := some (.orderByElement ⟨begin_, st6.pos⟩ direction none
                                      [expr_elem]) }

/-! ## A reference environment

The collaborators below are not in this file of the repository.  They are used to run the
parsers on concrete inputs; the general theorems hold for every environment. -/

/-- Modelled from the spec: `ParserString` (section 4.1 the ignore form, section 5 "keyword
text, case sensitivity, word-boundary requirement"), which is not in this file.  The text
must be next in `[pos, end)`; with `word_boundary` a text that ends in a word character must
not be followed by one.  On failure the cursor stays and the diagnostic is the text. -/
def refParserString (s : String) (word_boundary case_insensitive : Bool) : Parser :=
  fun buf end_ st =>
    let w := s.toList
    let isWord := fun c => isWordStart c || isDigit c
    let found := slice buf st.pos (st.pos + w.length)
    let same :=
      if case_insensitive then found.map Char.toLower == w.map Char.toLower else found == w
    let followed :=
      match w.getLast?, buf[st.pos + w.length]? with
      | some l, some c => isWord l && decide (st.pos + w.length ≠ end_) && isWord c
      | _, _ => false
    if decide (st.pos + w.length ≤ end_) && same && !(word_boundary && followed) then
      .returned true { st with pos := st.pos + w.length }
    else .returned false { st with expected := s }

/-- Modelled from the spec: `ParserWhiteSpaceOrComments` (section 6, "a whitespace/comment
skipper"), which is not in this file.  The reference skips white space; it knows no comment
form, the spec gives none. -/
def refWhiteSpaceOrComments : Parser :=
  fun buf end_ st =>
    let n := ((slice buf st.pos end_).takeWhile isSpace).length
    if n = 0 then .returned false { st with expected := "white space or comments" }
    else .returned true { st with pos := st.pos + n }

/-- Modelled from the spec: `ParserSelectQuery` (section 6, "a full select-statement parser
with the same contract"), which is not in this file.  The spec gives no grammar for it: the
reference recognises no statement and leaves the cursor where it is. -/
def refSelectQuery : Parser :=
  fun _ _ st => .returned false { st with expected := "SELECT query" }

/-- Modelled from the spec: `parseEscapeSequence` (section 6, "a single-escape-sequence
decoder"), which is not in this file: the letters of the usual control characters, every
other character (the quote, the backslash) stands for itself. -/
def refParseEscapeSequence (c : Char) : Char :=
  if c = 'b' then Char.ofNat 8
  else if c = 'f' then Char.ofNat 12
  else if c = 'n' then Char.ofNat 10
  else if c = 'r' then Char.ofNat 13
  else if c = 't' then Char.ofNat 9
  else if c = '0' then Char.ofNat 0
  else c

/-- Modelled from the spec: `readBackQuotedString` (section 6, "a back-quoted-identifier
decoder"), which is not in this file: a back quote, characters other than the back quote
and the backslash, a back quote.  Anything else throws. -/
def refReadBackQuotedString (bytes : List Char) : BackQuoted :=
  match bytes with
  | [] => .thrown "Cannot parse quoted string: expected opening quote".toList
  | q :: rest =>
    let body := rest.takeWhile fun c => !(c == backQuote || c == backSlash)
    match rest.drop body.length with
    | c :: _ =>
      if q = backQuote ∧ c = backQuote then .decoded body (body.length + 2)
      else .thrown "Cannot parse quoted string".toList
    | [] => .thrown "Cannot parse quoted string: expected closing quote".toList

/-- Modelled from the spec: the `getName` of the parsers, declared in the header that is not
in this file. -/
def refGetName : ParserKind → String
  | .array => "array"
  | .parenthesisExpression => "expression in parenthesis"
  | .subquery => "SELECT subquery"
  | .identifier => "identifier"
  | .compoundIdentifier => "compound identifier"
  | .function => "function"
  | .null => "NULL"
  | .number => "number"
  | .stringLiteral => "string literal"
  | .literal => "literal"
  | .alias_ => "alias"
  | .expressionElement => "element of expression"
  | .withOptionalAlias => "element of expression with optional alias"
  | .orderByElement => "element of ORDER BY expression"

/-- Modelled from the spec: the expression under an element of an expression list, which is
not in this file.  Section 4.4 has `2014-01-01` "parsed as an arithmetic subtraction
expression": the reference reads expression elements joined by `-` into nested `minus`
functions, from the left. -/
def refSubtractions (env : Env) (buf : List Char) (end_ begin_ : Nat) :
    Nat → Option AST → State → Outcome
  | 0, _, _ => .fault
  | fuel + 1, left, st =>
    skipWhiteSpace env buf end_ st fun st1 =>
    (ignore (env.parserString "-" false false buf end_) st1).andThen fun ok st2 =>
      if !ok then .returned true { st2 with node := left }
      else
        skipWhiteSpace env buf end_ st2 fun st3 =>
        (parse (env.getName .expressionElement) (ParserExpressionElement.parseImpl env buf end_)
            { st3 with node := none }).andThen fun ok st4 =>
          if !ok then .returned false st4
          else
            let args := some (AST.expressionList ⟨begin_, st4.pos⟩ [left, st4.node])
            refSubtractions env buf end_ begin_ fuel
              (some (.function ⟨begin_, st4.pos⟩ "minus".toList args none [] [args])) st4

/-- Modelled from the spec: see `refSubtractions`; the first element, then the rest. -/
def refExpression (env : Env) : Parser :=
  fun buf end_ =>
    parse "expression" fun st =>
      (parse (env.getName .expressionElement) (ParserExpressionElement.parseImpl env buf end_)
          st).andThen fun ok st1 =>
        if !ok then .returned false st1
        else refSubtractions env buf end_ st.pos (buf.length + 1) st1.node st1

/-- Modelled from the spec: `ParserExpressionWithOptionalAlias` (section 4.9, "an aliasable
expression element"), which is not in this file. -/
def refExpressionWithOptionalAlias (env : Env) : Parser :=
  fun buf end_ st =>
    parse (env.getName .withOptionalAlias)
      (ParserWithOptionalAlias.parseImpl env (refExpression env) buf end_) st

/-- Modelled from the spec: the elements of an expression list after the first, each after
a comma. -/
def refListRest (env : Env) (buf : List Char) (end_ : Nat) :
    Nat → List (Option AST) → State → Outcome
  | 0, _, _ => .fault
  | fuel + 1, elems, st =>
    skipWhiteSpace env buf end_ { st with node := some (.expressionList ⟨0, 0⟩ elems) }
      fun st1 =>
    (ignore (env.parserString "," false false buf end_) st1).andThen fun ok st2 =>
      if !ok then .returned true st2
      else
        skipWhiteSpace env buf end_ st2 fun st3 =>
        (refExpressionWithOptionalAlias env buf end_ { st3 with node := none }).andThen
          fun ok st4 =>
            if !ok then .returned false { st4 with node := st3.node }
            else refListRest env buf end_ fuel (elems ++ [st4.node]) st4

/-- Modelled from the spec: `ParserExpressionList` (section 2, "an expression-list parser
(comma-separated sequence of expression elements)"; section 4.4, "may be empty"), which is
not in this file.  It yields an `ExpressionList` node, empty when no element is there. -/
def refExpressionList (env : Env) : Parser :=
  fun buf end_ =>
    parse "list of expressions" fun st =>
      (refExpressionWithOptionalAlias env buf end_ { st with node := none }).andThen
        fun ok st1 =>
          if !ok then .returned true { st1 with node := some (.expressionList ⟨0, 0⟩ []) }
          else refListRest env buf end_ (buf.length + 1) [st1.node] st1

/-- The reference environment for expressions nested `depth` deep: the lists in the
parentheses of a parser run with `refEnv (depth + 1)` are read with `refEnv depth`; at depth
zero the nesting is exhausted. -/
def refEnv : Nat → Env
  | 0 =>
    { parserString := refParserString
      whiteSpaceOrComments := refWhiteSpaceOrComments
      expressionList := fun _ _ _ => .fault
      selectQuery := refSelectQuery
      expressionWithOptionalAlias := fun _ _ _ => .fault
      readBackQuotedString := refReadBackQuotedString
      parseEscapeSequence := refParseEscapeSequence
      newCollator := fun locale => .ok ⟨locale⟩
      getName := refGetName }
  | depth + 1 =>
    { parserString := refParserString
      whiteSpaceOrComments := refWhiteSpaceOrComments
      expressionList := refExpressionList (refEnv depth)
      selectQuery := refSelectQuery
      expressionWithOptionalAlias := refExpressionWithOptionalAlias (refEnv depth)
      readBackQuotedString := refReadBackQuotedString
      parseEscapeSequence := refParseEscapeSequence
      newCollator := fun locale => .ok ⟨locale⟩
      getName := refGetName }

/-! ## Words used by the statements -/

/-- The text `s1.s2. ... .sn` of a dotted name with the segments `s1`, ..., `sn`. -/
def dotted : List (List Char) → List Char
  | [] => []
  | [s] => s
  | s :: t :: ts => s ++ '.' :: dotted (t :: ts)

/-- A segment of a name: a first character in `[A-Za-z_]`, then characters in
`[A-Za-z_0-9]`. -/
def isSegment : List Char → Bool
  | [] => false
  | c :: cs => isWordStart c && cs.all fun d => isWordStart d || isDigit d

/-- One item of the body of a string literal: a character written as it is, or an escape
pair, a backslash and one character. -/
inductive BodyItem where
  | verbatim (c : Char)
  | escaped (c : Char)
  deriving DecidableEq, Repr

/-- A verbatim character is neither the single quote nor the backslash. -/
def BodyItem.valid : BodyItem → Bool
  | .verbatim c => c != singleQuote && c != backSlash
  | .escaped _ => true

/-- The bytes an item is written with. -/
def BodyItem.text : BodyItem → List Char
  | .verbatim c => [c]
  | .escaped c => [backSlash, c]

/-- The character an item stands for: itself, or the delegated decode of the escaped
character. -/
def BodyItem.decoded (env : Env) : BodyItem → Char
  | .verbatim c => c
  | .escaped c => env.parseEscapeSequence c

/-- The bytes of a body. -/
def bodyText : List BodyItem → List Char
  | [] => []
  | i :: is => i.text ++ bodyText is

/-- The text a body stands for. -/
def bodyDecoded (env : Env) (items : List BodyItem) : List Char :=
  items.map (BodyItem.decoded env)

/-- Every successful return of `o` leaves a state with the property `P`. -/
def Outcome.SucceedsWith (P : State → Prop) (o : Outcome) : Prop :=
  ∀ st, o = .returned true st → P st

/-- The reference environment of depth one with a select parser that fails with the cursor
moved to the end of the input (section 4.1: a parser that fails need not restore the
cursor). -/
def refEnvSelectMoves : Env :=
  { refEnv 1 with
    selectQuery := fun _ end_ st =>
      .returned false { st with pos := end_, expected := "SELECT query" } }

/-- The shape `DDDD-DD-DD` of an unquoted date: ten characters, digits and two dashes, the
first digit `2` or `3`. -/
def isUnquotedDate : List Char → Bool
  | [a, b, c, d, e, f, g, h, i, j] =>
    (a == '2' || a == '3') && isDigit b && isDigit c && isDigit d && e == '-' &&
      isDigit f && isDigit g && h == '-' && isDigit i && isDigit j
  | _ => false

/-- A collaborator that raises no exception, whatever the state it is called in. -/
def Quiet (p : State → Outcome) : Prop :=
  ∀ st m, p st ≠ .thrown m

/-- Whether a body ends in a verbatim character (and not in an escape pair). -/
def endsVerbatim : List BodyItem → Bool
  | [] => false
  | [.verbatim _] => true
  | [.escaped _] => false
  | _ :: i :: is => endsVerbatim (i :: is)

/-- The number a string of decimal digits writes. -/
def decimalValue (digits : List Char) : Nat :=
  digits.foldl (fun acc c => acc * 10 + (c.toNat - 48)) 0

/-- A character that does not go on with a number after its digits: no digit, no point, no
exponent letter, no `x`. -/
def endsNumber (c : Char) : Bool :=
  !isDigit c && c != '.' && c != 'e' && c != 'E' && c != 'x' && c != 'X'

/-- A string of decimal digits and what follows it in the input: one digit at least, no
leading zero before another digit, and then the end or a character that does not go on with
a number. -/
structure DigitsThenStop (digits rest : List Char) : Prop where
  nonempty : digits ≠ []
  allDigits : ∀ c ∈ digits, isDigit c = true
  noLeadingZero : digits.head? = some '0' → digits = ['0']
  stop : ∀ c ∈ rest.head?, endsNumber c = true

/-! ### Words for the compound name -/

/-- A byte that can be part of a compound name: a name character or a dot. -/
def isNameByte (c : Char) : Bool := isWordStart c || isDigit c || c == '.'

/-- No dot of the text is directly followed by a decimal digit. -/
def noDigitAfterDot : List Char → Bool
  | [] => true
  | c :: rest => (c != '.' || (rest.head?.all fun d => !isDigit d)) && noDigitAfterDot rest

/-- The text ends with a dot. -/
def endsWithDot (name : List Char) : Bool := name.getLast? == some '.'

/-- The text has two dots next to each other. -/
def hasAdjacentDots : List Char → Bool
  | c :: d :: rest => (c == '.' && d == '.') || hasAdjacentDots (d :: rest)
  | _ => false

/-! ### Words for the ordered choice of `ParserExpressionElement` -/

/-- The combined diagnostic of `ParserExpressionElement`. -/
def expressionElementExpected : String :=
  "expression element: one of array, literal, function, identifier, asterisk, parenthised expression, subquery"

/-- The last alternative of `ParserExpressionElement`: the text `*`, which gives the
asterisk node spanning from `begin_` to the cursor. -/
def asteriskAlternative (env : Env) (buf : List Char) (end_ begin_ : Nat) (st : State) :
    Outcome :=
  (env.parserString "*" false false buf end_ st).andThen fun ok st1 =>
    if ok then .returned true { st1 with node := some (.asterisk ⟨begin_, st1.pos⟩) }
    else .returned false st1

/-- The alternatives of `ParserExpressionElement`, in the order of the spec. -/
def expressionElementAlternatives (env : Env) (buf : List Char) (end_ begin_ : Nat) :
    List (State → Outcome) :=
  [ parse (env.getName .subquery) (ParserSubquery.parseImpl env buf end_),
    parse (env.getName .parenthesisExpression)
      (ParserParenthesisExpression.parseImpl env buf end_),
    parse (env.getName .array) (ParserArray.parseImpl env buf end_),
    parse (env.getName .literal) (ParserLiteral.parseImpl env buf end_),
    parse (env.getName .function) (ParserFunction.parseImpl env buf end_),
    parse (env.getName .compoundIdentifier) (ParserCompoundIdentifier.parseImpl env buf end_),
    asteriskAlternative env buf end_ begin_ ]

/-- The words of the claim: every alternative is attempted from the same state, and the
result is that of the first one that succeeds; `none` when none succeeds. -/
def firstSuccess : List (State → Outcome) → State → Option State
  | [], _ => none
  | p :: rest, st =>
    match p st with
    | .returned true st1 => some st1
    | _ => firstSuccess rest st

/-- The ordered choice with the exceptions in: the alternatives are attempted in order, each
from the cursor `begin_` and with the node and the diagnostic the one before it left; the
first that returns `true` ends the choice with its result, one that throws or faults ends it
as well; when all have returned `false` the choice fails at `begin_` with `diagnostic`. -/
def orderedChoice (begin_ : Nat) (diagnostic : String) :
    List (State → Outcome) → State → Outcome
  | [], st => .returned false { st with pos := begin_, expected := diagnostic }
  | p :: rest, st =>
    match p { st with pos := begin_ } with
    | .returned true st1 => .returned true st1
    | .returned false st1 => orderedChoice begin_ diagnostic rest st1
    | .thrown m => .thrown m
    | .fault => .fault

/-- The alternatives `alts` were attempted one after the other from `begin_`, all returned
`false`, and the last left the state `st1`. -/
def AllFailed (begin_ : Nat) : List (State → Outcome) → State → State → Prop
  | [], st, st1 => st1 = st
  | p :: rest, st, st1 =>
    ∃ st2, p { st with pos := begin_ } = .returned false st2 ∧ AllFailed begin_ rest st2 st1

/-! ### Words for the alias -/

/-- The node with its alias set to `alias_name` and its other fields as they are, for the
three kinds of node that have an alias; `none` for the other kinds. -/
def setAlias (alias_name : List Char) : AST → Option AST
  | .function r n a p _ ch => some (.function r n a p alias_name ch)
  | .identifier r n _ => some (.identifier r n alias_name)
  | .literal r v _ => some (.literal r v alias_name)
  | _ => none

/-! ### Words for the direction of `ParserOrderByElement` -/

/-- One of the two keywords was matched at `st`: the first, or, the first having failed, the
second where the first left the cursor. -/
def EitherMatched (a b : State → Outcome) (st : State) : Prop :=
  (∃ s, ignore2 a st = .returned true s)
  ∨ (∃ s s1, ignore2 a st = .returned false s ∧ ignore2 b s = .returned true s1)

/-! ### Words for the text of a number -/

/-- The length of the longest prefix of `input` that the C library reads as a floating-point
number, leading white space and sign included; zero when there is none. -/
def longestFloatPrefix (input : List Char) : Nat := (strtod input).1

/-- The text `ParserNumber` hands to the C library: the first 319 bytes of `[pos, end)`, all
of them when there are fewer, up to the first zero byte. -/
def numberText (buf : List Char) (pos end_ : Nat) : List Char :=
  (slice buf pos (pos + (if end_ - pos < 319 then end_ - pos else 319))).takeWhile
    (· ≠ Char.ofNat 0)

/-! ## Lists, characters -/

theorem char_le_iff (a b : Char) : a ≤ b ↔ a.toNat ≤ b.toNat := Iff.rfl

theorem isWordStart_not_isDigit {c : Char} (h : isWordStart c = true) : isDigit c = false := by
  simp only [isWordStart, isDigit, Bool.or_eq_true, Bool.and_eq_true, decide_eq_true_eq,
    beq_iff_eq, char_le_iff, Bool.and_eq_false_imp] at *
  have e1 : 'a'.toNat = 97 := rfl
  have e2 : 'A'.toNat = 65 := rfl
  have e3 : '9'.toNat = 57 := rfl
  have e4 : '_'.toNat = 95 := rfl
  intro _
  rcases h with (h | h) | h
  · simp; omega
  · simp; omega
  · subst h; simp

theorem isWordStart_ne_backQuote {c : Char} (h : isWordStart c = true) : c ≠ backQuote := by
  rintro rfl
  revert h
  decide

theorem getElem?_after (pre : List Char) (c : Char) (xs : List Char) :
    (pre ++ c :: xs)[pre.length]? = some c := by
  rw [List.getElem?_append_right (Nat.le_refl _)]; simp

theorem slice_after (pre w xs : List Char) :
    slice (pre ++ (w ++ xs)) pre.length (pre.length + w.length) = w := by
  simp [slice]

/-! ## ParserIdentifier -/

/-- Scanning over name characters that are not at `begin`. -/
theorem scanName_append (end_ begin_ : Nat) :
    ∀ (w mem : List Char) (p : Nat), begin_ < p → p + w.length ≤ end_ →
      (∀ c ∈ w, isWordStart c = true ∨ isDigit c = true) →
      scanName end_ begin_ (w ++ mem) p = scanName end_ begin_ mem (p + w.length) := by
  intro w
  induction w with
  | nil => intros; simp
  | cons c cs ih =>
    intro mem p hp hlen hw
    have hc := hw c (by simp)
    have hlen2 : p + 1 + cs.length ≤ end_ := by simp at hlen; omega
    have hne : p ≠ end_ := by omega
    have hpb : p ≠ begin_ := by omega
    have hcond : (isWordStart c || (decide (p ≠ begin_) && isDigit c)) = true := by
      rcases hc with h | h <;> simp [h, hpb]
    rw [List.cons_append, scanName, if_neg hne, if_pos hcond,
      ih mem (p + 1) (by omega) hlen2 (fun d hd => hw d (by simp [hd]))]
    congr 1
    simp; omega

/-- The scan stops at the end and at a character that is not a name character. -/
theorem scanName_stop (end_ begin_ : Nat) (rest post : List Char) (p : Nat)
    (hend : end_ = p + rest.length)
    (hstop : ∀ c ∈ rest.head?, isWordStart c = false ∧ isDigit c = false) :
    scanName end_ begin_ (rest ++ post) p = some p := by
  cases rest with
  | nil =>
    have : p = end_ := by simp at hend; omega
    cases post <;> simp [scanName, this]
  | cons c r =>
    have hne : p ≠ end_ := by simp at hend; omega
    have hc := hstop c (by simp)
    simp [scanName, hne, hc.1, hc.2]

/-- The scan of a word at or after `begin`: a first character in `[A-Za-z_]`, then
characters in `[A-Za-z_0-9]`, up to the end or to a character outside `[A-Za-z_0-9]`. -/
theorem scanName_word (begin_ p : Nat) (c : Char) (cs rest post : List Char)
    (hbegin : begin_ ≤ p)
    (hfirst : isWordStart c = true)
    (hmore : ∀ d ∈ cs, isWordStart d = true ∨ isDigit d = true)
    (hstop : ∀ d ∈ rest.head?, isWordStart d = false ∧ isDigit d = false) :
    scanName (p + (c :: cs).length + rest.length) begin_
      (c :: cs ++ (rest ++ post)) p = some (p + (c :: cs).length) := by
  have hne : p ≠ p + (c :: cs).length + rest.length := by simp; omega
  rw [List.cons_append, scanName, if_neg hne, if_pos (by simp [hfirst]),
    scanName_append _ _ cs _ _ (by omega) (by simp; omega) hmore,
    scanName_stop _ _ rest post _ (by simp; omega) hstop]
  simp; omega

/-- C9: on a word `w` (a first character in `[A-Za-z_]`, then characters in `[A-Za-z_0-9]`)
followed by the end of the input or by a character outside `[A-Za-z_0-9]`, `ParserIdentifier`
succeeds with an identifier node named `w` and leaves the cursor directly after `w`; on an
input that is empty or starts with a character outside `[A-Za-z_]` other than the back quote
it fails and leaves the cursor (and the node and the diagnostic) unchanged.  `pre` is the
memory before the starting cursor, `post` the memory after the end. -/
theorem identifier_word_and_failure :
    (∀ (env : Env) (pre : List Char) (c : Char) (cs rest post : List Char) (node : Option AST)
        (expected : String),
        isWordStart c = true →
        (∀ d ∈ cs, isWordStart d = true ∨ isDigit d = true) →
        (∀ d ∈ rest.head?, isWordStart d = false ∧ isDigit d = false) →
        ParserIdentifier.parseImpl env (pre ++ (c :: cs ++ (rest ++ post)))
            (pre.length + (c :: cs).length + rest.length) ⟨pre.length, node, expected⟩
          = .returned true
              ⟨pre.length + (c :: cs).length,
                some (.identifier ⟨pre.length, pre.length + (c :: cs).length⟩ (c :: cs) []),
                expected⟩) ∧
    (∀ (env : Env) (pre input post : List Char) (node : Option AST) (expected : String),
        (∀ d ∈ input.head?, isWordStart d = false ∧ d ≠ backQuote) →
        ParserIdentifier.parseImpl env (pre ++ (input ++ post)) (pre.length + input.length)
            ⟨pre.length, node, expected⟩
          = .returned false ⟨pre.length, node, expected⟩) := by
  refine ⟨?_, ?_⟩
  · intro env pre c cs rest post node expected hfirst hmore hstop
    have hne : pre.length ≠ pre.length + (c :: cs).length + rest.length := by simp; omega
    have hbq := isWordStart_ne_backQuote hfirst
    have hscan := scanName_word pre.length pre.length c cs rest post (Nat.le_refl _)
      hfirst hmore hstop
    have hslice := slice_after pre (c :: cs) (rest ++ post)
    simp only [List.cons_append] at hscan hslice
    simp only [ParserIdentifier.parseImpl, if_neg hne, List.cons_append, getElem?_after,
      if_neg hbq, List.drop_left, hscan, hslice]
    simp
  · intro env pre input post node expected hstop
    cases input with
    | nil => simp [ParserIdentifier.parseImpl]
    | cons d ds =>
      have hd := hstop d (by simp)
      have hne : pre.length ≠ pre.length + (d :: ds).length := by simp
      simp only [ParserIdentifier.parseImpl, if_neg hne, List.cons_append, getElem?_after,
        if_neg hd.2, List.drop_left, scanName, hd.1]
      simp

/-- C9, at `abc1 x` (the word `abc1`, cursor left on the blank) and at `1a` (a digit
first). -/
theorem identifier_word_and_failure_witness :
    ParserIdentifier.parseImpl (refEnv 0) "abc1 x".toList 6 ⟨0, none, ""⟩
        = .returned true ⟨4, some (.identifier ⟨0, 4⟩ "abc1".toList []), ""⟩ ∧
      ParserIdentifier.parseImpl (refEnv 0) "1a".toList 2 ⟨0, none, ""⟩
        = .returned false ⟨0, none, ""⟩ :=
  ⟨identifier_word_and_failure.1 (refEnv 0) [] 'a' ['b', 'c', '1'] [' ', 'x'] [] none ""
      (by decide) (by decide) (by decide),
    identifier_word_and_failure.2 (refEnv 0) [] ['1', 'a'] [] none "" (by decide)⟩

/-! ## ParserCompoundIdentifier -/

/-- The outer loop over the segments of a dotted name. -/
theorem compoundLoop_dotted (begin_ : Nat) (rest post : List Char)
    (hstop : ∀ d ∈ rest.head?, isWordStart d = false ∧ isDigit d = false ∧ d ≠ '.') :
    ∀ (segs : List (List Char)) (front : List Char) (fuel : Nat) (buf : List Char) (end_ : Nat),
      segs ≠ [] → (∀ s ∈ segs, isSegment s = true) → begin_ ≤ front.length →
      segs.length ≤ fuel →
      buf = front ++ (dotted segs ++ (rest ++ post)) →
      end_ = front.length + (dotted segs).length + rest.length →
      compoundLoop buf end_ begin_ fuel front.length
        = some (front.length + (dotted segs).length) := by
  intro segs
  induction segs with
  | nil => intro _ _ _ _ h; exact absurd rfl h
  | cons s ts ih =>
    intro front fuel buf end_ _ hsegs hbegin hfuel hbuf hend
    have hs := hsegs s (by simp)
    obtain ⟨c, cs, rfl⟩ : ∃ c cs, s = c :: cs := by
      cases s with
      | nil => simp [isSegment] at hs
      | cons c cs => exact ⟨c, cs, rfl⟩
    simp only [isSegment, Bool.and_eq_true, List.all_eq_true, Bool.or_eq_true] at hs
    obtain ⟨fuel, rfl⟩ : ∃ f, fuel = f + 1 := ⟨fuel - 1, by simp at hfuel; omega⟩
    cases ts with
    | nil =>
      simp only [dotted] at hbuf hend ⊢
      have hne : front.length ≠ end_ := by
        rw [hend]; simp; omega
      have hscan := scanName_word begin_ front.length c cs rest post hbegin hs.1 hs.2
        (fun d hd => ⟨(hstop d hd).1, (hstop d hd).2.1⟩)
      rw [← hend] at hscan
      rw [compoundLoop, if_neg hne, hbuf, List.drop_left, hscan]
      simp only
      split
      · rename_i h
        cases rest with
        | nil => simp only [List.length_cons, List.length_nil] at hend h; omega
        | cons d r =>
          have hd := hstop d (by simp)
          have : (front ++ (c :: cs ++ (d :: r ++ post)))[front.length + (c :: cs).length]?
              = some d := by
            have := getElem?_after (front ++ (c :: cs)) d (r ++ post)
            simpa using this
          rw [this]
          simp [hd.2.2]
      · rfl
    | cons t us =>
      have ht := hsegs t (by simp)
      obtain ⟨e, es, rfl⟩ : ∃ e es, t = e :: es := by
        cases t with
        | nil => simp [isSegment] at ht
        | cons e es => exact ⟨e, es, rfl⟩
      have hte := ht
      simp only [isSegment, Bool.and_eq_true] at hte
      have hd2 : dotted ((c :: cs) :: (e :: es) :: us)
          = c :: cs ++ '.' :: dotted ((e :: es) :: us) := by simp [dotted]
      obtain ⟨tl, htl⟩ : ∃ tl, dotted ((e :: es) :: us) = e :: tl := by
        cases us <;> simp [dotted]
      rw [hd2] at hbuf hend ⊢
      have ih' := ih (front ++ (c :: cs ++ ['.'])) fuel buf end_ (by simp)
        (fun x hx => hsegs x (by simp [hx])) (by simp; omega)
        (by simp only [List.length_cons] at hfuel ⊢; omega)
        (by rw [hbuf]; simp) (by rw [hend]; simp; omega)
      have hne : front.length ≠ end_ := by
        rw [hend]; simp; omega
      have hscan := scanName_word begin_ front.length c cs
        ('.' :: (dotted ((e :: es) :: us) ++ rest)) post hbegin hs.1 hs.2
        (by simp; decide)
      have hend2 : front.length + (c :: cs).length
          + ('.' :: (dotted ((e :: es) :: us) ++ rest)).length = end_ := by
        rw [hend]; simp; omega
      rw [hend2] at hscan
      have hdrop : buf.drop front.length
          = c :: cs ++ ('.' :: (dotted ((e :: es) :: us) ++ rest) ++ post) := by
        rw [hbuf]; simp
      have hget1 : buf[front.length + (c :: cs).length]? = some '.' := by
        have := getElem?_after (front ++ (c :: cs)) '.'
          (dotted ((e :: es) :: us) ++ (rest ++ post))
        rw [hbuf]; simpa using this
      have hget2 : buf[front.length + (c :: cs).length + 1]? = some e := by
        have := getElem?_after (front ++ (c :: cs ++ ['.'])) e (tl ++ (rest ++ post))
        rw [hbuf, htl]; simpa [Nat.add_assoc] using this
      have hcond : front.length + (c :: cs).length ≠ begin_
          ∧ front.length + (c :: cs).length + 1 < end_ := by
        rw [hend, htl]; simp; omega
      rw [compoundLoop, if_neg hne, hdrop, hscan]
      simp only [if_pos hcond, hget1, hget2, isWordStart_not_isDigit hte.1]
      have hlen : (front ++ (c :: cs ++ ['.'])).length = front.length + (c :: cs).length + 1 := by
        simp; omega
      rw [hlen] at ih'
      simp only [if_true, Bool.false_eq_true, if_false]
      rw [ih']
      simp; omega


/-- A dotted name is as long as the number of its segments at least. -/
theorem length_le_dotted : ∀ (segs : List (List Char)), (∀ s ∈ segs, isSegment s = true) →
    segs.length ≤ (dotted segs).length
  | [], _ => by simp
  | [s], h => by
    have := h s (by simp)
    cases s with
    | nil => simp [isSegment] at this
    | cons c cs => simp [dotted]
  | s :: t :: ts, h => by
    have ih := length_le_dotted (t :: ts) (fun x hx => h x (by simp [hx]))
    simp only [dotted, List.length_cons, List.length_append] at ih ⊢
    omega

/-- A dotted name starts with the first character of its first segment. -/
theorem dotted_head (segs : List (List Char)) (hne : segs ≠ [])
    (hsegs : ∀ s ∈ segs, isSegment s = true) :
    ∃ c tl, dotted segs = c :: tl ∧ isWordStart c = true := by
  cases segs with
  | nil => exact absurd rfl hne
  | cons s ts =>
    have hs := hsegs s (by simp)
    cases s with
    | nil => simp [isSegment] at hs
    | cons c cs =>
      simp only [isSegment, Bool.and_eq_true] at hs
      cases ts with
      | nil => exact ⟨c, cs, by simp [dotted], hs.1⟩
      | cons t us => exact ⟨c, _, by simp [dotted]; rfl, hs.1⟩

/-- C10: on the dotted text of one or more segments (each a first character in `[A-Za-z_]`,
then characters in `[A-Za-z_0-9]`), followed by the end of the input or by a character that
is neither a name character nor a dot, `ParserCompoundIdentifier` succeeds with one
identifier node whose name is the whole dotted text as one flat string, and leaves the
cursor directly after the last segment. -/
theorem compoundIdentifier_dotted (env : Env) (pre : List Char) (segs : List (List Char))
    (rest post : List Char) (node : Option AST) (expected : String)
    (hne : segs ≠ []) (hsegs : ∀ s ∈ segs, isSegment s = true)
    (hstop : ∀ d ∈ rest.head?, isWordStart d = false ∧ isDigit d = false ∧ d ≠ '.') :
    ParserCompoundIdentifier.parseImpl env (pre ++ (dotted segs ++ (rest ++ post)))
        (pre.length + (dotted segs).length + rest.length) ⟨pre.length, node, expected⟩
      = .returned true
          ⟨pre.length + (dotted segs).length,
            some (.identifier ⟨pre.length, pre.length + (dotted segs).length⟩ (dotted segs) []),
            expected⟩ := by
  obtain ⟨c, tl, hd, hc⟩ := dotted_head segs hne hsegs
  have hloop := compoundLoop_dotted pre.length rest post hstop segs pre
    ((pre ++ (dotted segs ++ (rest ++ post))).length + 1) _ _ hne hsegs (Nat.le_refl _)
    (by have := length_le_dotted segs hsegs; simp; omega) rfl rfl
  have hpos : pre.length ≠ pre.length + (dotted segs).length + rest.length := by
    rw [hd]; simp; omega
  have hget : (pre ++ (dotted segs ++ (rest ++ post)))[pre.length]? = some c := by
    rw [hd]; exact getElem?_after pre c _
  have hlen : pre.length + (dotted segs).length ≠ pre.length := by
    rw [hd]; simp
  simp only [ParserCompoundIdentifier.parseImpl, if_neg hpos, hget,
    if_neg (isWordStart_ne_backQuote hc), hloop, slice_after]
  simp [hlen]

/-- C10, at `a.b.c x`: the name is `a.b.c`, the cursor is left on the blank. -/
theorem compoundIdentifier_dotted_witness :
    ParserCompoundIdentifier.parseImpl (refEnv 0) "a.b.c x".toList 7 ⟨0, none, ""⟩
      = .returned true ⟨5, some (.identifier ⟨0, 5⟩ "a.b.c".toList []), ""⟩ :=
  compoundIdentifier_dotted (refEnv 0) [] [['a'], ['b'], ['c']] [' ', 'x'] [] none ""
    (by decide) (by decide) (by decide)

/-! ## ParserStringLiteral -/

/-- The run scan does not go backwards. -/
theorem scanRun_ge (end_ : Nat) : ∀ (mem : List Char) (p q : Nat),
    scanRun end_ mem p = some q → p ≤ q := by
  intro mem
  induction mem with
  | nil => intro p q h; simp only [scanRun] at h; split at h <;> simp_all
  | cons c mem ih =>
    intro p q h
    simp only [scanRun] at h
    split at h
    · simp_all
    · split at h
      · simp_all
      · have := ih _ _ h; omega

/-- The memory from a readable offset on starts with the byte there. -/
theorem drop_of_getElem? {buf : List Char} {p : Nat} {c : Char} (h : buf[p]? = some c) :
    buf.drop p = c :: buf.drop (p + 1) := by
  obtain ⟨hlt, rfl⟩ := List.getElem?_eq_some_iff.mp h
  exact List.drop_eq_getElem_cons hlt

/-- A non-empty slice starts with the byte at its first offset. -/
theorem slice_cons {buf : List Char} {p q : Nat} {c : Char} (h : buf[p]? = some c)
    (hpq : p + 1 ≤ q) : slice buf p q = c :: slice buf (p + 1) q := by
  obtain ⟨k, rfl⟩ : ∃ k, q = p + 1 + k := ⟨q - (p + 1), by omega⟩
  simp only [slice, drop_of_getElem? h]
  have e1 : p + 1 + k - p = k + 1 := by omega
  have e2 : p + 1 + k - (p + 1) = k := by omega
  rw [e1, e2, List.take_succ_cons]

/-- The empty slice. -/
theorem slice_self (buf : List Char) (p : Nat) : slice buf p p = [] := by
  simp [slice]

variable (env : Env) (buf : List Char) (end_ begin_ : Nat) (st : State)

/-- A verbatim character before the end is appended as it is. -/
theorem stringLiteralLoop_verbatim (fuel p : Nat) (s : List Char) (c : Char)
    (hget : buf[p]? = some c) (hq : c ≠ singleQuote) (hb : c ≠ backSlash)
    (hlt : p + 1 < end_) :
    stringLiteralLoop env buf end_ begin_ st (fuel + 1) p s
      = stringLiteralLoop env buf end_ begin_ st (fuel + 1) (p + 1) (s ++ [c]) := by
  have h1 : p ≠ end_ := by omega
  have h2 : p + 1 ≠ end_ := by omega
  rw [stringLiteralLoop, stringLiteralLoop, if_neg h1, if_neg h2, drop_of_getElem? hget,
    scanRun, if_neg h1, if_neg (by simp [hq, hb])]
  cases hs : scanRun end_ (buf.drop (p + 1)) (p + 1) with
  | none => rfl
  | some q =>
    have hge := scanRun_ge _ _ _ _ hs
    simp only [slice_cons hget hge, List.append_assoc, List.singleton_append]

/-- An escape pair before the end takes one round of the loop. -/
theorem stringLiteralLoop_escaped (fuel p : Nat) (s : List Char) (e : Char)
    (hget : buf[p]? = some backSlash) (hget2 : buf[p + 1]? = some e)
    (hlt : p + 1 < end_) :
    stringLiteralLoop env buf end_ begin_ st (fuel + 1) p s
      = stringLiteralLoop env buf end_ begin_ st fuel (p + 2)
          (s ++ [env.parseEscapeSequence e]) := by
  have h1 : p ≠ end_ := by omega
  have h2 : p + 1 ≠ end_ := by omega
  have hne : backSlash ≠ singleQuote := by decide
  rw [stringLiteralLoop, if_neg h1, drop_of_getElem? hget, scanRun, if_neg h1,
    if_pos (Or.inl rfl)]
  simp only [hget, if_neg hne, if_true, if_neg h2, hget2, slice_self, List.append_nil]

/-- A quote before the end closes the literal. -/
theorem stringLiteralLoop_quote (fuel p : Nat) (s : List Char)
    (hget : buf[p]? = some singleQuote) (hne : p ≠ end_) :
    stringLiteralLoop env buf end_ begin_ st (fuel + 1) p s
      = .returned true
          { st with pos := p + 1,
                    node := some (.literal ⟨begin_, p + 1⟩ (.string s) []) } := by
  rw [stringLiteralLoop, if_neg hne, drop_of_getElem? hget, scanRun, if_neg hne,
    if_pos (Or.inr rfl)]
  simp only [hget, if_true, slice_self, List.append_nil]

/-- The loop over a body and the closing quote. -/
theorem stringLiteralLoop_body (suffix post : List Char) :
    ∀ (items : List BodyItem) (front : List Char) (fuel : Nat) (s : List Char)
      (buf : List Char) (end_ : Nat),
      (∀ i ∈ items, i.valid = true) → items.length < fuel →
      buf = front ++ (bodyText items ++ (singleQuote :: (suffix ++ post))) →
      end_ = front.length + (bodyText items).length + 1 + suffix.length →
      stringLiteralLoop env buf end_ begin_ st fuel front.length s
        = .returned true
            { st with
                pos := front.length + (bodyText items).length + 1,
                node := some (.literal ⟨begin_, front.length + (bodyText items).length + 1⟩
                          (.string (s ++ bodyDecoded env items)) []) } := by
  intro items
  induction items with
  | nil =>
    intro front fuel s buf end_ _ hfuel hbuf hend
    obtain ⟨fuel, rfl⟩ : ∃ f, fuel = f + 1 := ⟨fuel - 1, by omega⟩
    have hget : buf[front.length]? = some singleQuote := by
      rw [hbuf]; exact getElem?_after front _ _
    rw [stringLiteralLoop_quote env buf end_ begin_ st fuel _ s hget
      (by rw [hend]; simp [bodyText]; omega)]
    simp [bodyText, bodyDecoded]
  | cons i is ih =>
    intro front fuel s buf end_ hvalid hfuel hbuf hend
    obtain ⟨fuel, rfl⟩ : ∃ f, fuel = f + 1 := ⟨fuel - 1, by omega⟩
    have hv := hvalid i (by simp)
    cases i with
    | verbatim c =>
      simp only [BodyItem.valid, Bool.and_eq_true, bne_iff_ne] at hv
      have hget : buf[front.length]? = some c := by
        rw [hbuf]; exact getElem?_after front _ _
      rw [stringLiteralLoop_verbatim env buf end_ begin_ st fuel _ s c hget hv.1 hv.2
        (by rw [hend]; simp [bodyText, BodyItem.text]; omega)]
      have := ih (front ++ [c]) (fuel + 1) (s ++ [c]) buf end_
        (fun j hj => hvalid j (by simp [hj])) (by simp at hfuel ⊢; omega)
        (by rw [hbuf]; simp [bodyText, BodyItem.text])
        (by rw [hend]; simp [bodyText, BodyItem.text]; omega)
      simp only [List.length_append, List.length_singleton] at this
      rw [this]
      simp [bodyText, BodyItem.text, bodyDecoded, BodyItem.decoded]
      omega
    | escaped e =>
      have hget : buf[front.length]? = some backSlash := by
        rw [hbuf]; exact getElem?_after front _ _
      have hget2 : buf[front.length + 1]? = some e := by
        have := getElem?_after (front ++ [backSlash]) e
          (bodyText is ++ (singleQuote :: (suffix ++ post)))
        rw [hbuf]; simpa [bodyText, BodyItem.text] using this
      rw [stringLiteralLoop_escaped env buf end_ begin_ st fuel _ s e hget hget2
        (by rw [hend]; simp [bodyText, BodyItem.text]; omega)]
      have := ih (front ++ [backSlash, e]) fuel (s ++ [env.parseEscapeSequence e]) buf end_
        (fun j hj => hvalid j (by simp [hj])) (by simp at hfuel ⊢; omega)
        (by rw [hbuf]; simp [bodyText, BodyItem.text])
        (by rw [hend]; simp [bodyText, BodyItem.text]; omega)
      simp only [List.length_append, List.length_cons, List.length_nil] at this
      rw [this]
      simp [bodyText, BodyItem.text, bodyDecoded, BodyItem.decoded]
      omega


/-- A body has as many bytes as items at least. -/
theorem length_le_bodyText : ∀ (items : List BodyItem), items.length ≤ (bodyText items).length
  | [] => by simp
  | i :: is => by
    have := length_le_bodyText is
    cases i <;> simp [bodyText, BodyItem.text] <;> omega

/-- C7: for every body made of characters other than the single quote and the backslash and
of escape pairs (a backslash and any one character `c`), `ParserStringLiteral` on quote, body,
quote and any suffix succeeds with a text literal in which each verbatim character is kept
and each pair is replaced by the delegated decode of `c`, and leaves the cursor directly
after the closing quote. -/
theorem stringLiteral_decodes (env : Env) (pre : List Char) (items : List BodyItem)
    (suffix post : List Char) (node : Option AST) (expected : String)
    (hvalid : ∀ i ∈ items, i.valid = true) :
    ParserStringLiteral.parseImpl env
        (pre ++ (singleQuote :: (bodyText items ++ (singleQuote :: (suffix ++ post)))))
        (pre.length + 1 + (bodyText items).length + 1 + suffix.length)
        ⟨pre.length, node, expected⟩
      = .returned true
          ⟨pre.length + 1 + (bodyText items).length + 1,
            some (.literal ⟨pre.length, pre.length + 1 + (bodyText items).length + 1⟩
              (.string (bodyDecoded env items)) []),
            expected⟩ := by
  have hne : pre.length ≠ pre.length + 1 + (bodyText items).length + 1 + suffix.length := by
    omega
  have hloop := stringLiteralLoop_body env pre.length ⟨pre.length, node, expected⟩ suffix post
    items (pre ++ [singleQuote])
    ((pre ++ (singleQuote :: (bodyText items ++ (singleQuote :: (suffix ++ post))))).length + 2)
    [] (pre ++ (singleQuote :: (bodyText items ++ (singleQuote :: (suffix ++ post)))))
    (pre.length + 1 + (bodyText items).length + 1 + suffix.length) hvalid
    (by have := length_le_bodyText items; simp; omega) (by simp) (by simp)
  simp only [List.length_append, List.length_singleton, List.nil_append] at hloop
  simp only [ParserStringLiteral.parseImpl, if_neg hne, getElem?_after, ne_eq,
    not_true_eq_false, if_false]
  simp only [List.length_append, List.length_cons] at hloop ⊢
  rw [hloop]

/-- C7, at the six bytes quote, `a`, backslash, quote, `b`, quote: the text is `a`, quote,
`b`. -/
theorem stringLiteral_decodes_witness :
    ParserStringLiteral.parseImpl (refEnv 0)
        [singleQuote, 'a', backSlash, singleQuote, 'b', singleQuote] 6 ⟨0, none, ""⟩
      = .returned true
          ⟨6, some (.literal ⟨0, 6⟩ (.string ['a', singleQuote, 'b']) []), ""⟩ :=
  stringLiteral_decodes (refEnv 0) []
    [.verbatim 'a', .escaped singleQuote, .verbatim 'b'] [] [] none "" (by decide)

/-- C8, the failing input: the memory holds quote, `abc`, quote and the end pointer is on the
last quote, so the input is the unterminated `'abc`.  The byte at `end` is read, the literal
is closed with it and the cursor is left one byte after `end`. -/
theorem stringLiteral_reads_byte_at_end :
    ParserStringLiteral.parseImpl (refEnv 0)
        [singleQuote, 'a', 'b', 'c', singleQuote] 4 ⟨0, none, ""⟩
      = .returned true ⟨5, some (.literal ⟨0, 5⟩ (.string ['a', 'b', 'c']) []), ""⟩ := by
  rfl

/-! ## ParserNumber -/

set_option exponentiation.threshold 2000 in
set_option maxRecDepth 4000 in
/-- C6, the failing input: on `010` the float decode reads ten over three bytes, the unsigned
decode with base 0 reads the same three bytes as octal, and the literal is the unsigned
integer eight. -/
theorem number_leading_zero_is_octal :
    ParserNumber.parseImpl (refEnv 0) "010".toList 3 ⟨0, none, ""⟩
      = .returned true ⟨3, some (.literal ⟨0, 3⟩ (.uint64 8) []), ""⟩ := by
  rfl

/-! ## The span of the returned node -/

/-- A property of the successful returns goes through `andThen`. -/
theorem succeedsWith_andThen {P : State → Prop} {o : Outcome} {k : Bool → State → Outcome}
    (h : ∀ b st1, o = .returned b st1 → (k b st1).SucceedsWith P) :
    (o.andThen k).SucceedsWith P := by
  cases o with
  | returned b st1 => exact h b st1 rfl
  | thrown m => intro st hst; simp [Outcome.andThen] at hst
  | fault => intro st hst; simp [Outcome.andThen] at hst

/-- A failure is no successful return. -/
theorem succeedsWith_false {P : State → Prop} (st : State) :
    (Outcome.returned false st).SucceedsWith P := by
  intro st' h; simp at h

/-- A successful return with the property. -/
theorem succeedsWith_true {P : State → Prop} {st : State} (h : P st) :
    (Outcome.returned true st).SucceedsWith P := by
  intro st' h'
  simp only [Outcome.returned.injEq, true_and] at h'
  exact h' ▸ h

/-- The wrapper `parse` changes the diagnostic only. -/
theorem succeedsWith_parse {P : State → Prop} (name : String) (impl : State → Outcome)
    (st : State) (hP : ∀ s e, P s → P { s with expected := e })
    (h : (impl { st with expected := name }).SucceedsWith P) :
    (parse name impl st).SucceedsWith P := by
  unfold parse
  refine succeedsWith_andThen fun ok st1 h1 => ?_
  cases ok
  · exact succeedsWith_false _
  · exact succeedsWith_true (hP _ _ (h st1 h1))

/-- The direction keywords keep the property of what follows. -/
theorem succeedsWith_ignoreEither {P : State → Prop} (a b : State → Outcome) (st : State)
    {k : Bool → State → Outcome} (h : ∀ ok st1, (k ok st1).SucceedsWith P) :
    ((ignoreEither a b st).andThen k).SucceedsWith P :=
  succeedsWith_andThen fun _ _ _ => h _ _

/-- The opening statements either hand over to the rest of `parseImpl`, with a node and a
state that do not depend on the rest, or end the call without success. -/
theorem delimited_cases (env : Env) (opening closing : String) (contents : Parser)
    (buf : List Char) (end_ : Nat) (st : State) :
    (∃ c st5, ∀ k, delimited env opening closing contents buf end_ st k = k c st5) ∨
    (∃ o, (∀ k, delimited env opening closing contents buf end_ st k = o) ∧
      ∀ st', o ≠ .returned true st') := by
  unfold delimited delimitedRest skipWhiteSpace parseContents
  cases ignore (env.parserString opening false false buf end_) st with
  | thrown m => exact Or.inr ⟨_, fun _ => rfl, by simp⟩
  | fault => exact Or.inr ⟨_, fun _ => rfl, by simp⟩
  | returned ok st1 =>
    cases ok with
    | false => exact Or.inr ⟨_, fun _ => rfl, by simp⟩
    | true =>
      simp only [Outcome.andThen, Bool.not_true, Bool.false_eq_true, if_false]
      cases ignore2 (env.whiteSpaceOrComments buf end_) st1 with
      | thrown m => exact Or.inr ⟨_, fun _ => rfl, by simp⟩
      | fault => exact Or.inr ⟨_, fun _ => rfl, by simp⟩
      | returned ok2 st2 =>
        simp only
        cases contents buf end_ { st2 with node := none } with
        | thrown m => exact Or.inr ⟨_, fun _ => rfl, by simp⟩
        | fault => exact Or.inr ⟨_, fun _ => rfl, by simp⟩
        | returned ok3 st3 =>
          simp only
          cases ignore2 (env.whiteSpaceOrComments buf end_) { st3 with node := st2.node } with
          | thrown m => exact Or.inr ⟨_, fun _ => rfl, by simp⟩
          | fault => exact Or.inr ⟨_, fun _ => rfl, by simp⟩
          | returned ok4 st4 =>
            simp only
            cases ignore (env.parserString closing false false buf end_) st4 with
            | thrown m => exact Or.inr ⟨_, fun _ => rfl, by simp⟩
            | fault => exact Or.inr ⟨_, fun _ => rfl, by simp⟩
            | returned ok5 st5 =>
              cases ok5 with
              | false => exact Or.inr ⟨_, fun _ => rfl, by simp⟩
              | true => exact Or.inl ⟨st3.node, st5, fun _ => rfl⟩

/-- What `ParserParenthesisExpression` returns on success: the tuple node with the span of
the attempt, or the only element of a one-element list. -/
theorem parenthesisExpression_success (env : Env) (buf : List Char) (end_ : Nat)
    (st st' : State)
    (h : ParserParenthesisExpression.parseImpl env buf end_ st = .returned true st') :
    ∃ r children st5,
      (∀ k, delimited env "(" ")" env.expressionList buf end_ st k
        = k (some (.expressionList r children)) st5) ∧
      ((∃ front, children = [front] ∧ st' = { st5 with node := front }) ∨
        (2 ≤ children.length ∧
          st' = { st5 with node := some (.function ⟨st.pos, st5.pos⟩ "tuple".toList
                              (some (.expressionList r children)) none []
                              [some (.expressionList r children)]) })) := by
  unfold ParserParenthesisExpression.parseImpl at h
  rcases delimited_cases env "(" ")" env.expressionList buf end_ st with
    ⟨c, st5, hk⟩ | ⟨o, ho, hne⟩
  · rw [hk] at h
    unfold parenthesisResult at h
    split at h
    · rename_i r children
      split at h
      · simp at h
      · rename_i front
        simp only [Outcome.returned.injEq, true_and] at h
        exact ⟨r, [front], st5, hk, Or.inl ⟨front, rfl, h.symm⟩⟩
      · rename_i a b l
        simp only [Outcome.returned.injEq, true_and] at h
        exact ⟨r, a :: b :: l, st5, hk, Or.inr ⟨by simp, h.symm⟩⟩
    · simp at h
  · rw [ho] at h
    exact absurd h (hne st')

/-- `ignore` without diagnostic leaves the caller's node. -/
theorem ignore2_node {p : State → Outcome} {st st' : State} {b : Bool}
    (h : ignore2 p st = .returned b st') : st'.node = st.node := by
  unfold ignore2 at h
  cases hp : p { st with node := none, expected := "" } with
  | thrown m => rw [hp] at h; simp [Outcome.andThen] at h
  | fault => rw [hp] at h; simp [Outcome.andThen] at h
  | returned ok st1 =>
    rw [hp] at h
    simp only [Outcome.andThen, Outcome.returned.injEq] at h
    rw [← h.2]

/-- C2 (amended): when the opening parenthesis, the expression list and the closing
parenthesis have been read and the list is empty, `ParserParenthesisExpression` returns
`false` (a recoverable failure, no exception) with the diagnostic "not empty list of
expressions in parenthesis"; and `ParserExpressionElement`, when it comes to this
alternative after the subquery has failed, goes on with the array and the later
alternatives from the starting cursor. -/
theorem empty_parentheses_recoverable (env : Env) (buf : List Char) (end_ : Nat)
    (st st5 : State) (r : StringRange)
    (hhead : ∀ k, delimited env "(" ")" env.expressionList buf end_ st k
      = k (some (.expressionList r [])) st5) :
    ParserParenthesisExpression.parseImpl env buf end_ st
        = .returned false
            { st5 with expected := "not empty list of expressions in parenthesis" } ∧
    ∀ st0 st1 : State,
      parse (env.getName .subquery) (ParserSubquery.parseImpl env buf end_) st0
        = .returned false st1 →
      st = { st1 with pos := st0.pos, expected := env.getName .parenthesisExpression } →
      ParserExpressionElement.parseImpl env buf end_ st0
        = expressionElementFromArray env buf end_ st0.pos
            { st5 with expected := "not empty list of expressions in parenthesis" } := by
  have h1 : ParserParenthesisExpression.parseImpl env buf end_ st
      = .returned false
          { st5 with expected := "not empty list of expressions in parenthesis" } := by
    unfold ParserParenthesisExpression.parseImpl
    rw [hhead]
    rfl
  refine ⟨h1, fun st0 st1 hsub hst => ?_⟩
  subst hst
  unfold ParserExpressionElement.parseImpl
  simp only [tryAlternative]
  have e0 : ({ st0 with pos := st0.pos } : State) = st0 := rfl
  rw [e0, hsub]
  simp only [Outcome.andThen, Bool.false_eq_true, if_false]
  unfold parse
  rw [h1]
  rfl

set_option exponentiation.threshold 2000 in
set_option maxRecDepth 8000 in
/-- C2 (amended), at `()`: `ParserParenthesisExpression` returns `false` with the diagnostic,
and with a select parser that fails `ParserExpressionElement` goes on with the array and the
later alternatives. -/
theorem empty_parentheses_recoverable_witness :
    ParserParenthesisExpression.parseImpl refEnvSelectMoves "()".toList 2
        ⟨0, none, "expression in parenthesis"⟩
      = .returned false ⟨2, none, "not empty list of expressions in parenthesis"⟩ ∧
    ParserExpressionElement.parseImpl refEnvSelectMoves "()".toList 2 ⟨0, none, ""⟩
      = expressionElementFromArray refEnvSelectMoves "()".toList 2 0
          ⟨2, none, "not empty list of expressions in parenthesis"⟩ :=
  have h := empty_parentheses_recoverable refEnvSelectMoves "()".toList 2
    ⟨0, none, "expression in parenthesis"⟩ ⟨2, none, "expression in parenthesis"⟩ ⟨0, 0⟩
    (fun _ => rfl)
  ⟨h.1, h.2 ⟨0, none, ""⟩ ⟨2, none, ")"⟩ rfl rfl⟩

set_option exponentiation.threshold 2000 in
set_option maxRecDepth 8000 in
/-- C2 as stated fails: on `()` `ParserParenthesisExpression` returns `false` with the
cursor after the closing parenthesis and the diagnostic set; it throws nothing. -/
theorem empty_parentheses_counterexample :
    ParserParenthesisExpression.parseImpl (refEnv 1) "()".toList 2 ⟨0, none, ""⟩
        = .returned false ⟨2, none, "not empty list of expressions in parenthesis"⟩ ∧
    ∀ m, ParserParenthesisExpression.parseImpl (refEnv 1) "()".toList 2 ⟨0, none, ""⟩
        ≠ .thrown m := by
  have h : ParserParenthesisExpression.parseImpl (refEnv 1) "()".toList 2 ⟨0, none, ""⟩
      = .returned false ⟨2, none, "not empty list of expressions in parenthesis"⟩ := rfl
  exact ⟨h, fun m hm => by rw [h] at hm; simp at hm⟩

/-- C5: when `ParserParenthesisExpression` succeeds, the opening parenthesis, an expression
list `children` and the closing parenthesis have been read, and: if the list has exactly one
element the node returned is that element itself; if it has two or more elements the node
returned is a function named `tuple` whose `arguments` is the list and whose only child is
the list. -/
theorem parenthesis_element_or_tuple (env : Env) (buf : List Char) (end_ : Nat)
    (st st' : State)
    (h : ParserParenthesisExpression.parseImpl env buf end_ st = .returned true st') :
    ∃ r children st5,
      (∀ k, delimited env "(" ")" env.expressionList buf end_ st k
        = k (some (.expressionList r children)) st5) ∧
      st'.pos = st5.pos ∧
      (children.length = 1 ∨ 2 ≤ children.length) ∧
      (∀ front, children = [front] → st'.node = front) ∧
      (2 ≤ children.length →
        st'.node = some (.function ⟨st.pos, st'.pos⟩ "tuple".toList
          (some (.expressionList r children)) none [] [some (.expressionList r children)])) := by
  obtain ⟨r, children, st5, hk, hc⟩ := parenthesisExpression_success env buf end_ st st' h
  refine ⟨r, children, st5, hk, ?_⟩
  rcases hc with ⟨front, rfl, rfl⟩ | ⟨h2, rfl⟩
  · refine ⟨rfl, Or.inl rfl, ?_, ?_⟩
    · intro f hf
      simp only [List.cons.injEq, and_true] at hf
      exact hf
    · intro h2; simp at h2
  · refine ⟨rfl, Or.inr h2, ?_, fun _ => rfl⟩
    intro f hf
    subst hf
    simp at h2


set_option exponentiation.threshold 2000 in
set_option maxRecDepth 8000 in
/-- C5, at `(1)` (the node is the literal, span `[1, 2)`) and at `(1,2)` (the node is the
`tuple` function over the list of the two literals). -/
theorem parenthesis_element_or_tuple_witness :
    (∃ r children st5,
      (∀ k, delimited (refEnv 1) "(" ")" (refEnv 1).expressionList "(1)".toList 3
          ⟨0, none, ""⟩ k = k (some (.expressionList r children)) st5) ∧
      3 = st5.pos ∧
      (children.length = 1 ∨ 2 ≤ children.length) ∧
      (∀ front, children = [front] → some (AST.literal ⟨1, 2⟩ (.uint64 1) []) = front) ∧
      (2 ≤ children.length →
        some (AST.literal ⟨1, 2⟩ (.uint64 1) [])
          = some (.function ⟨0, 3⟩ "tuple".toList
              (some (.expressionList r children)) none []
              [some (.expressionList r children)]))) ∧
    (∃ r children st5,
      (∀ k, delimited (refEnv 1) "(" ")" (refEnv 1).expressionList "(1,2)".toList 5
          ⟨0, none, ""⟩ k = k (some (.expressionList r children)) st5) ∧
      5 = st5.pos ∧
      (children.length = 1 ∨ 2 ≤ children.length) ∧
      (∀ front, children = [front] →
        some (AST.function ⟨0, 5⟩ "tuple".toList
            (some (.expressionList ⟨0, 0⟩
              [some (.literal ⟨1, 2⟩ (.uint64 1) []), some (.literal ⟨3, 4⟩ (.uint64 2) [])]))
            none []
            [some (.expressionList ⟨0, 0⟩
              [some (.literal ⟨1, 2⟩ (.uint64 1) []), some (.literal ⟨3, 4⟩ (.uint64 2) [])])])
          = front) ∧
      (2 ≤ children.length →
        some (AST.function ⟨0, 5⟩ "tuple".toList
            (some (.expressionList ⟨0, 0⟩
              [some (.literal ⟨1, 2⟩ (.uint64 1) []), some (.literal ⟨3, 4⟩ (.uint64 2) [])]))
            none []
            [some (.expressionList ⟨0, 0⟩
              [some (.literal ⟨1, 2⟩ (.uint64 1) []), some (.literal ⟨3, 4⟩ (.uint64 2) [])])])
          = some (.function ⟨0, 5⟩ "tuple".toList
              (some (.expressionList r children)) none []
              [some (.expressionList r children)]))) :=
  ⟨parenthesis_element_or_tuple (refEnv 1) "(1)".toList 3 ⟨0, none, ""⟩
      ⟨3, some (.literal ⟨1, 2⟩ (.uint64 1) []), ""⟩ rfl,
    parenthesis_element_or_tuple (refEnv 1) "(1,2)".toList 5 ⟨0, none, ""⟩
      ⟨5, some (.function ⟨0, 5⟩ "tuple".toList
          (some (.expressionList ⟨0, 0⟩
            [some (.literal ⟨1, 2⟩ (.uint64 1) []), some (.literal ⟨3, 4⟩ (.uint64 2) [])]))
          none []
          [some (.expressionList ⟨0, 0⟩
            [some (.literal ⟨1, 2⟩ (.uint64 1) []), some (.literal ⟨3, 4⟩ (.uint64 2) [])])]),
        ""⟩ rfl⟩

/-! ## ParserFunction -/

/-- Between `2` and `3` there are `2` and `3`. -/
theorem two_or_three (c : Char) :
    (decide ('2' ≤ c) && decide (c ≤ '3')) = (c == '2' || c == '3') := by
  have e2 : '2'.toNat = 50 := rfl
  have e3 : '3'.toNat = 51 := rfl
  by_cases h2 : c = '2'
  · subst h2; decide
  · by_cases h3 : c = '3'
    · subst h3; decide
    · have n2 : c.toNat ≠ 50 := fun h => h2 (Char.ext (by
        apply UInt32.toNat.inj; simpa [Char.toNat] using h))
      have n3 : c.toNat ≠ 51 := fun h => h3 (Char.ext (by
        apply UInt32.toNat.inj; simpa [Char.toNat] using h))
      have b2 : (c == '2') = false := by simp [h2]
      have b3 : (c == '3') = false := by simp [h3]
      rw [b2, b3]
      simp only [Bool.or_self, Bool.and_eq_false_imp, decide_eq_true_eq,
        decide_eq_false_iff_not, char_le_iff, e2, e3]
      omega

/-- Ten bytes in memory. -/
theorem ten_bytes (buf : List Char) (cb : Nat) (h : cb + 10 ≤ buf.length) :
    ∃ a b c d e f g h i j rest,
      buf.drop cb = a :: b :: c :: d :: e :: f :: g :: h :: i :: j :: rest := by
  have hl : 10 ≤ (buf.drop cb).length := by simp; omega
  generalize buf.drop cb = l at hl
  match l, hl with
  | a :: b :: c :: d :: e :: f :: g :: h :: i :: j :: rest, _ =>
    exact ⟨a, b, c, d, e, f, g, h, i, j, rest, rfl⟩

/-- A byte of the memory from an offset on. -/
theorem getElem?_of_drop (buf : List Char) (cb i : Nat) :
    buf[cb + i]? = (buf.drop cb)[i]? := by
  simp

/-- The ten tests of the `toDate` check, on text that lies in memory, are the test of the
shape of the text. -/
theorem looksLikeUnquotedDate_eq (buf : List Char) (cb ce : Nat) (hmem : ce ≤ buf.length) :
    looksLikeUnquotedDate buf cb ce = some (isUnquotedDate (slice buf cb ce)) := by
  unfold looksLikeUnquotedDate
  split
  · rename_i hce
    subst hce
    obtain ⟨a, b, c, d, e, f, g, h, i, j, rest, hd⟩ := ten_bytes buf cb hmem
    have h0 : buf[cb]? = some a := by
      have := getElem?_of_drop buf cb 0; rw [hd] at this; simpa using this
    have h1 : buf[cb + 1]? = some b := by rw [getElem?_of_drop, hd]; simp
    have h2 : buf[cb + 2]? = some c := by rw [getElem?_of_drop, hd]; simp
    have h3 : buf[cb + 3]? = some d := by rw [getElem?_of_drop, hd]; simp
    have h4 : buf[cb + 4]? = some e := by rw [getElem?_of_drop, hd]; simp
    have h5 : buf[cb + 5]? = some f := by rw [getElem?_of_drop, hd]; simp
    have h6 : buf[cb + 6]? = some g := by rw [getElem?_of_drop, hd]; simp
    have h7 : buf[cb + 7]? = some h := by rw [getElem?_of_drop, hd]; simp
    have h8 : buf[cb + 8]? = some i := by rw [getElem?_of_drop, hd]; simp
    have h9 : buf[cb + 9]? = some j := by rw [getElem?_of_drop, hd]; simp
    have hs : slice buf cb (cb + 10) = [a, b, c, d, e, f, g, h, i, j] := by
      simp [slice, hd]
    rw [hs]
    simp only [checkByte, h0, h1, h2, h3, h4, h5, h6, h7, h8, h9, isUnquotedDate,
      two_or_three]
    cases (a == '2' || a == '3') <;> cases isDigit b <;> cases isDigit c <;>
      cases isDigit d <;> cases (e == '-') <;> cases isDigit f <;> cases isDigit g <;>
      cases (h == '-') <;> cases isDigit i <;> cases isDigit j <;> rfl
  · rename_i hce
    have hlen : (slice buf cb ce).length ≠ 10 := by
      simp [slice]; omega
    congr 1
    generalize slice buf cb ce = l at hlen
    match l, hlen with
    | [], _ => rfl
    | [_], _ => rfl
    | [_, _], _ => rfl
    | [_, _, _], _ => rfl
    | [_, _, _, _], _ => rfl
    | [_, _, _, _, _], _ => rfl
    | [_, _, _, _, _, _], _ => rfl
    | [_, _, _, _, _, _, _], _ => rfl
    | [_, _, _, _, _, _, _, _], _ => rfl
    | [_, _, _, _, _, _, _, _, _], _ => rfl
    | [_, _, _, _, _, _, _, _, _, _], h => exact absurd rfl h
    | _ :: _ :: _ :: _ :: _ :: _ :: _ :: _ :: _ :: _ :: _ :: _, _ => rfl


/-- `ignore` of a quiet collaborator throws nothing. -/
theorem quiet_ignore {p : State → Outcome} (h : Quiet p) (st : State) (m : List Char) :
    ignore p st ≠ .thrown m := by
  unfold ignore
  cases hp : p { st with node := none } with
  | thrown m' => exact absurd hp (h _ _)
  | fault => simp [Outcome.andThen]
  | returned ok st1 => simp [Outcome.andThen]

/-- `ignore` without diagnostic of a quiet collaborator throws nothing. -/
theorem quiet_ignore2 {p : State → Outcome} (h : Quiet p) (st : State) (m : List Char) :
    ignore2 p st ≠ .thrown m := by
  unfold ignore2
  cases hp : p { st with node := none, expected := "" } with
  | thrown m' => exact absurd hp (h _ _)
  | fault => simp [Outcome.andThen]
  | returned ok st1 => simp [Outcome.andThen]

/-- A sequence of steps that throw nothing throws nothing. -/
theorem andThen_ne_thrown {o : Outcome} {k : Bool → State → Outcome} (m : List Char)
    (ho : o ≠ .thrown m) (hk : ∀ b st, k b st ≠ .thrown m) : o.andThen k ≠ .thrown m := by
  cases o with
  | thrown m' => simpa [Outcome.andThen] using ho
  | fault => simp [Outcome.andThen]
  | returned ok st1 => exact hk ok st1

/-- The end of `ParserFunction` throws only what its collaborators throw. -/
theorem functionSecondList_ne_thrown (env : Env) (buf : List Char) (end_ begin_ : Nat)
    (name : List Char) (first : Option AST) (st7 : State)
    (hopen : Quiet (env.parserString "(" false false buf end_))
    (hclose : Quiet (env.parserString ")" false false buf end_))
    (hws : Quiet (env.whiteSpaceOrComments buf end_))
    (hlist : Quiet (env.expressionList buf end_)) (m : List Char) :
    functionSecondList env buf end_ begin_ name first st7 ≠ .thrown m := by
  unfold functionSecondList delimitedRest skipWhiteSpace parseContents
  refine andThen_ne_thrown m (quiet_ignore hopen _ _) fun ok st1 => ?_
  cases ok
  · simp
  · simp only [if_true]
    refine andThen_ne_thrown m (quiet_ignore2 hws _ _) fun _ st2 => ?_
    refine andThen_ne_thrown m (hlist _ _) fun _ st3 => ?_
    refine andThen_ne_thrown m (quiet_ignore2 hws _ _) fun _ st4 => ?_
    refine andThen_ne_thrown m (quiet_ignore hclose _ _) fun ok st5 => ?_
    cases ok <;> simp

/-- C3 (amended): when `ParserFunction` has read an identifier, `(`, a first expression list
(whose text lies in memory) and `)`: if the name is exactly `toDate` and the text of the
list has the shape `DDDD-DD-DD` with a first digit `2` or `3`, it throws, and the message
contains `toDate(text)` and `toDate('text')`; in every other case its check throws nothing,
it goes on with the test for a second list, and it throws nothing at all when the delegated
parsers of the second list throw nothing. -/
theorem toDate_check (env : Env) (buf : List Char) (end_ : Nat) (st st7 : State)
    (r : StringRange) (name a : List Char) (cb ce : Nat) (first : Option AST)
    (hhead : ∀ k, functionHead env buf end_ st k
      = k (some (.identifier r name a)) cb ce first st7)
    (hmem : ce ≤ buf.length) :
    (name = "toDate".toList ∧ isUnquotedDate (slice buf cb ce) = true →
      ParserFunction.parseImpl env buf end_ st
          = .thrown (unquotedDateMessage (slice buf cb ce)) ∧
        ("toDate(".toList ++ slice buf cb ce ++ ")".toList)
          <:+: unquotedDateMessage (slice buf cb ce) ∧
        ("toDate('".toList ++ slice buf cb ce ++ "')".toList)
          <:+: unquotedDateMessage (slice buf cb ce)) ∧
    (¬ (name = "toDate".toList ∧ isUnquotedDate (slice buf cb ce) = true) →
      ParserFunction.parseImpl env buf end_ st
          = functionSecondList env buf end_ st.pos name first st7 ∧
        (Quiet (env.parserString "(" false false buf end_) →
          Quiet (env.parserString ")" false false buf end_) →
          Quiet (env.whiteSpaceOrComments buf end_) →
          Quiet (env.expressionList buf end_) →
          ∀ m, ParserFunction.parseImpl env buf end_ st ≠ .thrown m)) := by
  have hcheck := looksLikeUnquotedDate_eq buf cb ce hmem
  have himpl : ParserFunction.parseImpl env buf end_ st
      = functionCheck env buf end_ st.pos (some (.identifier r name a)) cb ce first st7 := by
    unfold ParserFunction.parseImpl
    rw [hhead]
  refine ⟨fun ⟨hn, hd⟩ => ⟨?_, ?_, ?_⟩, fun hnot => ?_⟩
  · rw [himpl]
    simp only [functionCheck, hn, if_true, hcheck, hd]
  · refine ⟨"Argument of function toDate is unquoted: ".toList,
      ", must be: toDate('".toList ++ slice buf cb ce ++ "')".toList, ?_⟩
    simp [unquotedDateMessage]
  · refine ⟨"Argument of function toDate is unquoted: toDate(".toList ++ slice buf cb ce
      ++ "), must be: ".toList, [], ?_⟩
    simp [unquotedDateMessage]
  · have h2 : ParserFunction.parseImpl env buf end_ st
        = functionSecondList env buf end_ st.pos name first st7 := by
      rw [himpl]
      simp only [functionCheck, hcheck]
      split
      · rename_i hn
        cases hd : isUnquotedDate (slice buf cb ce) with
        | true => exact absurd ⟨hn, hd⟩ hnot
        | false => rfl
      · rfl
    refine ⟨h2, fun hopen hclose hws hlist m => ?_⟩
    rw [h2]
    exact functionSecondList_ne_thrown env buf end_ st.pos name first st7 hopen hclose hws
      hlist m


set_option exponentiation.threshold 2000 in
set_option maxRecDepth 16000 in
/-- C3 (amended), at `toDate(2014-01-01)`, which throws with the message naming both forms,
and at `toDate('2014-01-01')`, which goes on with the test for a second list. -/
theorem toDate_check_witness :
    (ParserFunction.parseImpl (refEnv 1) "toDate(2014-01-01)".toList 18 ⟨0, none, ""⟩
        = .thrown (unquotedDateMessage "2014-01-01".toList) ∧
      ("toDate(".toList ++ "2014-01-01".toList ++ ")".toList)
        <:+: unquotedDateMessage "2014-01-01".toList ∧
      ("toDate('".toList ++ "2014-01-01".toList ++ "')".toList)
        <:+: unquotedDateMessage "2014-01-01".toList) ∧
    ParserFunction.parseImpl (refEnv 1) "toDate('2014-01-01')".toList 20 ⟨0, none, ""⟩
      = functionSecondList (refEnv 1) "toDate('2014-01-01')".toList 20 0 "toDate".toList
          (some (.expressionList ⟨0, 0⟩
            [some (.literal ⟨7, 19⟩ (.string "2014-01-01".toList) [])]))
          ⟨20, none, ""⟩ :=
  ⟨(toDate_check (refEnv 1) "toDate(2014-01-01)".toList 18 ⟨0, none, ""⟩ _ _ _ _ 7 17 _
      (fun _ => rfl) (by decide)).1 ⟨rfl, rfl⟩,
    ((toDate_check (refEnv 1) "toDate('2014-01-01')".toList 20 ⟨0, none, ""⟩ _ _ _ _ 7 19 _
      (fun _ => rfl) (by decide)).2 (by decide)).1⟩

set_option exponentiation.threshold 2000 in
set_option maxRecDepth 16000 in
/-- C3 as stated fails: on `f(1)(toDate(2014-01-01))` `ParserFunction` has read the
identifier `f`, `(`, the first list `1` and `)`, and it ends with the exception, which the
expression list of the second pair of parentheses throws. -/
theorem toDate_check_counterexample :
    (∀ k, functionHead (refEnv 2) "f(1)(toDate(2014-01-01))".toList 24 ⟨0, none, ""⟩ k
      = k (some (.identifier ⟨0, 1⟩ ['f'] [])) 2 3
          (some (.expressionList ⟨0, 0⟩ [some (.literal ⟨2, 3⟩ (.uint64 1) [])]))
          ⟨4, none, ""⟩) ∧
    ['f'] ≠ "toDate".toList ∧
    slice "f(1)(toDate(2014-01-01))".toList 2 3 = ['1'] ∧
    ParserFunction.parseImpl (refEnv 2) "f(1)(toDate(2014-01-01))".toList 24 ⟨0, none, ""⟩
      = .thrown (unquotedDateMessage "2014-01-01".toList) :=
  ⟨fun _ => rfl, by decide, rfl, rfl⟩

/-! ## ParserStringLiteral on an input without a closing quote -/

/-- A body with an item has a byte. -/
theorem bodyText_ne_nil (i : BodyItem) (is : List BodyItem) : bodyText (i :: is) ≠ [] := by
  cases i <;> simp [bodyText, BodyItem.text]

/-- The loop on a body that reaches the end of the input: the failure "closing single quote",
when the body does not end in a verbatim character or the byte at `end` is neither a quote
nor a backslash. -/
theorem stringLiteralLoop_unterminated (env : Env) (begin_ : Nat) (st : State)
    (post : List Char) :
    ∀ (items : List BodyItem) (front : List Char) (fuel : Nat) (s : List Char)
      (buf : List Char) (end_ : Nat),
      (∀ i ∈ items, i.valid = true) → items.length + 1 < fuel →
      (endsVerbatim items = true →
        ∃ x post', post = x :: post' ∧ x ≠ singleQuote ∧ x ≠ backSlash) →
      buf = front ++ (bodyText items ++ post) →
      end_ = front.length + (bodyText items).length →
      stringLiteralLoop env buf end_ begin_ st fuel front.length s
        = .returned false { st with pos := end_, expected := "closing single quote" } := by
  intro items
  induction items with
  | nil =>
    intro front fuel s buf end_ _ hfuel _ _ hend
    obtain ⟨fuel, rfl⟩ : ∃ f, fuel = f + 1 := ⟨fuel - 1, by omega⟩
    have : front.length = end_ := by rw [hend]; simp [bodyText]
    rw [stringLiteralLoop, if_pos this, this]
  | cons i is ih =>
    intro front fuel s buf end_ hvalid hfuel hlast hbuf hend
    obtain ⟨fuel, rfl⟩ : ∃ f, fuel = f + 1 := ⟨fuel - 1, by omega⟩
    have hv := hvalid i (by simp)
    cases i with
    | verbatim c =>
      simp only [BodyItem.valid, Bool.and_eq_true, bne_iff_ne] at hv
      have hget : buf[front.length]? = some c := by
        rw [hbuf]; exact getElem?_after front _ _
      cases is with
      | nil =>
        -- the last character of the input: the byte at `end` is read
        obtain ⟨x, post', rfl, hx⟩ := hlast rfl
        have hend' : end_ = front.length + 1 := by
          rw [hend]; simp [bodyText, BodyItem.text]
        have h1 : front.length ≠ end_ := by omega
        have hgetx : buf[front.length + 1]? = some x := by
          have := getElem?_after (front ++ [c]) x post'
          rw [hbuf]; simpa [bodyText, BodyItem.text] using this
        obtain ⟨fuel, rfl⟩ : ∃ f, fuel = f + 1 := ⟨fuel - 1, by simp at hfuel; omega⟩
        rw [stringLiteralLoop, if_neg h1, drop_of_getElem? hget, scanRun, if_neg h1,
          if_neg (by simp [hv.1, hv.2]), drop_of_getElem? hgetx, scanRun,
          if_pos hend'.symm]
        simp only [hgetx, if_neg hx.1, if_neg hx.2]
        rw [stringLiteralLoop, if_pos hend'.symm, hend']
      | cons j js =>
        have hne := bodyText_ne_nil j js
        have hlt : front.length + 1 < end_ := by
          have hpos : 0 < (bodyText (j :: js)).length := List.length_pos.mpr hne
          have hlen : (bodyText (BodyItem.verbatim c :: j :: js)).length
              = 1 + (bodyText (j :: js)).length := by
            simp [bodyText, BodyItem.text]; omega
          rw [hend, hlen]
          omega
        rw [stringLiteralLoop_verbatim env buf end_ begin_ st fuel _ s c hget hv.1 hv.2 hlt]
        have := ih (front ++ [c]) (fuel + 1) (s ++ [c]) buf end_
          (fun k hk => hvalid k (by simp [hk])) (by simp at hfuel ⊢; omega)
          (fun h => hlast (by simpa [endsVerbatim] using h))
          (by rw [hbuf]; simp [bodyText, BodyItem.text])
          (by rw [hend]; simp [bodyText, BodyItem.text]; omega)
        simp only [List.length_append, List.length_singleton] at this
        exact this
    | escaped e =>
      have hget : buf[front.length]? = some backSlash := by
        rw [hbuf]; exact getElem?_after front _ _
      have hget2 : buf[front.length + 1]? = some e := by
        have := getElem?_after (front ++ [backSlash]) e (bodyText is ++ post)
        rw [hbuf]; simpa [bodyText, BodyItem.text] using this
      rw [stringLiteralLoop_escaped env buf end_ begin_ st fuel _ s e hget hget2
        (by rw [hend]; simp [bodyText, BodyItem.text])]
      have := ih (front ++ [backSlash, e]) fuel (s ++ [env.parseEscapeSequence e]) buf end_
        (fun k hk => hvalid k (by simp [hk])) (by simp at hfuel ⊢; omega)
        (fun h => hlast (by
          cases is with
          | nil => simp [endsVerbatim] at h
          | cons j js => simpa [endsVerbatim] using h))
        (by rw [hbuf]; simp [bodyText, BodyItem.text])
        (by rw [hend]; simp [bodyText, BodyItem.text]; omega)
      simp only [List.length_append, List.length_cons, List.length_nil] at this
      exact this

/-- The loop on a body followed by a backslash that is the last byte of the input: the
failure "escape sequence". -/
theorem stringLiteralLoop_dangling (env : Env) (begin_ : Nat) (st : State)
    (post : List Char) :
    ∀ (items : List BodyItem) (front : List Char) (fuel : Nat) (s : List Char)
      (buf : List Char) (end_ : Nat),
      (∀ i ∈ items, i.valid = true) → items.length < fuel →
      buf = front ++ (bodyText items ++ (backSlash :: post)) →
      end_ = front.length + (bodyText items).length + 1 →
      stringLiteralLoop env buf end_ begin_ st fuel front.length s
        = .returned false { st with pos := end_, expected := "escape sequence" } := by
  intro items
  induction items with
  | nil =>
    intro front fuel s buf end_ _ hfuel hbuf hend
    obtain ⟨fuel, rfl⟩ : ∃ f, fuel = f + 1 := ⟨fuel - 1, by omega⟩
    have hget : buf[front.length]? = some backSlash := by
      rw [hbuf]; exact getElem?_after front _ _
    have hend' : front.length + 1 = end_ := by rw [hend]; simp [bodyText]
    have h1 : front.length ≠ end_ := by omega
    have hne : backSlash ≠ singleQuote := by decide
    rw [stringLiteralLoop, if_neg h1, drop_of_getElem? hget, scanRun, if_neg h1,
      if_pos (Or.inl rfl)]
    simp only [hget, if_neg hne, if_true, if_pos hend', hend']
  | cons i is ih =>
    intro front fuel s buf end_ hvalid hfuel hbuf hend
    obtain ⟨fuel, rfl⟩ : ∃ f, fuel = f + 1 := ⟨fuel - 1, by omega⟩
    have hv := hvalid i (by simp)
    cases i with
    | verbatim c =>
      simp only [BodyItem.valid, Bool.and_eq_true, bne_iff_ne] at hv
      have hget : buf[front.length]? = some c := by
        rw [hbuf]; exact getElem?_after front _ _
      rw [stringLiteralLoop_verbatim env buf end_ begin_ st fuel _ s c hget hv.1 hv.2
        (by rw [hend]; simp [bodyText, BodyItem.text])]
      have := ih (front ++ [c]) (fuel + 1) (s ++ [c]) buf end_
        (fun k hk => hvalid k (by simp [hk])) (by simp at hfuel ⊢; omega)
        (by rw [hbuf]; simp [bodyText, BodyItem.text])
        (by rw [hend]; simp [bodyText, BodyItem.text]; omega)
      simp only [List.length_append, List.length_singleton] at this
      exact this
    | escaped e =>
      have hget : buf[front.length]? = some backSlash := by
        rw [hbuf]; exact getElem?_after front _ _
      have hget2 : buf[front.length + 1]? = some e := by
        have := getElem?_after (front ++ [backSlash]) e
          (bodyText is ++ (backSlash :: post))
        rw [hbuf]; simpa [bodyText, BodyItem.text] using this
      rw [stringLiteralLoop_escaped env buf end_ begin_ st fuel _ s e hget hget2
        (by rw [hend]; simp [bodyText, BodyItem.text])]
      have := ih (front ++ [backSlash, e]) fuel (s ++ [env.parseEscapeSequence e]) buf end_
        (fun k hk => hvalid k (by simp [hk])) (by simp at hfuel ⊢; omega)
        (by rw [hbuf]; simp [bodyText, BodyItem.text])
        (by rw [hend]; simp [bodyText, BodyItem.text]; omega)
      simp only [List.length_append, List.length_cons, List.length_nil] at this
      exact this


/-- What `ParserStringLiteral` does on an input without a closing quote: with no quote
first, the failure "opening single quote" with the cursor where it was; with a backslash as
the last byte, the failure "escape sequence"; otherwise the failure "closing single quote",
when the body does not end in a verbatim character or the byte stored at `end` is neither a
quote nor a backslash.  The node is not touched. -/
theorem stringLiteral_failures (env : Env) (pre post : List Char) (node : Option AST)
    (expected : String) :
    (∀ input : List Char, (∀ c ∈ input.head?, c ≠ singleQuote) →
      ParserStringLiteral.parseImpl env (pre ++ (input ++ post)) (pre.length + input.length)
          ⟨pre.length, node, expected⟩
        = .returned false ⟨pre.length, node, "opening single quote"⟩) ∧
    (∀ items : List BodyItem, (∀ i ∈ items, i.valid = true) →
      ParserStringLiteral.parseImpl env
          (pre ++ (singleQuote :: (bodyText items ++ (backSlash :: post))))
          (pre.length + 1 + (bodyText items).length + 1) ⟨pre.length, node, expected⟩
        = .returned false
            ⟨pre.length + 1 + (bodyText items).length + 1, node, "escape sequence"⟩) ∧
    (∀ items : List BodyItem, (∀ i ∈ items, i.valid = true) →
      (endsVerbatim items = true →
        ∃ x post', post = x :: post' ∧ x ≠ singleQuote ∧ x ≠ backSlash) →
      ParserStringLiteral.parseImpl env (pre ++ (singleQuote :: (bodyText items ++ post)))
          (pre.length + 1 + (bodyText items).length) ⟨pre.length, node, expected⟩
        = .returned false
            ⟨pre.length + 1 + (bodyText items).length, node, "closing single quote"⟩) := by
  refine ⟨fun input hin => ?_, fun items hvalid => ?_, fun items hvalid hlast => ?_⟩
  · cases input with
    | nil => simp [ParserStringLiteral.parseImpl]
    | cons c cs =>
      have hc := hin c (by simp)
      have hne : pre.length ≠ pre.length + (c :: cs).length := by simp
      simp only [ParserStringLiteral.parseImpl, if_neg hne, List.cons_append, getElem?_after,
        ne_eq, hc, not_false_eq_true, if_true]
  · have hne : pre.length ≠ pre.length + 1 + (bodyText items).length + 1 := by omega
    have hloop := stringLiteralLoop_dangling env pre.length ⟨pre.length, node, expected⟩ post
      items (pre ++ [singleQuote])
      ((pre ++ (singleQuote :: (bodyText items ++ (backSlash :: post)))).length + 2) []
      (pre ++ (singleQuote :: (bodyText items ++ (backSlash :: post))))
      (pre.length + 1 + (bodyText items).length + 1) hvalid
      (by have := length_le_bodyText items; simp; omega) (by simp) (by simp)
    simp only [List.length_append, List.length_singleton] at hloop
    simp only [ParserStringLiteral.parseImpl, if_neg hne, getElem?_after, ne_eq,
      not_true_eq_false, if_false]
    simp only [List.length_append, List.length_cons] at hloop ⊢
    rw [hloop]
  · have hne : pre.length ≠ pre.length + 1 + (bodyText items).length := by omega
    have hloop := stringLiteralLoop_unterminated env pre.length ⟨pre.length, node, expected⟩
      post items (pre ++ [singleQuote])
      ((pre ++ (singleQuote :: (bodyText items ++ post))).length + 2) []
      (pre ++ (singleQuote :: (bodyText items ++ post)))
      (pre.length + 1 + (bodyText items).length) hvalid
      (by have := length_le_bodyText items; simp; omega) hlast (by simp) (by simp)
    simp only [List.length_append, List.length_singleton] at hloop
    simp only [ParserStringLiteral.parseImpl, if_neg hne, getElem?_after, ne_eq,
      not_true_eq_false, if_false]
    simp only [List.length_append, List.length_cons] at hloop ⊢
    rw [hloop]

/-! ## ParserNumber on decimal digits -/

/-- The digits are the characters 48 to 57. -/
theorem isDigit_iff (c : Char) : isDigit c = true ↔ 48 ≤ c.toNat ∧ c.toNat ≤ 57 := by
  have e0 : '0'.toNat = 48 := rfl
  have e9 : '9'.toNat = 57 := rfl
  simp [isDigit, char_le_iff, e0, e9]

/-- The value of a decimal digit. -/
theorem digitValue_of_isDigit {c : Char} (h : isDigit c = true) :
    digitValue c = some (c.toNat - 48) := by
  simp [digitValue, h]

/-- The digits of base ten. -/
theorem isDigitOf_ten (c : Char) : isDigitOf 10 c = isDigit c := by
  have ea : 'a'.toNat = 97 := rfl
  have ef : 'f'.toNat = 102 := rfl
  have eA : 'A'.toNat = 65 := rfl
  have eF : 'F'.toNat = 70 := rfl
  cases h : isDigit c with
  | true =>
    have := (isDigit_iff c).mp h
    simp only [isDigitOf, digitValue, h, if_true, decide_eq_true_eq]
    omega
  | false =>
    simp only [isDigitOf, digitValue, h, Bool.false_eq_true, if_false]
    split
    · rename_i v hv
      split at hv
      · rename_i hc
        simp only [Bool.and_eq_true, decide_eq_true_eq, char_le_iff, ea, ef] at hc
        simp only [Option.some.injEq] at hv
        simp only [decide_eq_false_iff_not]; omega
      · split at hv
        · rename_i hc
          simp only [Bool.and_eq_true, decide_eq_true_eq, char_le_iff, eA, eF] at hc
          simp only [Option.some.injEq] at hv
          simp only [decide_eq_false_iff_not]; omega
        · simp at hv
    · rfl

/-- The leading run stops where the test fails. -/
theorem takeWhile_append_stop {α : Type} (p : α → Bool) (ds rest : List α)
    (hds : ∀ c ∈ ds, p c = true) (hrest : ∀ c ∈ rest.head?, p c = false) :
    (ds ++ rest).takeWhile p = ds := by
  induction ds with
  | nil =>
    cases rest with
    | nil => rfl
    | cons c r => simp [List.takeWhile, hrest c (by simp)]
  | cons d ds ih =>
    simp [List.takeWhile, hds d (by simp), ih (fun c hc => hds c (by simp [hc]))]

/-- The number read from a string of digits, from an accumulator on. -/
theorem digitsValue_eq_foldl (ds : List Char) (hds : ∀ c ∈ ds, isDigit c = true) :
    ∀ acc, digitsValue 10 acc ds = ds.foldl (fun acc c => acc * 10 + (c.toNat - 48)) acc := by
  induction ds with
  | nil => intro acc; rfl
  | cons d ds ih =>
    intro acc
    have hd := hds d (by simp)
    have := (isDigit_iff d).mp hd
    simp only [digitsValue, digitValue_of_isDigit hd, List.foldl_cons]
    rw [if_pos (by omega), ih (fun c hc => hds c (by simp [hc]))]

/-- The number read from a string of digits is its decimal value. -/
theorem digitsValue_decimal (ds : List Char) (hds : ∀ c ∈ ds, isDigit c = true) :
    digitsValue 10 0 ds = decimalValue ds :=
  digitsValue_eq_foldl ds hds 0


/-- A digit is no white space. -/
theorem isSpace_of_isDigit {c : Char} (h : isDigit c = true) : isSpace c = false := by
  have := (isDigit_iff c).mp h
  have hs : c ≠ ' ' := by rintro rfl; revert h; decide
  simp only [isSpace, beq_eq_false_iff_ne.mpr hs, Bool.false_or, Bool.and_eq_false_imp,
    decide_eq_true_eq, decide_eq_false_iff_not]
  omega

/-- A digit is no sign. -/
theorem readSign_of_isDigit {c : Char} (h : isDigit c = true) (cs : List Char) :
    readSign (c :: cs) = (false, 0) := by
  have h1 : c ≠ '-' := by rintro rfl; revert h; decide
  have h2 : c ≠ '+' := by rintro rfl; revert h; decide
  unfold readSign
  split
  · rename_i heq; simp only [List.cons.injEq] at heq; exact absurd heq.1 h1
  · rename_i heq; simp only [List.cons.injEq] at heq; exact absurd heq.1 h2
  · rfl

/-- What follows the digits is no digit. -/
theorem DigitsThenStop.stop_not_digit {digits rest : List Char}
    (h : DigitsThenStop digits rest) : ∀ c ∈ rest.head?, isDigit c = false := by
  intro c hc
  have := h.stop c hc
  simp only [endsNumber, Bool.and_eq_true, Bool.not_eq_true', bne_iff_ne] at this
  exact this.1.1.1.1.1

/-- The mantissa of a string of digits. -/
theorem readMantissa_digits {digits rest : List Char} (h : DigitsThenStop digits rest) :
    readMantissa 10 (digits ++ rest) = some (digits.length, decimalValue digits, 0) := by
  have htake : takeDigits 10 (digits ++ rest) = digits := by
    unfold takeDigits
    exact takeWhile_append_stop _ _ _ (fun c hc => by rw [isDigitOf_ten]; exact h.allDigits c hc)
      (fun c hc => by rw [isDigitOf_ten]; exact h.stop_not_digit c hc)
  unfold readMantissa
  simp only [htake, List.drop_left]
  have hlen : digits.length ≠ 0 := by
    have := h.nonempty
    cases digits with
    | nil => exact absurd rfl this
    | cons _ _ => simp
  split
  · have := h.stop '.' (by simp)
    exact absurd this (by decide)
  · simp [hlen, digitsValue_decimal digits h.allDigits]

/-- No exponent without its letter. -/
theorem readExponent_stop (isMarker : Char → Bool) (rest : List Char)
    (h : ∀ c ∈ rest.head?, isMarker c = false) : readExponent isMarker rest = (0, 0) := by
  cases rest with
  | nil => rfl
  | cons m r => simp [readExponent, h m (by simp)]

/-- The decimal constant of a string of digits. -/
theorem strtodDecimal_digits {digits rest : List Char} (h : DigitsThenStop digits rest) :
    strtodDecimal false (digits ++ rest)
      = (digits.length, .finite false (decimalValue digits) 10 0) := by
  unfold strtodDecimal
  rw [readMantissa_digits h]
  simp only [List.drop_left]
  rw [readExponent_stop _ rest (fun c hc => by
    have := h.stop c hc
    simp only [endsNumber, Bool.and_eq_true, Bool.not_eq_true', bne_iff_ne] at this
    simp [this.1.1.1.2, this.1.1.2])]
  simp

/-- The subject sequence of a string of digits. -/
theorem strtodSubject_digits {digits rest : List Char} (h : DigitsThenStop digits rest) :
    strtodSubject false (digits ++ rest)
      = (digits.length, .finite false (decimalValue digits) 10 0) := by
  rw [← strtodDecimal_digits h]
  unfold strtodSubject
  split
  · rename_i x tl heq
    have hx : (x == 'x' || x == 'X') = false := by
      cases digits with
      | nil => exact absurd rfl h.nonempty
      | cons d ds =>
        simp only [List.cons_append, List.cons.injEq] at heq
        have hd := h.noLeadingZero (by simp [heq.1])
        simp only [List.cons.injEq] at hd
        rw [hd.2, List.nil_append] at heq
        have := h.stop x (by rw [heq.2]; simp)
        simp only [endsNumber, Bool.and_eq_true, Bool.not_eq_true', bne_iff_ne] at this
        simp [this.1.2, this.2]
    simp only [hx, Bool.false_eq_true, if_false]
  · rfl

/-- `strtod` on a string of digits: all of them, and their value. -/
theorem strtod_digits {digits rest : List Char} (h : DigitsThenStop digits rest) :
    strtod (digits ++ rest) = (digits.length, .finite false (decimalValue digits) 10 0) := by
  obtain ⟨d, ds, rfl⟩ : ∃ d ds, digits = d :: ds := by
    cases digits with
    | nil => exact absurd rfl h.nonempty
    | cons d ds => exact ⟨d, ds, rfl⟩
  have hd := h.allDigits d (by simp)
  unfold strtod
  simp only [List.cons_append, List.takeWhile, isSpace_of_isDigit hd, List.length_nil,
    List.drop_zero, readSign_of_isDigit hd]
  have := strtodSubject_digits h
  simp only [List.cons_append] at this
  simp [this]


/-- What is no decimal digit is no octal digit. -/
theorem isDigitOf_eight_of_not_digit {c : Char} (h : isDigit c = false) :
    isDigitOf 8 c = false := by
  have h10 : isDigitOf 10 c = false := by rw [isDigitOf_ten]; exact h
  unfold isDigitOf at h10 ⊢
  split
  · rename_i v hv
    rw [hv] at h10
    simp only [decide_eq_false_iff_not] at h10 ⊢
    omega
  · rfl

/-- The integer text of a string of digits without a leading zero. -/
theorem strtoInteger_digits {digits rest : List Char} (h : DigitsThenStop digits rest) :
    strtoInteger (digits ++ rest) = ⟨digits.length, decimalValue digits, false⟩ := by
  obtain ⟨d, ds, rfl⟩ : ∃ d ds, digits = d :: ds := by
    cases digits with
    | nil => exact absurd rfl h.nonempty
    | cons d ds => exact ⟨d, ds, rfl⟩
  have hd := h.allDigits d (by simp)
  have htake10 : takeDigits 10 (d :: ds ++ rest) = d :: ds := by
    unfold takeDigits
    exact takeWhile_append_stop _ _ _
      (fun c hc => by rw [isDigitOf_ten]; exact h.allDigits c hc)
      (fun c hc => by rw [isDigitOf_ten]; exact h.stop_not_digit c hc)
  have hzero : d = '0' → ds = [] ∧ takeDigits 8 ('0' :: rest) = ['0'] := by
    intro hd0
    have := h.noLeadingZero (by simp [hd0])
    simp only [List.cons.injEq] at this
    refine ⟨this.2, ?_⟩
    unfold takeDigits
    exact takeWhile_append_stop _ ['0'] rest (by decide)
      (fun c hc => isDigitOf_eight_of_not_digit (h.stop_not_digit c hc))
  unfold strtoInteger
  simp only [List.cons_append, List.takeWhile, isSpace_of_isDigit hd, List.length_nil,
    List.drop_zero, readSign_of_isDigit hd]
  split
  · rename_i x hx tl heq
    simp only [List.cons.injEq] at heq
    obtain ⟨hds, htk⟩ := hzero heq.1
    subst hds
    rw [List.nil_append] at heq
    have hxx : (x == 'x' || x == 'X') = false := by
      have := h.stop x (by rw [heq.2]; simp)
      simp only [endsNumber, Bool.and_eq_true, Bool.not_eq_true', bne_iff_ne] at this
      simp [this.1.2, this.2]
    simp only [hxx, Bool.false_and, Bool.false_eq_true, if_false, heq.1, List.nil_append,
      htk]
    rfl
  · rename_i tl heq
    simp only [List.cons.injEq] at heq
    obtain ⟨hds, htk⟩ := hzero heq.1
    subst hds
    simp only [heq.1, List.nil_append, htk]
    rfl
  · have h10 := htake10
    simp only [List.cons_append] at h10
    simp only [h10, List.length_cons, Nat.add_one_ne_zero, if_false, Nat.zero_add]
    rw [digitsValue_decimal _ h.allDigits]

/-- `strtoull` on a string of digits without a leading zero, below `2^64`. -/
theorem strtoull_digits {digits rest : List Char} (h : DigitsThenStop digits rest)
    (hval : decimalValue digits < 2 ^ 64) :
    strtoull (digits ++ rest) = (digits.length, decimalValue digits, false) := by
  unfold strtoull
  rw [strtoInteger_digits h]
  simp only [ge_iff_le, Nat.not_le.mpr hval, if_false, Bool.false_eq_true]


/-- A lower bound of the number read from an accumulator on. -/
theorem foldl_decimal_ge (ds : List Char) :
    ∀ acc, acc * 10 ^ ds.length ≤ ds.foldl (fun acc c => acc * 10 + (c.toNat - 48)) acc := by
  induction ds with
  | nil => intro acc; simp
  | cons d ds ih =>
    intro acc
    simp only [List.foldl_cons, List.length_cons]
    refine Nat.le_trans ?_ (ih _)
    calc acc * 10 ^ (ds.length + 1) = acc * 10 * 10 ^ ds.length := by ring
      _ ≤ (acc * 10 + (d.toNat - 48)) * 10 ^ ds.length :=
          Nat.mul_le_mul_right _ (Nat.le_add_right _ _)

/-- A number below `2^64` without a leading zero has twenty digits at most. -/
theorem DigitsThenStop.length_le {digits rest : List Char} (h : DigitsThenStop digits rest)
    (hval : decimalValue digits < 2 ^ 64) : digits.length ≤ 20 := by
  obtain ⟨d, ds, rfl⟩ : ∃ d ds, digits = d :: ds := by
    cases digits with
    | nil => exact absurd rfl h.nonempty
    | cons d ds => exact ⟨d, ds, rfl⟩
  by_cases hd0 : d = '0'
  · have := h.noLeadingZero (by simp [hd0])
    simp only [List.cons.injEq] at this
    simp [this.2]
  · have hd := (isDigit_iff d).mp (h.allDigits d (by simp))
    have hne : d.toNat ≠ 48 := fun hh => hd0 (Char.ext (by
      apply UInt32.toNat.inj; simpa [Char.toNat] using hh))
    have hge := foldl_decimal_ge ds (0 * 10 + (d.toNat - 48))
    have hv : decimalValue (d :: ds)
        = ds.foldl (fun acc c => acc * 10 + (c.toNat - 48)) (0 * 10 + (d.toNat - 48)) := rfl
    rw [hv] at hval
    by_contra hlen
    simp only [List.length_cons, Nat.not_le] at hlen
    have h20 : 10 ^ 20 ≤ 10 ^ ds.length := Nat.pow_le_pow_right (by norm_num) (by omega)
    have h1 : 1 * 10 ^ ds.length ≤ (0 * 10 + (d.toNat - 48)) * 10 ^ ds.length :=
      Nat.mul_le_mul_right _ (by omega)
    have : (2 : Nat) ^ 64 < 10 ^ 20 := by norm_num
    omega

/-- The leading run goes through a part that passes the test. -/
theorem takeWhile_append_all {α : Type} (p : α → Bool) (ds rest : List α)
    (hds : ∀ c ∈ ds, p c = true) : (ds ++ rest).takeWhile p = ds ++ rest.takeWhile p := by
  induction ds with
  | nil => rfl
  | cons d ds ih =>
    simp [List.takeWhile, hds d (by simp), ih (fun c hc => hds c (by simp [hc]))]

/-- The first character of a cut of what follows is the first character that follows. -/
theorem head?_takeWhile_take {α : Type} (p : α → Bool) (k : Nat) (rest post : List α)
    (hk : k ≤ rest.length) :
    ∀ c ∈ ((rest ++ post).take k |>.takeWhile p).head?, c ∈ rest.head? := by
  intro c hc
  cases rest with
  | nil =>
    have : k = 0 := by simpa using hk
    subst this
    simp at hc
  | cons r rs =>
    cases k with
    | zero => simp at hc
    | succ k =>
      simp only [List.cons_append, List.take_succ_cons, List.takeWhile] at hc
      cases hp : p r with
      | true => rw [hp] at hc; simpa using hc
      | false => rw [hp] at hc; simp at hc

/-- The C string that `ParserNumber` hands to the C library, on digits and what follows. -/
theorem number_text {digits rest : List Char} (pre post : List Char)
    (h : DigitsThenStop digits rest) (n : Nat) (hn1 : digits.length ≤ n)
    (hn2 : n ≤ digits.length + rest.length) :
    ∃ rest2,
      (slice (pre ++ (digits ++ (rest ++ post))) pre.length (pre.length + n)).takeWhile
          (· ≠ Char.ofNat 0) = digits ++ rest2 ∧
      DigitsThenStop digits rest2 := by
  obtain ⟨k, rfl⟩ : ∃ k, n = digits.length + k := ⟨n - digits.length, by omega⟩
  have hslice : slice (pre ++ (digits ++ (rest ++ post))) pre.length
      (pre.length + (digits.length + k)) = digits ++ (rest ++ post).take k := by
    simp [slice, List.take_append_eq_append_take]
  refine ⟨((rest ++ post).take k).takeWhile (· ≠ Char.ofNat 0), ?_, h.nonempty, h.allDigits,
    h.noLeadingZero, ?_⟩
  · rw [hslice]
    refine takeWhile_append_all _ _ _ fun c hc => ?_
    have := (isDigit_iff c).mp (h.allDigits c hc)
    have hne : c ≠ Char.ofNat 0 := by
      rintro rfl
      have : (Char.ofNat 0).toNat = 0 := rfl
      omega
    simpa using hne
  · intro c hc
    exact h.stop c (head?_takeWhile_take _ k rest post (by omega) c hc)

/-- What `ParserNumber` does on decimal digits without a leading zero: for a non-empty
string of decimal digits that does not start with a zero followed by another digit, whose
decimal value is below `2^64`, followed by the end of the input or by a character that does
not go on with a number, it succeeds with the unsigned integer of that value and leaves the
cursor directly after the last digit. -/
theorem number_decimal_digits (env : Env) (pre digits rest post : List Char)
    (node : Option AST) (expected : String) (h : DigitsThenStop digits rest)
    (hval : decimalValue digits < 2 ^ 64) :
    ParserNumber.parseImpl env (pre ++ (digits ++ (rest ++ post)))
        (pre.length + digits.length + rest.length) ⟨pre.length, node, expected⟩
      = .returned true
          ⟨pre.length + digits.length,
            some (.literal ⟨pre.length, pre.length + digits.length⟩
              (.uint64 (decimalValue digits)) []),
            expected⟩ := by
  have hlen := h.length_le hval
  have hpos : 0 < digits.length := List.length_pos.mpr h.nonempty
  have hne : pre.length ≠ pre.length + digits.length + rest.length := by omega
  have hlt : ¬ pre.length + digits.length + rest.length < pre.length := by omega
  obtain ⟨rest2, htext, h2⟩ := number_text pre post h
    (if pre.length + digits.length + rest.length - pre.length < 319
      then pre.length + digits.length + rest.length - pre.length else 319)
    (by split <;> omega) (by split <;> omega)
  have hmem : ¬ (pre ++ (digits ++ (rest ++ post))).length < pre.length +
      (if pre.length + digits.length + rest.length - pre.length < 319
        then pre.length + digits.length + rest.length - pre.length else 319) := by
    simp only [List.length_append]
    split <;> omega
  have hrange : (Float64.finite false (decimalValue digits) 10 0).rangeError = false := by
    have h64 : (2 : Nat) ^ 64 ≤ 2 ^ 1024 - 2 ^ 970 := by norm_num
    simp only [Float64.rangeError, ge_iff_le, Int.le_refl, if_true, Int.toNat_zero,
      Nat.pow_zero, Nat.mul_one, Bool.or_eq_false_iff, decide_eq_false_iff_not, Nat.not_le,
      Bool.and_eq_false_imp, Bool.and_eq_true, decide_eq_true_eq]
    refine ⟨by omega, fun hnz => ?_⟩
    have : 1 ≤ decimalValue digits * 2 ^ 1022 :=
      Nat.mul_pos (Nat.pos_of_ne_zero hnz.1) (by positivity)
    omega
  unfold ParserNumber.parseImpl
  simp only [if_neg hne, if_neg hlt, if_neg hmem, htext, strtod_digits h2,
    strtoull_digits h2 hval, hrange, Float64.isNegative]
  simp only [Nat.pos_iff_ne_zero.mp hpos, false_or, Bool.false_eq_true, if_false,
    Bool.false_and, and_self, if_true]

set_option exponentiation.threshold 2000 in
set_option maxRecDepth 4000 in
/-- On `123` followed by a blank the literal is the unsigned integer 123 and the cursor is
left on the blank. -/
theorem number_decimal_digits_at_123 :
    ParserNumber.parseImpl (refEnv 0) "123 ".toList 4 ⟨0, none, ""⟩
      = .returned true ⟨3, some (.literal ⟨0, 3⟩ (.uint64 123) []), ""⟩ :=
  number_decimal_digits (refEnv 0) [] "123".toList [' '] [] none ""
    ⟨by decide, by decide, by decide, by decide⟩ (by decide)

/-! ## ParserCompoundIdentifier: the shape of the name -/

theorem slice_split (buf : List Char) {p q r : Nat} (hpq : p ≤ q) (hqr : q ≤ r) :
    slice buf p r = slice buf p q ++ slice buf q r := by
  obtain ⟨a, rfl⟩ : ∃ a, q = p + a := ⟨q - p, by omega⟩
  obtain ⟨b, rfl⟩ : ∃ b, r = p + a + b := ⟨r - (p + a), by omega⟩
  simp only [slice]
  have e1 : p + a + b - p = a + b := by omega
  have e2 : p + a - p = a := by omega
  have e3 : p + a + b - (p + a) = b := by omega
  rw [e1, e2, e3, List.take_add, List.drop_drop]

/-- What `scanName` passes over: name characters, the first of which is not a digit when the
scan starts at `begin`. -/
theorem scanName_run (end_ begin_ : Nat) : ∀ (mem : List Char) (p q : Nat),
    scanName end_ begin_ mem p = some q →
      p ≤ q ∧ q - p ≤ mem.length
      ∧ (∀ c ∈ mem.take (q - p), isWordStart c = true ∨ isDigit c = true)
      ∧ (p = begin_ → ∀ c ∈ (mem.take (q - p)).head?, isWordStart c = true)
      ∧ (p ≤ end_ → q ≤ end_) := by
  intro mem
  induction mem with
  | nil =>
    intro p q h
    simp only [scanName] at h
    split at h <;> simp_all
  | cons c mem ih =>
    intro p q h
    simp only [scanName] at h
    split at h
    · simp at h; subst h; simp_all
    · rename_i hne
      split at h
      · rename_i hc
        obtain ⟨h1, h2, h3, h4, h5⟩ := ih _ _ h
        have e : q - p = (q - (p + 1)) + 1 := by omega
        refine ⟨by omega, by simp; omega, ?_, ?_, by omega⟩
        · rw [e, List.take_succ_cons]
          intro x hx
          simp only [List.mem_cons] at hx
          rcases hx with rfl | hx
          · simp only [Bool.or_eq_true, Bool.and_eq_true] at hc
            rcases hc with hc | hc
            · exact Or.inl hc
            · exact Or.inr hc.2
          · exact h3 x hx
        · intro hp
          rw [e, List.take_succ_cons]
          intro x hx
          simp at hx
          subst hx
          simp only [Bool.or_eq_true, Bool.and_eq_true] at hc
          rcases hc with hc | hc
          · exact hc
          · simp [hp] at hc
      · simp at h; subst h; simp

/-- Name characters are not dots. -/
theorem nameChar_ne_dot {c : Char} (h : isWordStart c = true ∨ isDigit c = true) : c ≠ '.' := by
  rintro rfl
  revert h
  decide

/-- A text without dots in front does not change whether a digit follows a dot. -/
theorem noDigitAfterDot_append : ∀ (run t : List Char), (∀ c ∈ run, c ≠ '.') →
    noDigitAfterDot (run ++ t) = noDigitAfterDot t := by
  intro run
  induction run with
  | nil => intros; rfl
  | cons c cs ih =>
    intro t h
    have hc : c ≠ '.' := h c (by simp)
    have e : noDigitAfterDot (c :: cs ++ t)
        = ((c != '.' || ((cs ++ t).head?.all fun d => !isDigit d))
            && noDigitAfterDot (cs ++ t)) := rfl
    rw [e, ih t (fun x hx => h x (by simp [hx]))]
    simp [hc]

/-- The first byte of a slice is the byte at its first offset. -/
theorem slice_head {buf : List Char} {p q : Nat} {c : Char}
    (h : (slice buf p q).head? = some c) : buf[p]? = some c := by
  simp only [slice] at h
  cases hq : q - p with
  | zero => simp [hq] at h
  | succ n =>
    rw [hq] at h
    cases hd : buf.drop p with
    | nil => simp [hd] at h
    | cons x xs =>
      rw [hd] at h
      simp at h
      subst h
      have := congrArg List.head? hd
      simpa using this

/-- What the outer loop of `ParserCompoundIdentifier` passes over. -/
theorem compoundLoop_text (buf : List Char) (end_ begin_ : Nat) : ∀ (fuel p q : Nat),
    compoundLoop buf end_ begin_ fuel p = some q →
      p ≤ q ∧ (p ≤ end_ → q ≤ end_)
      ∧ (∀ c ∈ slice buf p q, isNameByte c = true)
      ∧ noDigitAfterDot (slice buf p q) = true
      ∧ (p = begin_ → ∀ c ∈ (slice buf p q).head?, isWordStart c = true) := by
  intro fuel
  induction fuel with
  | zero => intro p q h; simp [compoundLoop] at h
  | succ fuel ih =>
    intro p q h
    rw [compoundLoop] at h
    split at h
    · simp at h; subst h
      simp [slice_self, noDigitAfterDot]
    · cases hs : scanName end_ begin_ (buf.drop p) p with
      | none => simp [hs] at h
      | some p1 =>
        rw [hs] at h
        simp only at h
        obtain ⟨h1, h2, h3, h4, h5⟩ := scanName_run end_ begin_ _ _ _ hs
        have hrun : slice buf p p1 = (buf.drop p).take (p1 - p) := rfl
        have hdotfree : ∀ c ∈ slice buf p p1, c ≠ '.' := fun c hc => nameChar_ne_dot (h3 c hc)
        have hstop : p ≤ p1 ∧ (p ≤ end_ → p1 ≤ end_)
            ∧ (∀ c ∈ slice buf p p1, isNameByte c = true)
            ∧ noDigitAfterDot (slice buf p p1) = true
            ∧ (p = begin_ → ∀ c ∈ (slice buf p p1).head?, isWordStart c = true) := by
          refine ⟨h1, h5, ?_, ?_, h4⟩
          · intro c hc
            rcases h3 c hc with h | h <;> simp [isNameByte, h]
          · have := noDigitAfterDot_append (slice buf p p1) [] hdotfree
            simpa [noDigitAfterDot] using this
        split at h
        · rename_i hcond
          cases hg : buf[p1]? with
          | none => simp [hg] at h
          | some c =>
            rw [hg] at h
            simp only at h
            split at h
            · rename_i hc
              subst hc
              cases hg2 : buf[p1 + 1]? with
              | none => simp [hg2] at h
              | some d =>
                rw [hg2] at h
                simp only at h
                split at h
                · simp at h; subst h; exact hstop
                · rename_i hd
                  obtain ⟨i1, i2, i3, i4, _⟩ := ih _ _ h
                  have hsplit : slice buf p q
                      = slice buf p p1 ++ '.' :: slice buf (p1 + 1) q := by
                    rw [slice_split buf h1 (by omega : p1 ≤ q), slice_cons hg i1]
                  have hlen : (slice buf p p1).length = p1 - p := by
                    rw [hrun, List.length_take]; omega
                  refine ⟨by omega, fun hp => i2 (by have := h5 hp; omega), ?_, ?_, ?_⟩
                  · intro x hx
                    rw [hsplit] at hx
                    simp only [List.mem_append, List.mem_cons] at hx
                    rcases hx with hx | rfl | hx
                    · exact hstop.2.2.1 x hx
                    · rfl
                    · exact i3 x hx
                  · rw [hsplit, noDigitAfterDot_append _ _ hdotfree, noDigitAfterDot, i4]
                    simp only [bne_self_eq_false, Bool.false_or, Bool.and_true]
                    cases hh : (slice buf (p1 + 1) q).head? with
                    | none => simp
                    | some x =>
                      have := slice_head hh
                      rw [hg2] at this
                      simp at this
                      subst this
                      simpa using hd
                  · intro hp x hx
                    have hpos : 0 < (slice buf p p1).length := by rw [hlen]; omega
                    have hne : slice buf p p1 ≠ [] := List.ne_nil_of_length_pos hpos
                    rw [hsplit, List.head?_append_of_ne_nil _ hne] at hx
                    exact h4 hp x hx
            · simp at h; subst h; exact hstop
        · simp at h; subst h; exact hstop

/-- Where `scanName` stops: at `end_`, or on a byte that is no letter and no underscore, and
no digit either unless the scan is still at `begin_`. -/
theorem scanName_halts_at (end_ begin_ : Nat) : ∀ (mem : List Char) (p q : Nat),
    scanName end_ begin_ mem p = some q →
      q = end_ ∨ ∃ x, mem[q - p]? = some x ∧ isWordStart x = false
        ∧ (q ≠ begin_ → isDigit x = false) := by
  intro mem
  induction mem with
  | nil =>
    intro p q h
    simp only [scanName] at h
    split at h <;> simp_all
  | cons c mem ih =>
    intro p q h
    simp only [scanName] at h
    split at h
    · simp at h; subst h; left; assumption
    · split at h
      · have hge := (scanName_run end_ begin_ _ _ _ h).1
        rcases ih _ _ h with h1 | ⟨x, hx, h2, h3⟩
        · exact Or.inl h1
        · refine Or.inr ⟨x, ?_, h2, h3⟩
          have e : q - p = (q - (p + 1)) + 1 := by omega
          rw [e, List.getElem?_cons_succ]
          exact hx
      · rename_i hc
        simp at h; subst h
        refine Or.inr ⟨c, by simp, ?_, ?_⟩
        · cases hw : isWordStart c <;> simp_all
        · intro hne
          cases hd : isDigit c <;> simp_all

/-- Where the outer loop of `ParserCompoundIdentifier` stops: at `end_`, or on a byte that is
no name character; when that byte is a dot, it is the last byte before `end_` or a decimal
digit follows it.  A dot followed before `end_` by a byte that is no digit is never where
the loop stops: it is consumed. -/
theorem compoundLoop_halts_at (buf : List Char) (end_ begin_ : Nat) : ∀ (fuel p q : Nat),
    compoundLoop buf end_ begin_ fuel p = some q →
      q = end_ ∨ ∃ x, buf[q]? = some x ∧ isWordStart x = false
        ∧ (q ≠ begin_ → isDigit x = false)
        ∧ (x = '.' → q ≠ begin_ → q + 1 < end_ →
            ∃ y, buf[q + 1]? = some y ∧ isDigit y = true) := by
  intro fuel
  induction fuel with
  | zero => intro p q h; simp [compoundLoop] at h
  | succ fuel ih =>
    intro p q h
    rw [compoundLoop] at h
    split at h
    · simp at h; subst h; left; assumption
    · cases hs : scanName end_ begin_ (buf.drop p) p with
      | none => simp [hs] at h
      | some p1 =>
        rw [hs] at h
        simp only at h
        have hge := (scanName_run end_ begin_ _ _ _ hs).1
        have hscan : p1 = end_ ∨ ∃ x, buf[p1]? = some x ∧ isWordStart x = false
            ∧ (p1 ≠ begin_ → isDigit x = false) := by
          rcases scanName_halts_at end_ begin_ _ _ _ hs with h1 | ⟨x, hx, h2, h3⟩
          · exact Or.inl h1
          · refine Or.inr ⟨x, ?_, h2, h3⟩
            rw [List.getElem?_drop] at hx
            have e : p + (p1 - p) = p1 := by omega
            rw [e] at hx
            exact hx
        split at h
        · rename_i hcond
          cases hg : buf[p1]? with
          | none => simp [hg] at h
          | some c =>
            rw [hg] at h
            simp only at h
            rcases hscan with h1 | ⟨x, hx, h2, h3⟩
            · omega
            · rw [hg] at hx
              simp only [Option.some.injEq] at hx
              subst hx
              split at h
              · rename_i hc
                cases hg2 : buf[p1 + 1]? with
                | none => simp [hg2] at h
                | some d =>
                  rw [hg2] at h
                  simp only at h
                  split at h
                  · rename_i hd
                    simp at h; subst h
                    exact Or.inr ⟨c, hg, h2, h3, fun _ _ _ => ⟨d, hg2, hd⟩⟩
                  · exact ih _ _ h
              · rename_i hc
                simp at h; subst h
                exact Or.inr ⟨c, hg, h2, h3, fun hdot => absurd hdot hc⟩
        · rename_i hcond
          simp at h; subst h
          rcases hscan with h1 | ⟨x, hx, h2, h3⟩
          · exact Or.inl h1
          · refine Or.inr ⟨x, hx, h2, h3, ?_⟩
            intro _ hb hlt
            exact absurd ⟨hb, hlt⟩ hcond

/-- Every dot the outer loop of `ParserCompoundIdentifier` passes over is followed, before
`end_`, by a byte that is no decimal digit. -/
theorem compoundLoop_dots (buf : List Char) (end_ begin_ : Nat) : ∀ (fuel p q : Nat),
    compoundLoop buf end_ begin_ fuel p = some q →
      ∀ i, p ≤ i → i < q → buf[i]? = some '.' →
        i + 1 < end_ ∧ ∃ y, buf[i + 1]? = some y ∧ isDigit y = false := by
  intro fuel
  induction fuel with
  | zero => intro p q h; simp [compoundLoop] at h
  | succ fuel ih =>
    intro p q h
    rw [compoundLoop] at h
    split at h
    · simp at h; subst h; intro i h1 h2; omega
    · cases hs : scanName end_ begin_ (buf.drop p) p with
      | none => simp [hs] at h
      | some p1 =>
        rw [hs] at h
        simp only at h
        obtain ⟨hge, _, hrun, _, _⟩ := scanName_run end_ begin_ _ _ _ hs
        have hnodot : ∀ i, p ≤ i → i < p1 → buf[i]? = some '.' → False := by
          intro i h1 h2 hi
          have hmem : '.' ∈ (buf.drop p).take (p1 - p) := by
            rw [List.mem_iff_getElem?]
            refine ⟨i - p, ?_⟩
            rw [List.getElem?_take, if_pos (by omega), List.getElem?_drop]
            have e : p + (i - p) = i := by omega
            rw [e]; exact hi
          exact nameChar_ne_dot (hrun _ hmem) rfl
        have hstop : ∀ i, p ≤ i → i < p1 → buf[i]? = some '.' →
            i + 1 < end_ ∧ ∃ y, buf[i + 1]? = some y ∧ isDigit y = false :=
          fun i h1 h2 hi => (hnodot i h1 h2 hi).elim
        split at h
        · rename_i hcond
          cases hg : buf[p1]? with
          | none => simp [hg] at h
          | some c =>
            rw [hg] at h
            simp only at h
            split at h
            · rename_i hc
              subst hc
              cases hg2 : buf[p1 + 1]? with
              | none => simp [hg2] at h
              | some d =>
                rw [hg2] at h
                simp only at h
                split at h
                · simp at h; subst h; exact hstop
                · rename_i hd
                  intro i h1 h2 hi
                  by_cases hlt : i < p1
                  · exact hstop i h1 hlt hi
                  · by_cases heq : i = p1
                    · subst heq
                      exact ⟨hcond.2, d, hg2, by simpa using hd⟩
                    · exact ih _ _ h i (by omega) h2 hi
            · simp at h; subst h; exact hstop
        · simp at h; subst h; exact hstop

/-- C11, as stated, does not hold: on `a. ` (a dot followed by a byte that is neither a digit
nor a name character) the name is `a.`, which ends with a dot, and on `a..b` the name is
`a..b`, which has two adjacent dots. -/
theorem compoundIdentifier_grammar_counterexample :
    (ParserCompoundIdentifier.parseImpl (refEnv 0) "a. ".toList 3 ⟨0, none, ""⟩
        = .returned true ⟨2, some (.identifier ⟨0, 2⟩ "a.".toList []), ""⟩
      ∧ endsWithDot "a.".toList = true)
    ∧ (ParserCompoundIdentifier.parseImpl (refEnv 0) "a..b".toList 4 ⟨0, none, ""⟩
        = .returned true ⟨4, some (.identifier ⟨0, 4⟩ "a..b".toList []), ""⟩
      ∧ hasAdjacentDots "a..b".toList = true) :=
  ⟨⟨rfl, by decide⟩, rfl, by decide⟩

/-- C11, amended: when `ParserCompoundIdentifier` succeeds on an input that does not start
with a back quote, the name is the consumed text; it starts with a character in `[A-Za-z_]`,
holds only name characters and dots, and no dot in it is directly followed by a decimal
digit.  A dot is consumed exactly when a byte that is no decimal digit follows it before
`end`: every consumed dot is followed before `end` by such a byte, and the cursor is left at
`end` or on a byte that is no name character and that, when it is a dot, is the last byte
before `end` or is followed by a decimal digit.  So the name can end with a dot and can hold
adjacent dots. -/
theorem compoundIdentifier_name_shape (env : Env) (buf : List Char) (end_ : Nat)
    (st st1 : State) (c : Char) (hc : buf[st.pos]? = some c) (hq : c ≠ backQuote)
    (h : ParserCompoundIdentifier.parseImpl env buf end_ st = .returned true st1) :
    st.pos < st1.pos
    ∧ st1.node = some (.identifier ⟨st.pos, st1.pos⟩ (slice buf st.pos st1.pos) [])
    ∧ (slice buf st.pos st1.pos).head? = some c
    ∧ isWordStart c = true
    ∧ (∀ x ∈ slice buf st.pos st1.pos, isNameByte x = true)
    ∧ noDigitAfterDot (slice buf st.pos st1.pos) = true
    ∧ (∀ i, st.pos ≤ i → i < st1.pos → buf[i]? = some '.' →
        i + 1 < end_ ∧ ∃ y, buf[i + 1]? = some y ∧ isDigit y = false)
    ∧ (st1.pos = end_ ∨ ∃ x, buf[st1.pos]? = some x ∧ isWordStart x = false
        ∧ isDigit x = false
        ∧ (x = '.' → st1.pos + 1 < end_ →
            ∃ y, buf[st1.pos + 1]? = some y ∧ isDigit y = true)) := by
  simp only [ParserCompoundIdentifier.parseImpl, hc, if_neg hq] at h
  split at h
  · simp at h
  · cases hl : compoundLoop buf end_ st.pos (buf.length + 1) st.pos with
    | none => simp [hl] at h
    | some q =>
      rw [hl] at h
      simp only at h
      split at h
      · rename_i hne
        simp only [Outcome.returned.injEq, true_and] at h
        subst h
        obtain ⟨h1, _, h3, h4, h5⟩ := compoundLoop_text buf end_ st.pos _ _ _ hl
        have hlt : st.pos < q := by omega
        have hhead : (slice buf st.pos q).head? = some c := by
          rw [slice_cons hc hlt]; rfl
        refine ⟨hlt, rfl, hhead, h5 rfl c (by simp [hhead]), h3, h4,
          compoundLoop_dots buf end_ st.pos _ _ _ hl, ?_⟩
        rcases compoundLoop_halts_at buf end_ st.pos _ _ _ hl with he | ⟨x, hx, h6, h7, h8⟩
        · exact Or.inl he
        · exact Or.inr ⟨x, hx, h6, h7 hne, fun hdot hlt2 => h8 hdot hne hlt2⟩
      · simp at h

/-- C11, amended, at `a..b x`: both dots are consumed, the name `a..b` starts with a letter,
no dot in it is followed by a digit, and the cursor is left on the blank. -/
theorem compoundIdentifier_name_shape_witness :
    ParserCompoundIdentifier.parseImpl (refEnv 0) "a..b x".toList 6 ⟨0, none, ""⟩
      = .returned true ⟨4, some (.identifier ⟨0, 4⟩ "a..b".toList []), ""⟩
    ∧ (0 < 4
      ∧ some (AST.identifier ⟨0, 4⟩ "a..b".toList [])
          = some (.identifier ⟨0, 4⟩ (slice "a..b x".toList 0 4) [])
      ∧ (slice "a..b x".toList 0 4).head? = some 'a'
      ∧ isWordStart 'a' = true
      ∧ (∀ x ∈ slice "a..b x".toList 0 4, isNameByte x = true)
      ∧ noDigitAfterDot (slice "a..b x".toList 0 4) = true
      ∧ (∀ i, 0 ≤ i → i < 4 → "a..b x".toList[i]? = some '.' →
          i + 1 < 6 ∧ ∃ y, "a..b x".toList[i + 1]? = some y ∧ isDigit y = false)
      ∧ (4 = 6 ∨ ∃ x, "a..b x".toList[4]? = some x ∧ isWordStart x = false
          ∧ isDigit x = false
          ∧ (x = '.' → 4 + 1 < 6 →
              ∃ y, "a..b x".toList[4 + 1]? = some y ∧ isDigit y = true))) :=
  ⟨rfl, compoundIdentifier_name_shape (refEnv 0) "a..b x".toList 6 ⟨0, none, ""⟩
    ⟨4, some (.identifier ⟨0, 4⟩ "a..b".toList []), ""⟩ 'a' rfl (by decide) rfl⟩

/-! ## ParserCompoundIdentifier before a dot and a digit -/

/-- The outer loop on a dotted name where a dot after the name is followed by nothing or by a
digit: the loop stops before that dot. -/
theorem compoundLoop_dotted_stop (begin_ : Nat) (rest post : List Char)
    (hstop : ∀ d ∈ rest.head?, isWordStart d = false ∧ isDigit d = false)
    (hdot : ∀ r, rest = '.' :: r → ∀ e ∈ r.head?, isDigit e = true) :
    ∀ (segs : List (List Char)) (front : List Char) (fuel : Nat) (buf : List Char) (end_ : Nat),
      segs ≠ [] → (∀ s ∈ segs, isSegment s = true) → begin_ ≤ front.length →
      segs.length ≤ fuel →
      buf = front ++ (dotted segs ++ (rest ++ post)) →
      end_ = front.length + (dotted segs).length + rest.length →
      compoundLoop buf end_ begin_ fuel front.length
        = some (front.length + (dotted segs).length) := by
  intro segs
  induction segs with
  | nil => intro _ _ _ _ h; exact absurd rfl h
  | cons s ts ih =>
    intro front fuel buf end_ _ hsegs hbegin hfuel hbuf hend
    have hs := hsegs s (by simp)
    obtain ⟨c, cs, rfl⟩ : ∃ c cs, s = c :: cs := by
      cases s with
      | nil => simp [isSegment] at hs
      | cons c cs => exact ⟨c, cs, rfl⟩
    simp only [isSegment, Bool.and_eq_true, List.all_eq_true, Bool.or_eq_true] at hs
    obtain ⟨fuel, rfl⟩ : ∃ f, fuel = f + 1 := ⟨fuel - 1, by simp at hfuel; omega⟩
    cases ts with
    | nil =>
      simp only [dotted] at hbuf hend ⊢
      have hne : front.length ≠ end_ := by
        rw [hend]; simp; omega
      have hscan := scanName_word begin_ front.length c cs rest post hbegin hs.1 hs.2 hstop
      rw [← hend] at hscan
      rw [compoundLoop, if_neg hne, hbuf, List.drop_left, hscan]
      simp only
      split
      · rename_i h
        cases rest with
        | nil => simp only [List.length_cons, List.length_nil] at hend h; omega
        | cons d r =>
          have hget : (front ++ (c :: cs ++ (d :: r ++ post)))[front.length + (c :: cs).length]?
              = some d := by
            have := getElem?_after (front ++ (c :: cs)) d (r ++ post)
            simpa using this
          rw [hget]
          simp only
          split
          · rename_i hd
            subst hd
            cases r with
            | nil => simp only [List.length_cons, List.length_nil] at hend h; omega
            | cons e r2 =>
              have he := hdot (e :: r2) rfl e (by simp)
              have hget2 : (front ++ (c :: cs ++ ('.' :: e :: r2 ++ post)))[
                  front.length + (c :: cs).length + 1]? = some e := by
                have := getElem?_after (front ++ (c :: cs ++ ['.'])) e (r2 ++ post)
                simpa [Nat.add_assoc] using this
              rw [hget2]
              simp [he]
          · rfl
      · rfl
    | cons t us =>
      have ht := hsegs t (by simp)
      obtain ⟨e, es, rfl⟩ : ∃ e es, t = e :: es := by
        cases t with
        | nil => simp [isSegment] at ht
        | cons e es => exact ⟨e, es, rfl⟩
      have hte := ht
      simp only [isSegment, Bool.and_eq_true] at hte
      have hd2 : dotted ((c :: cs) :: (e :: es) :: us)
          = c :: cs ++ '.' :: dotted ((e :: es) :: us) := by simp [dotted]
      obtain ⟨tl, htl⟩ : ∃ tl, dotted ((e :: es) :: us) = e :: tl := by
        cases us <;> simp [dotted]
      rw [hd2] at hbuf hend ⊢
      have ih' := ih (front ++ (c :: cs ++ ['.'])) fuel buf end_ (by simp)
        (fun x hx => hsegs x (by simp [hx])) (by simp; omega)
        (by simp only [List.length_cons] at hfuel ⊢; omega)
        (by rw [hbuf]; simp) (by rw [hend]; simp; omega)
      have hne : front.length ≠ end_ := by
        rw [hend]; simp; omega
      have hscan := scanName_word begin_ front.length c cs
        ('.' :: (dotted ((e :: es) :: us) ++ rest)) post hbegin hs.1 hs.2
        (by simp; decide)
      have hend2 : front.length + (c :: cs).length
          + ('.' :: (dotted ((e :: es) :: us) ++ rest)).length = end_ := by
        rw [hend]; simp; omega
      rw [hend2] at hscan
      have hdrop : buf.drop front.length
          = c :: cs ++ ('.' :: (dotted ((e :: es) :: us) ++ rest) ++ post) := by
        rw [hbuf]; simp
      have hget1 : buf[front.length + (c :: cs).length]? = some '.' := by
        have := getElem?_after (front ++ (c :: cs)) '.'
          (dotted ((e :: es) :: us) ++ (rest ++ post))
        rw [hbuf]; simpa using this
      have hget2 : buf[front.length + (c :: cs).length + 1]? = some e := by
        have := getElem?_after (front ++ (c :: cs ++ ['.'])) e (tl ++ (rest ++ post))
        rw [hbuf, htl]; simpa [Nat.add_assoc] using this
      have hcond : front.length + (c :: cs).length ≠ begin_
          ∧ front.length + (c :: cs).length + 1 < end_ := by
        rw [hend, htl]; simp; omega
      rw [compoundLoop, if_neg hne, hdrop, hscan]
      simp only [if_pos hcond, hget1, hget2, isWordStart_not_isDigit hte.1]
      have hlen : (front ++ (c :: cs ++ ['.'])).length = front.length + (c :: cs).length + 1 := by
        simp; omega
      rw [hlen] at ih'
      simp only [if_true, Bool.false_eq_true, if_false]
      rw [ih']
      simp; omega

/-- C12: on the dotted text of one or more segments followed by a dot and a decimal digit,
`ParserCompoundIdentifier` succeeds and stops before that dot: the name is the dotted text,
the cursor is left on the dot, and neither the dot nor the digits are consumed. -/
theorem compoundIdentifier_stops_before_dot_digit (env : Env) (pre : List Char)
    (segs : List (List Char)) (d : Char) (rest post : List Char) (node : Option AST)
    (expected : String)
    (hne : segs ≠ []) (hsegs : ∀ s ∈ segs, isSegment s = true) (hd : isDigit d = true) :
    ParserCompoundIdentifier.parseImpl env (pre ++ (dotted segs ++ (('.' :: d :: rest) ++ post)))
        (pre.length + (dotted segs).length + ('.' :: d :: rest).length)
        ⟨pre.length, node, expected⟩
      = .returned true
          ⟨pre.length + (dotted segs).length,
            some (.identifier ⟨pre.length, pre.length + (dotted segs).length⟩ (dotted segs) []),
            expected⟩
    ∧ (pre ++ (dotted segs ++ (('.' :: d :: rest) ++ post)))[pre.length + (dotted segs).length]?
      = some '.' := by
  obtain ⟨c, tl, hdt, hc⟩ := dotted_head segs hne hsegs
  have hloop := compoundLoop_dotted_stop pre.length ('.' :: d :: rest) post
    (by simp; decide) (by intro r hr e he; simp at hr; subst hr; simp at he; subst he; exact hd)
    segs pre
    ((pre ++ (dotted segs ++ (('.' :: d :: rest) ++ post))).length + 1) _ _ hne hsegs
    (Nat.le_refl _)
    (by have := length_le_dotted segs hsegs; simp; omega) rfl rfl
  have hpos : pre.length ≠ pre.length + (dotted segs).length + ('.' :: d :: rest).length := by
    rw [hdt]; simp; omega
  have hget : (pre ++ (dotted segs ++ (('.' :: d :: rest) ++ post)))[pre.length]? = some c := by
    rw [hdt]; exact getElem?_after pre c _
  have hlen : pre.length + (dotted segs).length ≠ pre.length := by
    rw [hdt]; simp
  refine ⟨?_, ?_⟩
  · simp only [ParserCompoundIdentifier.parseImpl, if_neg hpos, hget,
      if_neg (isWordStart_ne_backQuote hc), hloop, slice_after]
    simp [hlen]
  · have := getElem?_after (pre ++ dotted segs) '.' (d :: rest ++ post)
    simpa using this

/-- C12, at `a.5`: the name is `a`, the cursor is left on the dot. -/
theorem compoundIdentifier_stops_before_dot_digit_witness :
    ParserCompoundIdentifier.parseImpl (refEnv 0) "a.5".toList 3 ⟨0, none, ""⟩
      = .returned true ⟨1, some (.identifier ⟨0, 1⟩ "a".toList []), ""⟩
    ∧ "a.5".toList[1]? = some '.' :=
  compoundIdentifier_stops_before_dot_digit (refEnv 0) [] [['a']] '5' [] [] none ""
    (by decide) (by decide) (by decide)

/-! ## ParserSubquery and the result of the select parser -/

/-- The result of `select.parse` is not looked at: whatever it returns, once the closing
parenthesis is read `ParserSubquery` succeeds, with the node the select parser left (null
when it left none) as the only child. -/
theorem subquery_ignores_select_result (env : Env) (buf : List Char) (end_ : Nat)
    (st st1 st2 st3 st4 st5 : State) (ok2 ok3 ok4 : Bool)
    (hopen : ignore (env.parserString "(" false false buf end_) st = .returned true st1)
    (hws : ignore2 (env.whiteSpaceOrComments buf end_) st1 = .returned ok2 st2)
    (hselect : env.selectQuery buf end_ { st2 with node := none } = .returned ok3 st3)
    (hws2 : ignore2 (env.whiteSpaceOrComments buf end_) { st3 with node := st2.node }
      = .returned ok4 st4)
    (hclose : ignore (env.parserString ")" false false buf end_) st4 = .returned true st5) :
    ParserSubquery.parseImpl env buf end_ st
      = .returned true
          { st5 with node := some (.subquery ⟨st.pos, st5.pos⟩ [st3.node]) } := by
  simp [ParserSubquery.parseImpl, delimited, delimitedRest, skipWhiteSpace, parseContents,
    hopen, hws, hselect, hws2, hclose, Outcome.andThen]

/-- When `ParserSubquery` succeeds, its node has one child, the node the select parser left,
whether the select parser returned `true` or `false`. -/
theorem subquery_child (env : Env) (buf : List Char) (end_ : Nat) (st st1 : State)
    (h : ParserSubquery.parseImpl env buf end_ st = .returned true st1) :
    ∃ (st2 : State) (ok : Bool) (st3 : State),
      env.selectQuery buf end_ { st2 with node := none } = .returned ok st3
      ∧ st1.node = some (.subquery ⟨st.pos, st1.pos⟩ [st3.node]) := by
  unfold ParserSubquery.parseImpl delimited delimitedRest skipWhiteSpace parseContents at h
  cases h1 : ignore (env.parserString "(" false false buf end_) st with
  | thrown m => simp [h1, Outcome.andThen] at h
  | fault => simp [h1, Outcome.andThen] at h
  | returned ok1 s1 =>
    cases ok1 with
    | false => simp [h1, Outcome.andThen] at h
    | true =>
      simp only [h1, Outcome.andThen, Bool.not_true, Bool.false_eq_true, if_false] at h
      cases h2 : ignore2 (env.whiteSpaceOrComments buf end_) s1 with
      | thrown m => simp [h2] at h
      | fault => simp [h2] at h
      | returned ok2 s2 =>
        simp only [h2] at h
        cases h3 : env.selectQuery buf end_ { s2 with node := none } with
        | thrown m => simp [h3] at h
        | fault => simp [h3] at h
        | returned ok3 s3 =>
          simp only [h3] at h
          cases h4 : ignore2 (env.whiteSpaceOrComments buf end_) { s3 with node := s2.node } with
          | thrown m => simp [h4] at h
          | fault => simp [h4] at h
          | returned ok4 s4 =>
            simp only [h4] at h
            cases h5 : ignore (env.parserString ")" false false buf end_) s4 with
            | thrown m => simp [h5] at h
            | fault => simp [h5] at h
            | returned ok5 s5 =>
              cases ok5 with
              | false => simp [h5] at h
              | true =>
                simp only [h5, Bool.not_true, Bool.false_eq_true, if_false,
                  Outcome.returned.injEq, true_and] at h
                subst h
                exact ⟨s2, ok3, s3, h3, rfl⟩

/-- C13, at `()`: the select parser fails at the closing parenthesis and leaves no node, and
`ParserSubquery` succeeds all the same, with a null pointer as the only child. -/
theorem subquery_succeeds_after_failed_select :
    (refEnv 1).selectQuery "()".toList 2 ⟨1, none, ""⟩
      = .returned false ⟨1, none, "SELECT query"⟩
    ∧ ParserSubquery.parseImpl (refEnv 1) "()".toList 2 ⟨0, none, ""⟩
      = .returned true ⟨2, some (.subquery ⟨0, 2⟩ [none]), "SELECT query"⟩ :=
  ⟨rfl, rfl⟩

/-! ## ParserFunction and white space before the second list -/

set_option exponentiation.threshold 2000 in
set_option maxRecDepth 16000 in
/-- C14, at `quantile(0.9) (x)`: with a blank between the first `)` and the second `(`,
`ParserFunction` stops after the first `)`: the node is the plain function with the first
list as arguments and no parameters, the cursor is left on the blank.  Without the blank,
on `quantile(0.9)(x)`, the node is the parametric one. -/
theorem function_blank_before_second_list :
    ParserFunction.parseImpl (refEnv 1) "quantile(0.9) (x)".toList 17 ⟨0, none, ""⟩
      = .returned true
          ⟨13, some (.function ⟨0, 13⟩ "quantile".toList
              (some (.expressionList ⟨0, 0⟩
                [some (.literal ⟨9, 12⟩ (.float64 (.finite false 9 10 (-1))) [])]))
              none []
              [some (.expressionList ⟨0, 0⟩
                [some (.literal ⟨9, 12⟩ (.float64 (.finite false 9 10 (-1))) [])])]), "("⟩
    ∧ ParserFunction.parseImpl (refEnv 1) "quantile(0.9)(x)".toList 16 ⟨0, none, ""⟩
      = .returned true
          ⟨16, some (.function ⟨0, 16⟩ "quantile".toList
              (some (.expressionList ⟨0, 0⟩ [some (.identifier ⟨14, 15⟩ "x".toList [])]))
              (some (.expressionList ⟨0, 0⟩
                [some (.literal ⟨9, 12⟩ (.float64 (.finite false 9 10 (-1))) [])]))
              []
              [some (.expressionList ⟨0, 0⟩ [some (.identifier ⟨14, 15⟩ "x".toList [])]),
                some (.expressionList ⟨0, 0⟩
                  [some (.literal ⟨9, 12⟩ (.float64 (.finite false 9 10 (-1))) [])])]), ""⟩ :=
  ⟨rfl, rfl⟩

/-! ## ParserExpressionElement as an ordered choice -/

/-- What an ordered choice returns: success is the success of one alternative after all
before it have failed; failure is at `begin_` with the diagnostic after all have failed; an
exception is that of one alternative after all before it have failed. -/
theorem orderedChoice_cases (begin_ : Nat) (diagnostic : String) :
    ∀ (alts : List (State → Outcome)) (st : State),
      (∀ st1, orderedChoice begin_ diagnostic alts st = .returned true st1 →
        ∃ pre p post st0, alts = pre ++ p :: post ∧ AllFailed begin_ pre st st0
          ∧ p { st0 with pos := begin_ } = .returned true st1)
      ∧ (∀ st1, orderedChoice begin_ diagnostic alts st = .returned false st1 →
        ∃ st0, AllFailed begin_ alts st st0
          ∧ st1 = { st0 with pos := begin_, expected := diagnostic })
      ∧ (∀ m, orderedChoice begin_ diagnostic alts st = .thrown m →
        ∃ pre p post st0, alts = pre ++ p :: post ∧ AllFailed begin_ pre st st0
          ∧ p { st0 with pos := begin_ } = .thrown m) := by
  intro alts
  induction alts with
  | nil =>
    intro st
    refine ⟨?_, ?_, ?_⟩
    · intro st1 h; simp [orderedChoice] at h
    · intro st1 h
      simp only [orderedChoice, Outcome.returned.injEq, true_and] at h
      exact ⟨st, rfl, h.symm⟩
    · intro m h; simp [orderedChoice] at h
  | cons p rest ih =>
    intro st
    simp only [orderedChoice]
    cases hp : p { st with pos := begin_ } with
    | thrown m =>
      refine ⟨by simp, by simp, ?_⟩
      intro m1 h
      simp only [Outcome.thrown.injEq] at h
      subst h
      exact ⟨[], p, rest, st, rfl, rfl, hp⟩
    | fault => simp
    | returned ok st2 =>
      cases ok with
      | true =>
        refine ⟨?_, by simp, by simp⟩
        intro st1 h
        simp only [Outcome.returned.injEq, true_and] at h
        subst h
        exact ⟨[], p, rest, st, rfl, rfl, hp⟩
      | false =>
        obtain ⟨i1, i2, i3⟩ := ih st2
        refine ⟨?_, ?_, ?_⟩
        · intro st1 h
          obtain ⟨pre, q, post, st0, e, hf, hq⟩ := i1 st1 h
          exact ⟨p :: pre, q, post, st0, by rw [e]; rfl, ⟨st2, hp, hf⟩, hq⟩
        · intro st1 h
          obtain ⟨st0, hf, e⟩ := i2 st1 h
          exact ⟨st0, ⟨st2, hp, hf⟩, e⟩
        · intro m h
          obtain ⟨pre, q, post, st0, e, hf, hq⟩ := i3 m h
          exact ⟨p :: pre, q, post, st0, by rw [e]; rfl, ⟨st2, hp, hf⟩, hq⟩

/-- `ParserExpressionElement::parseImpl` is the ordered choice of its seven alternatives. -/
theorem expressionElement_eq_orderedChoice (env : Env) (buf : List Char) (end_ : Nat)
    (st : State) :
    ParserExpressionElement.parseImpl env buf end_ st
      = orderedChoice st.pos expressionElementExpected
          (expressionElementAlternatives env buf end_ st.pos) st := by
  simp only [ParserExpressionElement.parseImpl, expressionElementFromArray, tryAlternative,
    expressionElementAlternatives, orderedChoice, asteriskAlternative, expressionElementExpected]
  cases parse (env.getName .subquery) (ParserSubquery.parseImpl env buf end_)
      { st with pos := st.pos } with
  | thrown m => rfl
  | fault => rfl
  | returned ok s1 =>
    cases ok with
    | true => rfl
    | false =>
      simp only [Outcome.andThen, Bool.false_eq_true, if_false]
      cases parse (env.getName .parenthesisExpression)
          (ParserParenthesisExpression.parseImpl env buf end_) { s1 with pos := st.pos } with
      | thrown m => rfl
      | fault => rfl
      | returned ok s2 =>
        cases ok with
        | true => rfl
        | false =>
          simp only [Bool.false_eq_true, if_false]
          cases parse (env.getName .array) (ParserArray.parseImpl env buf end_)
              { s2 with pos := st.pos } with
          | thrown m => rfl
          | fault => rfl
          | returned ok s3 =>
            cases ok with
            | true => rfl
            | false =>
              simp only [Bool.false_eq_true, if_false]
              cases parse (env.getName .literal) (ParserLiteral.parseImpl env buf end_)
                  { s3 with pos := st.pos } with
              | thrown m => rfl
              | fault => rfl
              | returned ok s4 =>
                cases ok with
                | true => rfl
                | false =>
                  simp only [Bool.false_eq_true, if_false]
                  cases parse (env.getName .function) (ParserFunction.parseImpl env buf end_)
                      { s4 with pos := st.pos } with
                  | thrown m => rfl
                  | fault => rfl
                  | returned ok s5 =>
                    cases ok with
                    | true => rfl
                    | false =>
                      simp only [Bool.false_eq_true, if_false]
                      cases parse (env.getName .compoundIdentifier)
                          (ParserCompoundIdentifier.parseImpl env buf end_)
                          { s5 with pos := st.pos } with
                      | thrown m => rfl
                      | fault => rfl
                      | returned ok s6 =>
                        cases ok with
                        | true => rfl
                        | false =>
                          simp only [Bool.false_eq_true, if_false]
                          cases env.parserString "*" false false buf end_
                              { s6 with pos := st.pos } with
                          | thrown m => rfl
                          | fault => rfl
                          | returned ok s7 =>
                            cases ok with
                            | true => rfl
                            | false => rfl

/-- Alternatives that have all failed are passed over. -/
theorem orderedChoice_of_allFailed (begin_ : Nat) (diagnostic : String) :
    ∀ (pre rest : List (State → Outcome)) (st st0 : State), AllFailed begin_ pre st st0 →
      orderedChoice begin_ diagnostic (pre ++ rest) st
        = orderedChoice begin_ diagnostic rest st0 := by
  intro pre
  induction pre with
  | nil => intro rest st st0 h; simp only [AllFailed] at h; subst h; rfl
  | cons p ps ih =>
    intro rest st st0 h
    obtain ⟨st2, hp, hf⟩ := h
    simp only [List.cons_append, orderedChoice, hp]
    exact ih rest st2 st0 hf

set_option exponentiation.threshold 2000 in
set_option maxRecDepth 16000 in
/-- C15, as stated, does not hold: on `toDate(2014-01-01)` the first of the seven alternatives
that succeeds from the starting cursor is `ParserCompoundIdentifier` (name `toDate`, cursor
6), and `ParserExpressionElement` does not return its result: the exception of
`ParserFunction`, the alternative before it, ends the call. -/
theorem expressionElement_first_success_counterexample :
    firstSuccess (expressionElementAlternatives (refEnv 1) "toDate(2014-01-01)".toList 18 0)
        ⟨0, none, ""⟩
      = some ⟨6, some (.identifier ⟨0, 6⟩ "toDate".toList []), ""⟩
    ∧ ParserExpressionElement.parseImpl (refEnv 1) "toDate(2014-01-01)".toList 18
        ⟨0, none, ""⟩
      = .thrown (unquotedDateMessage "2014-01-01".toList) := by
  constructor <;> rfl

/-- C15, amended: `ParserExpressionElement` is the ordered choice of Subquery,
ParenthesisExpression, Array, Literal, Function, CompoundIdentifier and Asterisk, each
attempted from the starting cursor with the node and the diagnostic the failed alternatives
before it left.  It returns the result of the first alternative that returns `true` when all
before it have returned `false`; an exception of an alternative, all before it having
returned `false`, ends the call with that exception; when all seven have returned `false` it
fails with the cursor at the start and the combined diagnostic. -/
theorem expressionElement_ordered_choice (env : Env) (buf : List Char) (end_ : Nat)
    (st : State) :
    ParserExpressionElement.parseImpl env buf end_ st
      = orderedChoice st.pos expressionElementExpected
          (expressionElementAlternatives env buf end_ st.pos) st
    ∧ (∀ pre p post st0 st1,
        expressionElementAlternatives env buf end_ st.pos = pre ++ p :: post →
        AllFailed st.pos pre st st0 → p { st0 with pos := st.pos } = .returned true st1 →
        ParserExpressionElement.parseImpl env buf end_ st = .returned true st1)
    ∧ (∀ pre p post st0 m,
        expressionElementAlternatives env buf end_ st.pos = pre ++ p :: post →
        AllFailed st.pos pre st st0 → p { st0 with pos := st.pos } = .thrown m →
        ParserExpressionElement.parseImpl env buf end_ st = .thrown m)
    ∧ (∀ st0, AllFailed st.pos (expressionElementAlternatives env buf end_ st.pos) st st0 →
        ParserExpressionElement.parseImpl env buf end_ st
          = .returned false { st0 with pos := st.pos, expected := expressionElementExpected })
    := by
  have heq := expressionElement_eq_orderedChoice env buf end_ st
  refine ⟨heq, ?_, ?_, ?_⟩
  · intro pre p post st0 st1 halts hf hp
    rw [heq, halts, orderedChoice_of_allFailed _ _ pre _ st st0 hf]
    simp only [orderedChoice, hp]
  · intro pre p post st0 m halts hf hp
    rw [heq, halts, orderedChoice_of_allFailed _ _ pre _ st st0 hf]
    simp only [orderedChoice, hp]
  · intro st0 hf
    rw [heq]
    have := orderedChoice_of_allFailed st.pos expressionElementExpected _ [] st st0 hf
    rw [List.append_nil] at this
    rw [this]
    rfl

set_option exponentiation.threshold 2000 in
set_option maxRecDepth 16000 in
/-- C15, amended, at `)`, where the seven alternatives fail: the call fails with the cursor at
the start and the combined diagnostic. -/
theorem expressionElement_ordered_choice_witness :
    ParserExpressionElement.parseImpl (refEnv 1) ")".toList 1 ⟨0, none, ""⟩
      = .returned false ⟨0, none, expressionElementExpected⟩ :=
  (expressionElement_ordered_choice (refEnv 1) ")".toList 1 ⟨0, none, ""⟩).2.2.2
    ⟨0, none, "*"⟩
    ⟨_, rfl, _, rfl, _, rfl, _, rfl, _, rfl, _, rfl, _, rfl, rfl⟩

/-! ## ParserWithOptionalAlias: the alias -/

/-- `ParserIdentifier` returns an identifier node. -/
theorem identifier_node (env : Env) (buf : List Char) (end_ : Nat) (st : State) :
    (ParserIdentifier.parseImpl env buf end_ st).SucceedsWith fun st1 =>
      ∃ r n a, st1.node = some (.identifier r n a) := by
  unfold ParserIdentifier.parseImpl backQuotedIdentifier
  intro st' h
  simp only at h
  split at h
  · simp at h
  · split at h
    · simp at h
    · split at h
      · split at h
        · simp only [Outcome.returned.injEq, true_and] at h; subst h; exact ⟨_, _, _, rfl⟩
        · simp at h
      · split at h
        · simp at h
        · split at h
          · simp only [Outcome.returned.injEq, true_and] at h; subst h; exact ⟨_, _, _, rfl⟩
          · simp at h

/-- `ParserAlias`, called through `parse`, returns an identifier node. -/
theorem alias_node (env : Env) (buf : List Char) (end_ : Nat) (name : String) (st : State) :
    (parse name (ParserAlias.parseImpl env buf end_) st).SucceedsWith fun st1 =>
      ∃ r n a, st1.node = some (.identifier r n a) := by
  refine succeedsWith_parse name _ st (fun _ _ h => h) ?_
  unfold ParserAlias.parseImpl skipWhiteSpace
  refine succeedsWith_andThen fun ok st1 _ => ?_
  cases ok
  · exact succeedsWith_false _
  · refine succeedsWith_andThen fun _ st2 _ => ?_
    refine succeedsWith_andThen fun ok st3 h3 => ?_
    cases ok
    · exact succeedsWith_false _
    · exact succeedsWith_true
        (succeedsWith_parse _ _ st2 (fun _ _ h => h) (identifier_node env buf end_ _) st3 h3)

/-- C16: after the element parser has succeeded with a node `elem` and the white space has
been skipped, (1) a complete alias leaves an identifier node; (2) with the alias identifier
named `alias_name`, a Function, Identifier or Literal element gives success with the alias
of the node set to `alias_name` and its other fields as they were, and an element of another
kind gives the recoverable failure with the diagnostic `alias cannot be here`; (3) when the
keyword `AS` does not follow, the call succeeds with the element node as it was. -/
theorem withOptionalAlias_alias (env : Env) (elemParser : Parser) (buf : List Char)
    (end_ : Nat) (st st1 st2 : State) (b : Bool) (elem : AST)
    (helem : elemParser buf end_ st = .returned true st1)
    (hnode : st1.node = some elem)
    (hws : ignore2 (env.whiteSpaceOrComments buf end_) st1 = .returned b st2) :
    (∀ st3, parse (env.getName .alias_) (ParserAlias.parseImpl env buf end_)
          { st2 with node := none } = .returned true st3 →
        ∃ r alias_name a, st3.node = some (.identifier r alias_name a))
    ∧ (∀ st3 r alias_name a,
        parse (env.getName .alias_) (ParserAlias.parseImpl env buf end_)
          { st2 with node := none } = .returned true st3 →
        st3.node = some (.identifier r alias_name a) →
        ParserWithOptionalAlias.parseImpl env elemParser buf end_ st
          = match setAlias alias_name elem with
            | some node => .returned true { st3 with node := some node }
            | none =>
              .returned false { st3 with node := some elem, expected := "alias cannot be here" })
    ∧ (∀ st3, env.parserString "AS" true true buf end_
          { st2 with node := none, expected := env.getName .alias_ } = .returned false st3 →
        ParserWithOptionalAlias.parseImpl env elemParser buf end_ st
          = .returned true { st3 with node := some elem }) := by
  have hn2 : st2.node = some elem := by rw [ignore2_node hws, hnode]
  refine ⟨fun st3 h => alias_node env buf end_ _ _ st3 h, ?_, ?_⟩
  · intro st3 r alias_name a halias hid
    simp only [ParserWithOptionalAlias.parseImpl, helem, skipWhiteSpace, hws, halias,
      Outcome.andThen, Bool.not_true, Bool.false_eq_true, if_false, if_true, hid, hn2]
    cases elem <;> rfl
  · intro st3 has
    have halias : parse (env.getName .alias_) (ParserAlias.parseImpl env buf end_)
        { st2 with node := none } = .returned false st3 := by
      simp [parse, ParserAlias.parseImpl, has, Outcome.andThen]
    simp only [ParserWithOptionalAlias.parseImpl, helem, skipWhiteSpace, hws, halias,
      Outcome.andThen, Bool.not_true, Bool.false_eq_true, if_false, hn2]

/-- C16, at `x AS y` (the identifier `x` gets the alias `y`), at `* AS y` (an asterisk takes
no alias: failure with `alias cannot be here`) and at `x y` (no `AS`: the node of `x` as it
was). -/
theorem withOptionalAlias_alias_witness :
    ParserWithOptionalAlias.parseImpl (refEnv 1)
        (fun buf end_ =>
          parse "element" (ParserExpressionElement.parseImpl (refEnv 1) buf end_))
        "x AS y".toList 6
        ⟨0, none, ""⟩
      = .returned true ⟨6, some (.identifier ⟨0, 1⟩ "x".toList "y".toList), ""⟩
    ∧ ParserWithOptionalAlias.parseImpl (refEnv 1)
        (fun buf end_ =>
          parse "element" (ParserExpressionElement.parseImpl (refEnv 1) buf end_))
        "* AS y".toList 6
        ⟨0, none, ""⟩
      = .returned false ⟨6, some (.asterisk ⟨0, 1⟩), "alias cannot be here"⟩
    ∧ ParserWithOptionalAlias.parseImpl (refEnv 1)
        (fun buf end_ =>
          parse "element" (ParserExpressionElement.parseImpl (refEnv 1) buf end_))
        "x y".toList 3
        ⟨0, none, ""⟩
      = .returned true ⟨2, some (.identifier ⟨0, 1⟩ "x".toList []), "AS"⟩ :=
  ⟨(withOptionalAlias_alias (refEnv 1) _ "x AS y".toList 6 ⟨0, none, ""⟩
      ⟨1, some (.identifier ⟨0, 1⟩ "x".toList []), ""⟩
      ⟨2, some (.identifier ⟨0, 1⟩ "x".toList []), ""⟩
      true (.identifier ⟨0, 1⟩ "x".toList []) rfl rfl rfl).2.1
      ⟨6, some (.identifier ⟨5, 6⟩ "y".toList []), ""⟩ ⟨5, 6⟩ "y".toList [] rfl rfl,
    (withOptionalAlias_alias (refEnv 1) _ "* AS y".toList 6 ⟨0, none, ""⟩
      ⟨1, some (.asterisk ⟨0, 1⟩), ""⟩ ⟨2, some (.asterisk ⟨0, 1⟩), ""⟩
      true (.asterisk ⟨0, 1⟩) rfl rfl rfl).2.1
      ⟨6, some (.identifier ⟨5, 6⟩ "y".toList []), ""⟩ ⟨5, 6⟩ "y".toList [] rfl rfl,
    (withOptionalAlias_alias (refEnv 1) _ "x y".toList 3 ⟨0, none, ""⟩
      ⟨1, some (.identifier ⟨0, 1⟩ "x".toList []), ""⟩
      ⟨2, some (.identifier ⟨0, 1⟩ "x".toList []), ""⟩
      true (.identifier ⟨0, 1⟩ "x".toList []) rfl rfl rfl).2.2
      ⟨2, none, "AS"⟩ rfl⟩

/-! ## ParserOrderByElement: direction and collator -/

/-- `a.ignore(pos, end) || b.ignore(pos, end)` is `true` exactly when one of the two keywords
was matched. -/
theorem ignoreEither_true_iff (a b : State → Outcome) (st st1 : State) (ok : Bool)
    (h : ignoreEither a b st = .returned ok st1) : ok = true ↔ EitherMatched a b st := by
  unfold ignoreEither at h
  unfold EitherMatched
  cases ha : ignore2 a st with
  | thrown m => simp [ha, Outcome.andThen] at h
  | fault => simp [ha, Outcome.andThen] at h
  | returned oka s =>
    rw [ha] at h
    cases oka with
    | true =>
      simp only [Outcome.andThen, if_true, Outcome.returned.injEq] at h
      simp [← h.1]
    | false =>
      simp only [Outcome.andThen, Bool.false_eq_true, if_false] at h
      simp [h]

/-- C17: when `ParserOrderByElement` succeeds, the expression was parsed into a node, the
direction keywords and `COLLATE` were tried after it, and the node returned is the
OrderByElement over the span of the attempt whose only child is the node of the expression,
whose direction is `-1` when `DESCENDING` or `DESC` was matched and `1` otherwise, and whose
collator is absent when `COLLATE` was not matched and is the collator built from the locale
of the string literal parsed after `COLLATE` when it was.  When `COLLATE` is matched and the
string literal parser fails after it, the rule fails. -/
theorem orderByElement_node (env : Env) (buf : List Char) (end_ : Nat) (st : State) :
    (∀ st', ParserOrderByElement.parseImpl env buf end_ st = .returned true st' →
      ∃ (st1 st2 st3 st4 st5 st6 : State) (b2 descending b4 b5 collate : Bool)
          (collator : Option Collator),
        env.expressionWithOptionalAlias buf end_ { st with node := none } = .returned true st1
        ∧ ignore2 (env.whiteSpaceOrComments buf end_) { st1 with node := st.node }
            = .returned b2 st2
        ∧ ignoreEither (env.parserString "DESCENDING" true true buf end_)
            (env.parserString "DESC" true true buf end_) st2 = .returned descending st3
        ∧ (descending = true ↔
            EitherMatched (env.parserString "DESCENDING" true true buf end_)
              (env.parserString "DESC" true true buf end_) st2)
        ∧ (if descending then .returned true st3
            else ignoreEither (env.parserString "ASCENDING" true true buf end_)
              (env.parserString "ASC" true true buf end_) st3) = .returned b4 st4
        ∧ ignore2 (env.whiteSpaceOrComments buf end_) st4 = .returned b5 st5
        ∧ ignore2 (env.parserString "COLLATE" true true buf end_) st5 = .returned collate st6
        ∧ st'.node = some (.orderByElement ⟨st.pos, st'.pos⟩ (if descending then -1 else 1)
            collator [st1.node])
        ∧ (collate = false → collator = none ∧ st'.pos = st6.pos)
        ∧ (collate = true → ∃ (b7 : Bool) (st7 st8 : State) (r : StringRange)
              (locale a : List Char) (c : Collator),
            ignore2 (env.whiteSpaceOrComments buf end_) st6 = .returned b7 st7
            ∧ parse (env.getName .stringLiteral) (ParserStringLiteral.parseImpl env buf end_)
                { st7 with node := none } = .returned true st8
            ∧ st8.node = some (.literal r (.string locale) a)
            ∧ env.newCollator locale = .ok c ∧ collator = some c ∧ st'.pos = st8.pos))
    ∧ (∀ (st1 st2 st3 st4 st5 st6 st7 st8 : State) (b2 descending b4 b5 b7 : Bool),
        env.expressionWithOptionalAlias buf end_ { st with node := none } = .returned true st1 →
        ignore2 (env.whiteSpaceOrComments buf end_) { st1 with node := st.node }
            = .returned b2 st2 →
        ignoreEither (env.parserString "DESCENDING" true true buf end_)
            (env.parserString "DESC" true true buf end_) st2 = .returned descending st3 →
        (if descending then .returned true st3
            else ignoreEither (env.parserString "ASCENDING" true true buf end_)
              (env.parserString "ASC" true true buf end_) st3) = .returned b4 st4 →
        ignore2 (env.whiteSpaceOrComments buf end_) st4 = .returned b5 st5 →
        ignore2 (env.parserString "COLLATE" true true buf end_) st5 = .returned true st6 →
        ignore2 (env.whiteSpaceOrComments buf end_) st6 = .returned b7 st7 →
        parse (env.getName .stringLiteral) (ParserStringLiteral.parseImpl env buf end_)
            { st7 with node := none } = .returned false st8 →
        ParserOrderByElement.parseImpl env buf end_ st
          = .returned false { st8 with node := st.node }) := by
  constructor
  · intro st' h
    unfold ParserOrderByElement.parseImpl skipWhiteSpace at h
    cases h1 : env.expressionWithOptionalAlias buf end_ { st with node := none } with
    | thrown m => simp [h1, Outcome.andThen] at h
    | fault => simp [h1, Outcome.andThen] at h
    | returned ok1 s1 =>
      cases ok1 with
      | false => simp [h1, Outcome.andThen] at h
      | true =>
        simp only [h1, Outcome.andThen, Bool.not_true, Bool.false_eq_true, if_false] at h
        cases h2 : ignore2 (env.whiteSpaceOrComments buf end_) { s1 with node := st.node } with
        | thrown m => simp [h2] at h
        | fault => simp [h2] at h
        | returned b2 s2 =>
          simp only [h2] at h
          cases h3 : ignoreEither (env.parserString "DESCENDING" true true buf end_)
              (env.parserString "DESC" true true buf end_) s2 with
          | thrown m => simp [h3] at h
          | fault => simp [h3] at h
          | returned descending s3 =>
            simp only [h3] at h
            cases h4 : (if descending = true then Outcome.returned true s3
                else ignoreEither (env.parserString "ASCENDING" true true buf end_)
                  (env.parserString "ASC" true true buf end_) s3) with
            | thrown m => simp [h4] at h
            | fault => simp [h4] at h
            | returned b4 s4 =>
              simp only [h4] at h
              cases h5 : ignore2 (env.whiteSpaceOrComments buf end_) s4 with
              | thrown m => simp [h5] at h
              | fault => simp [h5] at h
              | returned b5 s5 =>
                simp only [h5] at h
                cases h6 : ignore2 (env.parserString "COLLATE" true true buf end_) s5 with
                | thrown m => simp [h6] at h
                | fault => simp [h6] at h
                | returned collate s6 =>
                  simp only [h6] at h
                  have hdir := ignoreEither_true_iff _ _ _ _ _ h3
                  cases collate with
                  | false =>
                    simp only [Bool.false_eq_true, if_false, Outcome.returned.injEq,
                      true_and] at h
                    subst h
                    exact ⟨s1, s2, s3, s4, s5, s6, b2, descending, b4, b5, false, none,
                      rfl, h2, h3, hdir, h4, h5, h6, rfl, fun _ => ⟨rfl, rfl⟩,
                      fun hc => by simp at hc⟩
                  | true =>
                    simp only [if_true] at h
                    cases h7 : ignore2 (env.whiteSpaceOrComments buf end_) s6 with
                    | thrown m => simp [h7] at h
                    | fault => simp [h7] at h
                    | returned b7 s7 =>
                      simp only [h7] at h
                      cases h8 : parse (env.getName .stringLiteral)
                          (ParserStringLiteral.parseImpl env buf end_)
                          { s7 with node := none } with
                      | thrown m => simp [h8] at h
                      | fault => simp [h8] at h
                      | returned ok8 s8 =>
                        cases ok8 with
                        | false => simp [h8] at h
                        | true =>
                          simp only [h8, Bool.not_true, Bool.false_eq_true, if_false] at h
                          split at h
                          · rename_i r locale a hnode
                            split at h
                            · rename_i c hc
                              simp only [Outcome.returned.injEq, true_and] at h
                              subst h
                              exact ⟨s1, s2, s3, s4, s5, s6, b2, descending, b4, b5, true,
                                some c, rfl, h2, h3, hdir, h4, h5, h6, rfl,
                                fun hc => by simp at hc,
                                fun _ => ⟨b7, s7, s8, r, locale, a, c, h7, h8, hnode, hc, rfl,
                                  rfl⟩⟩
                            · simp at h
                          · simp at h
  · intro st1 st2 st3 st4 st5 st6 st7 st8 b2 descending b4 b5 b7 h1 h2 h3 h4 h5 h6 h7 h8
    simp only [ParserOrderByElement.parseImpl, skipWhiteSpace, h1, h2, h3, h4, h5, h6, h7, h8,
      Outcome.andThen, Bool.not_true, Bool.false_eq_true, if_false, if_true, Bool.not_false]

/-- C17, at `x DESC COLLATE 'ru'` (direction `-1`, the collator of `ru`, the node of `x` as
only child) and at `x COLLATE ru` (no string literal after `COLLATE`: the rule fails). -/
theorem orderByElement_node_witness :
    (∃ (st1 st2 st3 st4 st5 st6 : State) (b2 descending b4 b5 collate : Bool)
        (collator : Option Collator),
      (refEnv 2).expressionWithOptionalAlias "x DESC COLLATE 'ru'".toList 19 ⟨0, none, ""⟩
        = .returned true st1
      ∧ ignore2 ((refEnv 2).whiteSpaceOrComments "x DESC COLLATE 'ru'".toList 19)
          { st1 with node := none } = .returned b2 st2
      ∧ ignoreEither
          ((refEnv 2).parserString "DESCENDING" true true "x DESC COLLATE 'ru'".toList 19)
          ((refEnv 2).parserString "DESC" true true "x DESC COLLATE 'ru'".toList 19) st2
          = .returned descending st3
      ∧ (descending = true ↔
          EitherMatched
            ((refEnv 2).parserString "DESCENDING" true true "x DESC COLLATE 'ru'".toList 19)
            ((refEnv 2).parserString "DESC" true true "x DESC COLLATE 'ru'".toList 19) st2)
      ∧ (if descending then .returned true st3
          else ignoreEither
            ((refEnv 2).parserString "ASCENDING" true true "x DESC COLLATE 'ru'".toList 19)
            ((refEnv 2).parserString "ASC" true true "x DESC COLLATE 'ru'".toList 19) st3)
          = .returned b4 st4
      ∧ ignore2 ((refEnv 2).whiteSpaceOrComments "x DESC COLLATE 'ru'".toList 19) st4
          = .returned b5 st5
      ∧ ignore2 ((refEnv 2).parserString "COLLATE" true true "x DESC COLLATE 'ru'".toList 19) st5
          = .returned collate st6
      ∧ some (AST.orderByElement ⟨0, 19⟩ (-1) (some ⟨"ru".toList⟩)
            [some (.identifier ⟨0, 1⟩ "x".toList [])])
          = some (.orderByElement ⟨0, 19⟩ (if descending then -1 else 1) collator [st1.node])
      ∧ (collate = false → collator = none ∧ 19 = st6.pos)
      ∧ (collate = true → ∃ (b7 : Bool) (st7 st8 : State) (r : StringRange)
            (locale a : List Char) (c : Collator),
          ignore2 ((refEnv 2).whiteSpaceOrComments "x DESC COLLATE 'ru'".toList 19) st6
            = .returned b7 st7
          ∧ parse ((refEnv 2).getName .stringLiteral)
              (ParserStringLiteral.parseImpl (refEnv 2) "x DESC COLLATE 'ru'".toList 19)
              { st7 with node := none } = .returned true st8
          ∧ st8.node = some (.literal r (.string locale) a)
          ∧ (refEnv 2).newCollator locale = .ok c ∧ collator = some c ∧ 19 = st8.pos))
    ∧ ParserOrderByElement.parseImpl (refEnv 2) "x COLLATE ru".toList 12 ⟨0, none, ""⟩
      = .returned false ⟨10, none, "opening single quote"⟩ :=
  ⟨(orderByElement_node (refEnv 2) "x DESC COLLATE 'ru'".toList 19 ⟨0, none, ""⟩).1
      ⟨19, some (.orderByElement ⟨0, 19⟩ (-1) (some ⟨"ru".toList⟩)
        [some (.identifier ⟨0, 1⟩ "x".toList [])]), ""⟩ rfl,
    (orderByElement_node (refEnv 2) "x COLLATE ru".toList 12 ⟨0, none, ""⟩).2
      ⟨2, some (.identifier ⟨0, 1⟩ "x".toList []), ""⟩ ⟨2, none, ""⟩ ⟨2, none, ""⟩
      ⟨2, none, ""⟩ ⟨2, none, ""⟩ ⟨9, none, ""⟩ ⟨10, none, ""⟩
      ⟨10, none, "opening single quote"⟩ false false false false true
      rfl rfl rfl rfl rfl rfl rfl rfl⟩

/-! ## ParserNumber: how far the cursor advances -/

/-- A text of at most 319 bytes without a zero byte is handed to the C library whole. -/
theorem numberText_short (buf : List Char) (pos end_ : Nat) (hle : end_ - pos ≤ 319)
    (hzero : ∀ c ∈ slice buf pos end_, c ≠ Char.ofNat 0) :
    numberText buf pos end_ = slice buf pos end_ := by
  have hs : slice buf pos (pos + (if end_ - pos < 319 then end_ - pos else 319))
      = slice buf pos end_ := by
    simp only [slice]
    congr 1
    split <;> omega
  rw [numberText, hs, List.takeWhile_eq_self_iff]
  intro c hc
  simpa using hzero c hc

set_option exponentiation.threshold 2000 in
set_option maxRecDepth 100000 in
/-- C18, as stated, does not hold: on 320 zeros `ParserNumber` succeeds and advances the cursor
by 319, and the longest floating-point prefix of the input is the 320 bytes. -/
theorem number_advance_counterexample :
    ParserNumber.parseImpl (refEnv 0) (List.replicate 320 '0') 320 ⟨0, none, ""⟩
      = .returned true ⟨319, some (.literal ⟨0, 319⟩ (.uint64 0) []), ""⟩
    ∧ longestFloatPrefix (slice (List.replicate 320 '0') 0 320) = 320 := by
  constructor
  · rfl
  · rfl

/-- C18, amended: when `ParserNumber` succeeds, the cursor has advanced by the length of the
longest floating-point prefix of the text handed to the C library, the first 319 bytes of the
input at most, and that length is not zero; when the input is not empty and that prefix is
empty, it fails with the diagnostic `number`. -/
theorem number_advance (env : Env) (buf : List Char) (end_ : Nat) (st : State) :
    (∀ st1, ParserNumber.parseImpl env buf end_ st = .returned true st1 →
      st1.pos = st.pos + longestFloatPrefix (numberText buf st.pos end_)
      ∧ 0 < longestFloatPrefix (numberText buf st.pos end_))
    ∧ (st.pos < end_ → end_ ≤ buf.length →
        longestFloatPrefix (numberText buf st.pos end_) = 0 →
        ParserNumber.parseImpl env buf end_ st
          = .returned false { st with expected := "number" }) := by
  refine ⟨?_, ?_⟩
  · intro st1 h
    by_cases h1 : st.pos = end_
    · simp [ParserNumber.parseImpl, h1] at h
    · by_cases h2 : end_ < st.pos
      · simp [ParserNumber.parseImpl, h1, h2] at h
      · by_cases h3 : buf.length
            < st.pos + (if end_ - st.pos < 319 then end_ - st.pos else 319)
        · simp [ParserNumber.parseImpl, h1, h2, h3] at h
        · simp only [ParserNumber.parseImpl, if_neg h1, if_neg h2, if_neg h3] at h
          change (if (strtod (numberText buf st.pos end_)).1 = 0
              ∨ (strtod (numberText buf st.pos end_)).2.rangeError = true then _ else _) = _ at h
          split at h
          · simp at h
          · rename_i hd
            simp only [Outcome.returned.injEq, true_and] at h
            subst h
            simp only [not_or] at hd
            exact ⟨rfl, Nat.pos_of_ne_zero hd.1⟩
  · intro hlt hlen hzero
    have h1 : st.pos ≠ end_ := by omega
    have h2 : ¬ end_ < st.pos := by omega
    have h3 : ¬ buf.length < st.pos + (if end_ - st.pos < 319 then end_ - st.pos else 319) := by
      split <;> omega
    simp only [longestFloatPrefix, numberText] at hzero
    simp only [ParserNumber.parseImpl, if_neg h1, if_neg h2, if_neg h3, hzero, true_or,
      if_true]

set_option exponentiation.threshold 2000 in
set_option maxRecDepth 16000 in
/-- C18, amended, at `12 x` (the cursor advances by two) and at `x` (no floating-point
prefix: failure with `number`). -/
theorem number_advance_witness :
    ((⟨2, some (.literal ⟨0, 2⟩ (.uint64 12) []), ""⟩ : State).pos
        = 0 + longestFloatPrefix (numberText "12 x".toList 0 4)
      ∧ 0 < longestFloatPrefix (numberText "12 x".toList 0 4))
    ∧ ParserNumber.parseImpl (refEnv 0) "x".toList 1 ⟨0, none, ""⟩
      = .returned false ⟨0, none, "number"⟩ :=
  ⟨(number_advance (refEnv 0) "12 x".toList 4 ⟨0, none, ""⟩).1 _ rfl,
    (number_advance (refEnv 0) "x".toList 1 ⟨0, none, ""⟩).2 (by decide) (by decide) rfl⟩

/-! ## ParserWithOptionalAlias after a failed alias attempt -/

/-- After a failed alias attempt `ParserWithOptionalAlias` succeeds with the cursor where the
attempt left it: the cursor is not set back to where it was after the white space. -/
theorem withOptionalAlias_after_failed_alias (env : Env) (elemParser : Parser)
    (buf : List Char) (end_ : Nat) (st st1 st2 st3 : State) (b : Bool)
    (helem : elemParser buf end_ st = .returned true st1)
    (hws : ignore2 (env.whiteSpaceOrComments buf end_) st1 = .returned b st2)
    (halias : parse (env.getName .alias_) (ParserAlias.parseImpl env buf end_)
      { st2 with node := none } = .returned false st3) :
    ParserWithOptionalAlias.parseImpl env elemParser buf end_ st
      = .returned true { st3 with node := st2.node } := by
  simp only [ParserWithOptionalAlias.parseImpl, helem, skipWhiteSpace, hws, halias,
    Outcome.andThen, Bool.not_true, Bool.false_eq_true, if_false]

/-- C19, at `x AS 5`: the element `x` and the blank end at offset 2; the alias attempt reads
`AS` and the blank and fails at the digit; `ParserWithOptionalAlias` succeeds with the node
of `x` without alias and leaves the cursor at offset 5, on the digit. -/
theorem withOptionalAlias_failed_alias_stays_consumed :
    parse "element" (ParserExpressionElement.parseImpl (refEnv 1) "x AS 5".toList 6)
        ⟨0, none, ""⟩
      = .returned true ⟨1, some (.identifier ⟨0, 1⟩ "x".toList []), ""⟩
    ∧ ignore2 ((refEnv 1).whiteSpaceOrComments "x AS 5".toList 6)
        ⟨1, some (.identifier ⟨0, 1⟩ "x".toList []), ""⟩
      = .returned true ⟨2, some (.identifier ⟨0, 1⟩ "x".toList []), ""⟩
    ∧ parse ((refEnv 1).getName .alias_) (ParserAlias.parseImpl (refEnv 1) "x AS 5".toList 6)
        ⟨2, none, ""⟩
      = .returned false ⟨5, none, "identifier"⟩
    ∧ ParserWithOptionalAlias.parseImpl (refEnv 1)
        (fun buf end_ => parse "element" (ParserExpressionElement.parseImpl (refEnv 1) buf end_))
        "x AS 5".toList 6 ⟨0, none, ""⟩
      = .returned true ⟨5, some (.identifier ⟨0, 1⟩ "x".toList []), "identifier"⟩ :=
  ⟨rfl, rfl, rfl, rfl⟩

/-! ## The reads of the leaf parsers -/

/-- Memories that agree before `end_` hold the same byte at an offset before `end_`. -/
theorem getElem?_of_take_eq {buf buf1 : List Char} {end_ : Nat}
    (h : buf.take end_ = buf1.take end_) {i : Nat} (hi : i < end_) : buf[i]? = buf1[i]? := by
  have := congrArg (fun l => l[i]?) h
  simpa [List.getElem?_take, hi] using this

/-- Memories that agree before `end_` have the same slices before `end_`. -/
theorem slice_of_take_eq {buf buf1 : List Char} {end_ : Nat}
    (h : buf.take end_ = buf1.take end_) (p : Nat) {q : Nat} (hq : q ≤ end_) :
    slice buf p q = slice buf1 p q := by
  have e : ∀ l : List Char, slice l p q = ((l.take end_).take q).drop p := by
    intro l
    rw [List.take_take, Nat.min_eq_left hq, slice, List.drop_take]
  rw [e, e, h]

/-- The scan of a name reads only bytes before `end_`. -/
theorem scanName_of_take_eq {buf buf1 : List Char} {end_ : Nat} (begin_ : Nat)
    (h : buf.take end_ = buf1.take end_) (hlen : buf.length = buf1.length) :
    ∀ (n p : Nat), end_ - p = n → p ≤ end_ →
      scanName end_ begin_ (buf.drop p) p = scanName end_ begin_ (buf1.drop p) p := by
  intro n
  induction n with
  | zero =>
    intro p hn hp
    have : p = end_ := by omega
    cases buf.drop p <;> cases buf1.drop p <;> simp [scanName, this]
  | succ n ih =>
    intro p hn hp
    have hlt : p < end_ := by omega
    have hget := getElem?_of_take_eq h hlt
    cases hc : buf[p]? with
    | none =>
      have h1 : buf.drop p = [] := List.drop_eq_nil_of_le (by simpa using hc)
      have h2 : buf1.drop p = [] :=
        List.drop_eq_nil_of_le (by rw [← hlen]; simpa using hc)
      rw [h1, h2]
    | some c =>
      have h1 : buf.drop p = c :: buf.drop (p + 1) := drop_of_getElem? hc
      have h2 : buf1.drop p = c :: buf1.drop (p + 1) :=
        drop_of_getElem? (by rw [← hget]; exact hc)
      rw [h1, h2]
      simp only [scanName]
      rw [ih (p + 1) (by omega) (by omega)]

/-- The outer loop of `ParserCompoundIdentifier` reads only bytes before `end_`. -/
theorem compoundLoop_of_take_eq {buf buf1 : List Char} {end_ : Nat} (begin_ : Nat)
    (h : buf.take end_ = buf1.take end_) (hlen : buf.length = buf1.length) :
    ∀ (fuel p : Nat), p ≤ end_ →
      compoundLoop buf end_ begin_ fuel p = compoundLoop buf1 end_ begin_ fuel p := by
  intro fuel
  induction fuel with
  | zero => intros; rfl
  | succ fuel ih =>
    intro p hp
    rw [compoundLoop, compoundLoop, scanName_of_take_eq begin_ h hlen _ p rfl hp]
    split
    · rfl
    · cases hs : scanName end_ begin_ (buf1.drop p) p with
      | none => rfl
      | some q =>
        simp only
        split
        · rename_i hcond
          rw [getElem?_of_take_eq h (by omega : q < end_),
            getElem?_of_take_eq h hcond.2, ih (q + 1) (by omega)]
        · rfl

/-- The reads of `ParserIdentifier`, `ParserCompoundIdentifier` and `ParserNumber` stay inside
the input: on two memories of the same size that agree on the bytes before `end_`, whatever
they hold at `end_` and after it, each of the three does the same. -/
theorem leaf_parsers_read_inside_input (env : Env) (buf buf1 : List Char) (end_ : Nat)
    (st : State) (hle : st.pos ≤ end_) (h : buf.take end_ = buf1.take end_)
    (hlen : buf.length = buf1.length) :
    ParserIdentifier.parseImpl env buf end_ st = ParserIdentifier.parseImpl env buf1 end_ st
    ∧ ParserCompoundIdentifier.parseImpl env buf end_ st
      = ParserCompoundIdentifier.parseImpl env buf1 end_ st
    ∧ ParserNumber.parseImpl env buf end_ st = ParserNumber.parseImpl env buf1 end_ st := by
  refine ⟨?_, ?_, ?_⟩
  · unfold ParserIdentifier.parseImpl backQuotedIdentifier
    by_cases hpos : st.pos = end_
    · simp [hpos]
    · have hlt : st.pos < end_ := by omega
      simp only [if_neg hpos, getElem?_of_take_eq h hlt,
        scanName_of_take_eq st.pos h hlen _ st.pos rfl hle,
        slice_of_take_eq h st.pos (Nat.le_refl end_)]
      cases buf1[st.pos]? with
      | none => rfl
      | some c =>
        simp only
        split
        · rfl
        · cases hs : scanName end_ st.pos (buf1.drop st.pos) st.pos with
          | none => rfl
          | some q =>
            have hq := (scanName_run end_ st.pos _ _ _ hs).2.2.2.2 hle
            simp only [slice_of_take_eq h st.pos hq]
  · unfold ParserCompoundIdentifier.parseImpl backQuotedIdentifier
    by_cases hpos : st.pos = end_
    · simp [hpos]
    · have hlt : st.pos < end_ := by omega
      simp only [if_neg hpos, getElem?_of_take_eq h hlt,
        compoundLoop_of_take_eq st.pos h hlen _ st.pos hle,
        slice_of_take_eq h st.pos (Nat.le_refl end_), hlen]
      cases buf1[st.pos]? with
      | none => rfl
      | some c =>
        simp only
        split
        · rfl
        · cases hl : compoundLoop buf1 end_ st.pos (buf1.length + 1) st.pos with
          | none => rfl
          | some q =>
            have hq := (compoundLoop_text buf1 end_ st.pos _ _ _ hl).2.1 hle
            simp only [slice_of_take_eq h st.pos hq]
  · unfold ParserNumber.parseImpl
    have hs : slice buf st.pos (st.pos + (if end_ - st.pos < 319 then end_ - st.pos else 319))
        = slice buf1 st.pos
            (st.pos + (if end_ - st.pos < 319 then end_ - st.pos else 319)) :=
      slice_of_take_eq h st.pos (by split <;> omega)
    simp only [hs, hlen]

/-! ## The cursor of the leaf parsers and the end of the input -/

/-- A leading run is part of the text. -/
theorem length_takeWhile_le (p : Char → Bool) : ∀ (s : List Char),
    (s.takeWhile p).length ≤ s.length := by
  intro s
  induction s with
  | nil => simp
  | cons c cs ih =>
    simp only [List.takeWhile_cons]
    split
    · simp only [List.length_cons]; omega
    · simp

/-- The digits taken are part of the text. -/
theorem takeDigits_length_le (base : Nat) (s : List Char) :
    (takeDigits base s).length ≤ s.length :=
  length_takeWhile_le _ _

/-- A sign takes no more than the text has. -/
theorem readSign_le (s : List Char) : (readSign s).2 ≤ s.length := by
  unfold readSign
  split <;> simp

/-- A mantissa takes no more than the text has. -/
theorem readMantissa_le (base : Nat) (s : List Char) (n m fd : Nat)
    (h : readMantissa base s = some (n, m, fd)) : n ≤ s.length := by
  unfold readMantissa at h
  have hip := takeDigits_length_le base s
  simp only at h
  split at h
  · rename_i fr hdrop
    have hlen := congrArg List.length hdrop
    simp only [List.length_drop, List.length_cons] at hlen
    have hfp := takeDigits_length_le base fr
    split at h
    · simp at h
    · simp only [Option.some.injEq, Prod.mk.injEq] at h
      omega
  · split at h
    · simp at h
    · simp only [Option.some.injEq, Prod.mk.injEq] at h
      omega

/-- An exponent part takes no more than the text has. -/
theorem readExponent_le (isMarker : Char → Bool) (s : List Char) :
    (readExponent isMarker s).1 ≤ s.length := by
  unfold readExponent
  split
  · simp
  · rename_i m rest
    split
    · have h1 := readSign_le rest
      have h2 := takeDigits_length_le 10 (rest.drop (readSign rest).2)
      simp only [List.length_drop] at h2
      simp only
      split
      · simp
      · simp only [List.length_cons]; omega
    · simp

/-- A word the text starts with is no longer than the text. -/
theorem startsWithIgnoreCase_le (s word : List Char) (h : startsWithIgnoreCase s word = true) :
    word.length ≤ s.length := by
  unfold startsWithIgnoreCase at h
  have := congrArg List.length (eq_of_beq h)
  simp only [List.length_map, List.length_take] at this
  omega

/-- A special value takes no more than the text has. -/
theorem strtodSpecial_le (negative : Bool) (s : List Char) :
    (strtodSpecial negative s).1 ≤ s.length := by
  unfold strtodSpecial
  split
  · rename_i h; exact startsWithIgnoreCase_le _ _ h
  · split
    · rename_i h; exact startsWithIgnoreCase_le _ _ h
    · split
      · rename_i h
        have h3 : 3 ≤ s.length := startsWithIgnoreCase_le _ _ h
        split
        · rename_i rest hdrop
          have hlen := congrArg List.length hdrop
          simp only [List.length_drop, List.length_cons] at hlen
          have hcs : (rest.takeWhile isNChar).length ≤ rest.length :=
            length_takeWhile_le _ _
          simp only
          split
          · rename_i tl hdrop2
            have hlen2 := congrArg List.length hdrop2
            simp only [List.length_drop, List.length_cons] at hlen2
            simp only
            omega
          · exact h3
        · exact h3
      · simp

/-- A decimal constant or special value takes no more than the text has. -/
theorem strtodDecimal_le (negative : Bool) (s : List Char) :
    (strtodDecimal negative s).1 ≤ s.length := by
  unfold strtodDecimal
  split
  · rename_i n m fd h
    have h1 := readMantissa_le 10 s n m fd h
    have h2 := readExponent_le (fun c => c == 'e' || c == 'E') (s.drop n)
    simp only [List.length_drop] at h2
    simp only
    omega
  · exact strtodSpecial_le negative s

/-- The subject sequence is part of the text. -/
theorem strtodSubject_le (negative : Bool) (s : List Char) :
    (strtodSubject negative s).1 ≤ s.length := by
  unfold strtodSubject
  split
  · rename_i x rest
    split
    · split
      · rename_i n m fd h
        have h1 := readMantissa_le 16 rest n m fd h
        have h2 := readExponent_le (fun c => c == 'p' || c == 'P') (rest.drop n)
        simp only [List.length_drop] at h2
        simp only [List.length_cons]
        omega
      · exact strtodDecimal_le negative _
    · exact strtodDecimal_le negative _
  · exact strtodDecimal_le negative s

/-- `strtod` reads no more than the text has: `pos_double` stays inside the C string. -/
theorem strtod_consumed_le (s : List Char) : (strtod s).1 ≤ s.length := by
  unfold strtod
  have h1 : (s.takeWhile isSpace).length ≤ s.length := length_takeWhile_le _ _
  have h2 := readSign_le (s.drop (s.takeWhile isSpace).length)
  have h3 := strtodSubject_le (readSign (s.drop (s.takeWhile isSpace).length)).1
    ((s.drop (s.takeWhile isSpace).length).drop
      (readSign (s.drop (s.takeWhile isSpace).length)).2)
  simp only [List.length_drop] at h2 h3
  simp only
  split
  · simp
  · simp only
    omega

/-- `ParserIdentifier` on an input that does not start with a back quote: on success the
cursor has moved and is not past `end`. -/
theorem identifier_cursor_in_input (env : Env) (buf : List Char) (end_ : Nat)
    (st st1 : State) (c : Char) (hle : st.pos ≤ end_) (hc : buf[st.pos]? = some c)
    (hq : c ≠ backQuote)
    (h : ParserIdentifier.parseImpl env buf end_ st = .returned true st1) :
    st.pos < st1.pos ∧ st1.pos ≤ end_ := by
  simp only [ParserIdentifier.parseImpl, hc, if_neg hq] at h
  split at h
  · simp at h
  · cases hs : scanName end_ st.pos (buf.drop st.pos) st.pos with
    | none => simp [hs] at h
    | some q =>
      rw [hs] at h
      simp only at h
      split at h
      · rename_i hne
        simp only [Outcome.returned.injEq, true_and] at h
        subst h
        obtain ⟨h1, _, _, _, h5⟩ := scanName_run end_ st.pos _ _ _ hs
        exact ⟨by simp only; omega, h5 hle⟩
      · simp at h

/-- `ParserCompoundIdentifier` on an input that does not start with a back quote: on success
the cursor has moved and is not past `end`. -/
theorem compoundIdentifier_cursor_in_input (env : Env) (buf : List Char) (end_ : Nat)
    (st st1 : State) (c : Char) (hle : st.pos ≤ end_) (hc : buf[st.pos]? = some c)
    (hq : c ≠ backQuote)
    (h : ParserCompoundIdentifier.parseImpl env buf end_ st = .returned true st1) :
    st.pos < st1.pos ∧ st1.pos ≤ end_ := by
  simp only [ParserCompoundIdentifier.parseImpl, hc, if_neg hq] at h
  split at h
  · simp at h
  · cases hl : compoundLoop buf end_ st.pos (buf.length + 1) st.pos with
    | none => simp [hl] at h
    | some q =>
      rw [hl] at h
      simp only at h
      split at h
      · rename_i hne
        simp only [Outcome.returned.injEq, true_and] at h
        subst h
        obtain ⟨h1, h2, _⟩ := compoundLoop_text buf end_ st.pos _ _ _ hl
        exact ⟨by simp only; omega, h2 hle⟩
      · simp at h

/-- `ParserNumber`: on success the cursor has moved and is not past `end`. -/
theorem number_cursor_in_input (env : Env) (buf : List Char) (end_ : Nat) (st st1 : State)
    (h : ParserNumber.parseImpl env buf end_ st = .returned true st1) :
    st.pos < st1.pos ∧ st1.pos ≤ end_ := by
  by_cases h1 : st.pos = end_
  · simp [ParserNumber.parseImpl, h1] at h
  · by_cases h2 : end_ < st.pos
    · simp [ParserNumber.parseImpl, h1, h2] at h
    · by_cases h3 : buf.length
          < st.pos + (if end_ - st.pos < 319 then end_ - st.pos else 319)
      · simp [ParserNumber.parseImpl, h1, h2, h3] at h
      · simp only [ParserNumber.parseImpl, if_neg h1, if_neg h2, if_neg h3] at h
        change (if (strtod (numberText buf st.pos end_)).1 = 0
            ∨ (strtod (numberText buf st.pos end_)).2.rangeError = true then _ else _) = _ at h
        split at h
        · simp at h
        · rename_i hd
          simp only [Outcome.returned.injEq, true_and] at h
          simp only [not_or] at hd
          have hlen := strtod_consumed_le (numberText buf st.pos end_)
          have htext : (numberText buf st.pos end_).length ≤ end_ - st.pos := by
            refine Nat.le_trans (length_takeWhile_le _ _) ?_
            simp only [slice, List.length_take]
            split <;> omega
          have hpos : st1.pos = st.pos + (strtod (numberText buf st.pos end_)).1 := by
            rw [← h]; rfl
          have hd1 := hd.1
          omega

/-- C20, the failing input: the memory holds quote, `x`, quote and the end pointer is on the
second quote, so the input is the two bytes quote, `x`.  `ParserStringLiteral` reads the byte
at `end`, succeeds and leaves the cursor at 3, one byte past `end`; with another byte stored
at `end` the same input fails. -/
theorem stringLiteral_cursor_past_end :
    ParserStringLiteral.parseImpl (refEnv 0) [singleQuote, 'x', singleQuote] 2 ⟨0, none, ""⟩
      = .returned true ⟨3, some (.literal ⟨0, 3⟩ (.string ['x']) []), ""⟩
    ∧ ParserStringLiteral.parseImpl (refEnv 0) [singleQuote, 'x', 'y'] 2 ⟨0, none, ""⟩
      = .returned false ⟨2, none, "closing single quote"⟩ :=
  ⟨rfl, rfl⟩

end DB
